import Mathlib

/-!
Cluster updates of the Z2 (Ising) field on a weighted graph.

A shallow embedding of `include/ising.h` (class `QfeIsing`) together with the
properties of its Wolff, Swendsen-Wang and Metropolis updates, of the action and of
the bit-packed serialization of the field.

Conventions of the embedding.

* `double` values are exact rationals.  The one transcendental operation of the
  source, the comparison `RandReal() < exp(x)`, is a parameter `expLt u x` of
  every operation that performs it.
* `int` site and link ids are natural numbers; `std::vector` is `List`.
  Reading outside a vector is undefined behaviour in the source; the embedding
  reads a default value there, and the theorems assume the sizes set up by the
  `QfeIsing` constructor and ids in range.
* The generator `lattice->rng` is a position in an infinite stream of raw
  draws, so that the number and order of draws of an operation is observable.
* `while` loops take a fuel argument counting evaluations of the loop
  condition and return `none` when it runs out.
-/

namespace QFE

/-! ## Data model (`lattice.h` declarations as used by `ising.h`) -/

/-- The random generator `QfeRng`: the raw draws it is going to produce and the
number of draws consumed so far. -/
structure QfeRng where
  stream : Nat → Nat
  pos : Nat

/-- Modelled from the spec: `uniformInt(lo,hi)->integer inclusive` of the Random
Stream (`rng.h` is not part of the sources).  One raw draw is consumed and
reduced into `[lo, hi]`. -/
def QfeRng.RandInt (rng : QfeRng) (lo hi : Nat) : Nat × QfeRng :=
  (lo + rng.stream rng.pos % (hi - lo + 1), { rng with pos := rng.pos + 1 })

/-- Modelled from the spec: `uniform01()->[0,1)` of the Random Stream (`rng.h`
is not part of the sources).  One raw draw is consumed and turned into a dyadic
rational with 53 fractional bits. -/
def QfeRng.RandReal (rng : QfeRng) : ℚ × QfeRng :=
  ((rng.stream rng.pos % 2 ^ 53 : Nat) / (2 ^ 53 : Nat), { rng with pos := rng.pos + 1 })

/-- A site `QfeSite`: statistical weight, number of neighbours, and the
parallel arrays of incident link ids and neighbour site ids. -/
structure QfeSite where
  wt : ℚ
  nn : Nat
  links : List Nat
  neighbors : List Nat

instance : Inhabited QfeSite := ⟨⟨0, 0, [], []⟩⟩

/-- A link `QfeLink`: the two end sites `sites[0]`, `sites[1]` and the weight. -/
structure QfeLink where
  sites : Nat × Nat
  wt : ℚ

instance : Inhabited QfeLink := ⟨⟨(0, 0), 0⟩⟩

/-- The lattice `QfeLattice`, which also owns the generator. -/
structure QfeLattice where
  n_sites : Nat
  n_links : Nat
  sites : List QfeSite
  links : List QfeLink
  vol : ℚ
  rng : QfeRng

/-- The class `QfeIsing`. -/
structure QfeIsing where
  lattice : QfeLattice
  spin : List ℚ
  beta : ℚ
  is_clustered : List Bool
  wolff_cluster : List Nat
  sw_root : List Nat

/-- Replace the generator of the lattice (the effect of a draw on `lattice->rng`). -/
def QfeIsing.withRng (f : QfeIsing) (rng : QfeRng) : QfeIsing :=
  { f with lattice := { f.lattice with rng := rng } }

/-! ## Wolff update -/

/-- One iteration `n` of the neighbour loop of `WolffUpdate` (lines 167-182) for
the popped site record `site` and its captured value `value`.  The state is the
object together with the stack (top first). -/
def wolffTry (expLt : ℚ → ℚ → Bool) (site : QfeSite) (value : ℚ)
    (st : QfeIsing × List Nat) (n : Nat) : QfeIsing × List Nat :=
  let f := st.1
  let l := site.links.getD n 0
  let link_wt := (f.lattice.links.getD l default).wt
  let s := site.neighbors.getD n 0
  -- skip if the site is already clustered
  if f.is_clustered.getD s false then st
  else
    -- check if link is clustered
    let rate := -2 * f.beta * value * f.spin.getD s 0 * link_wt
    if rate ≥ 0 then st
    else
      let d := f.lattice.rng.RandReal
      if expLt d.1 rate then (f.withRng d.2, st.2)
      else
        ({ f.withRng d.2 with
            wolff_cluster := f.wolff_cluster ++ [s]
            is_clustered := f.is_clustered.set s true },
          s :: st.2)

/-- The `while (stack.size() != 0)` loop of `WolffUpdate` (lines 157-183). -/
def wolffLoop (expLt : ℚ → ℚ → Bool) : Nat → QfeIsing → List Nat → Option QfeIsing
  | 0, _, _ => none
  | _ + 1, f, [] => some f
  | fuel + 1, f, s :: stack =>
    -- flip the spin
    let value := f.spin.getD s 0
    let f1 := { f with spin := f.spin.set s (-value) }
    -- try to add neighbors
    let site := f.lattice.sites.getD s default
    let st := (List.range site.nn).foldl (wolffTry expLt site value) (f1, stack)
    wolffLoop expLt fuel st.1 st.2

/-- The method `QfeIsing::WolffUpdate`: returns the cluster size and the object
after the update. -/
def WolffUpdate (expLt : ℚ → ℚ → Bool) (fuel : Nat) (f : QfeIsing) : Option (Nat × QfeIsing) :=
  -- remove all sites from the cluster
  let f0 := { f with
    is_clustered := List.replicate f.is_clustered.length false
    wolff_cluster := [] }
  -- choose a random site and add it to the cluster
  let d := f0.lattice.rng.RandInt 0 (f0.lattice.n_sites - 1)
  let s := d.1
  let f1 := { f0.withRng d.2 with
    wolff_cluster := f0.wolff_cluster ++ [s]
    is_clustered := f0.is_clustered.set s true }
  (wolffLoop expLt fuel f1 [s]).map fun f2 => (f2.wolff_cluster.length, f2)

/-! ## Well-formedness of the inputs -/

/-- The vector sizes set up by the constructor `QfeIsing::QfeIsing`
(`spin`, `is_clustered` and `sw_root` are resized to `lattice->sites.size()`),
for a lattice whose `sites` vector holds its `n_sites` dynamic sites. -/
def QfeIsing.Sized (f : QfeIsing) : Prop :=
  f.lattice.n_sites ≤ f.lattice.sites.length ∧
  f.spin.length = f.lattice.sites.length ∧
  f.is_clustered.length = f.lattice.sites.length ∧
  f.sw_root.length = f.lattice.sites.length

instance (f : QfeIsing) : Decidable f.Sized := by
  unfold QfeIsing.Sized; infer_instance

/-- Every adjacency entry of a dynamic site exists and names a dynamic site:
for `s < n_sites` and `n < sites[s].nn`, `sites[s].neighbors[n] < n_sites`. -/
def QfeLattice.AdjInRange (lat : QfeLattice) : Prop :=
  ∀ s < lat.n_sites,
    (lat.sites.getD s default).nn ≤ (lat.sites.getD s default).neighbors.length ∧
    ∀ n < (lat.sites.getD s default).nn,
      (lat.sites.getD s default).neighbors.getD n 0 < lat.n_sites

instance (lat : QfeLattice) : Decidable lat.AdjInRange := by
  unfold QfeLattice.AdjInRange; infer_instance

/-- The invariant of the `while` loop of `WolffUpdate`, stated at the loop head
for the object `f` and the stack, relative to the lattice `lat`, the spins
`spin0` before the call and the seed site. -/
structure WolffInv (lat : QfeLattice) (beta : ℚ) (spin0 : List ℚ) (seed : Nat)
    (f : QfeIsing) (stack : List Nat) : Prop where
  sites_eq : f.lattice.sites = lat.sites
  links_eq : f.lattice.links = lat.links
  n_eq : f.lattice.n_sites = lat.n_sites
  beta_eq : f.beta = beta
  clen : lat.n_sites ≤ f.is_clustered.length
  slen : f.spin.length = spin0.length
  seed_head : f.wolff_cluster.head? = some seed
  mem_iff : ∀ i, f.is_clustered.getD i false = true ↔ i ∈ f.wolff_cluster
  nodup : f.wolff_cluster.Nodup
  lt : ∀ i ∈ f.wolff_cluster, i < lat.n_sites
  stack_sub : ∀ i ∈ stack, i ∈ f.wolff_cluster
  stack_nodup : stack.Nodup
  spin_eq : ∀ i, f.spin.getD i 0 =
    if i ∈ f.wolff_cluster ∧ i ∉ stack then -spin0.getD i 0 else spin0.getD i 0

/-- The seed site drawn by `WolffUpdate`. -/
def wolffSeed (f : QfeIsing) : Nat :=
  (f.lattice.rng.RandInt 0 (f.lattice.n_sites - 1)).1

/-- The object after `WolffUpdate` when the cluster stays the seed alone. -/
def wolffSingle (f : QfeIsing) : QfeIsing :=
  { f with
    lattice := { f.lattice with rng := (f.lattice.rng.RandInt 0 (f.lattice.n_sites - 1)).2 }
    spin := f.spin.set (wolffSeed f) (-f.spin.getD (wolffSeed f) 0)
    is_clustered := (List.replicate f.is_clustered.length false).set (wolffSeed f) true
    wolff_cluster := [wolffSeed f] }

/-- The 4-node cycle with unit weights of the spec scenario, with the raw draw
stream `2, 9, 16, ...`. -/
def cycle4 : QfeLattice :=
  ⟨4, 4,
    [⟨1, 2, [0, 3], [1, 3]⟩, ⟨1, 2, [0, 1], [0, 2]⟩, ⟨1, 2, [1, 2], [1, 3]⟩,
      ⟨1, 2, [2, 3], [2, 0]⟩],
    [⟨(0, 1), 1⟩, ⟨(1, 2), 1⟩, ⟨(2, 3), 1⟩, ⟨(3, 0), 1⟩], 4, ⟨fun i => 7 * i + 2, 0⟩⟩

/-- An Ising field on `cycle4` with spins `+1, +1, +1, -1`. -/
def ising4 (beta : ℚ) : QfeIsing :=
  ⟨cycle4, [1, 1, 1, -1], beta, [false, false, false, false], [], [0, 0, 0, 0]⟩

/-- Three sites, the last one isolated (`nn = 0`), one link `0 - 1`; the first raw
draw `2` selects the isolated site as seed. -/
def isolated3 : QfeLattice :=
  ⟨3, 1, [⟨1, 1, [0], [1]⟩, ⟨1, 1, [0], [0]⟩, ⟨1, 0, [], []⟩], [⟨(0, 1), 1⟩], 3,
    ⟨fun i => 7 * i + 2, 0⟩⟩

/-- An Ising field on `isolated3`. -/
def ising3 : QfeIsing :=
  ⟨isolated3, [1, -1, 1], 1, [false, false, false], [], [0, 0, 0]⟩

/-! ## Swendsen-Wang update -/

/-- First loop of `FindSWRoot` (line 244), "find the root":
`while (root != sw_root[root]) root = sw_root[root];`. -/
def findRootLoop : Nat → List Nat → Nat → Option Nat
  | 0, _, _ => none
  | fuel + 1, sw, root =>
    if root ≠ sw.getD root 0 then findRootLoop fuel sw (sw.getD root 0) else some root

/-- Second loop of `FindSWRoot` (lines 247-251), "update the trail from s to the
root". -/
def compressLoop : Nat → List Nat → Nat → Nat → Option (List Nat)
  | 0, _, _, _ => none
  | fuel + 1, sw, root, s =>
    if s ≠ root then compressLoop fuel (sw.set s root) root (sw.getD s 0) else some sw

/-- The method `QfeIsing::FindSWRoot`, acting on the only member it touches, the
vector `sw_root`: returns the root and the vector after path compression. -/
def FindSWRoot (fuel : Nat) (sw : List Nat) (s : Nat) : Option (Nat × List Nat) :=
  match findRootLoop fuel sw (sw.getD s 0) with
  | none => none
  | some root =>
    match compressLoop fuel sw root s with
    | none => none
    | some sw1 => some (root, sw1)

/-- The union step of `SWUpdate` (lines 205-212) for an activated link `s1 - s2`. -/
def swUnion (fuel : Nat) (sw : List Nat) (s1 s2 : Nat) : Option (List Nat) :=
  -- find the root node for each site
  match FindSWRoot fuel sw s1 with
  | none => none
  | some (r1, sw1) =>
    match FindSWRoot fuel sw1 s2 with
    | none => none
    | some (r2, sw2) =>
      if r1 = r2 then some sw2
      else
        let r := min r1 r2
        some ((sw2.set r1 r).set r2 r)

/-- One iteration `l` of the link loop of `SWUpdate` (lines 196-213). -/
def swBond (expLt : ℚ → ℚ → Bool) (fuel : Nat) (f : QfeIsing) (l : Nat) : Option QfeIsing :=
  let s1 := (f.lattice.links.getD l default).sites.1
  let s2 := (f.lattice.links.getD l default).sites.2
  let link_wt := (f.lattice.links.getD l default).wt
  -- check if link is clustered
  let rate := -2 * f.beta * f.spin.getD s1 0 * f.spin.getD s2 0 * link_wt
  if rate ≥ 0 then some f
  else
    let d := f.lattice.rng.RandReal
    if expLt d.1 rate then some (f.withRng d.2)
    else (swUnion fuel f.sw_root s1 s2).map fun sw => { f.withRng d.2 with sw_root := sw }

/-- The bond phase of `SWUpdate` (lines 193-213): reset of the forest by
`std::iota` and the loop over all links. -/
def swBondPhase (expLt : ℚ → ℚ → Bool) (fuel : Nat) (f : QfeIsing) : Option QfeIsing :=
  (List.range f.lattice.n_links).foldlM (swBond expLt fuel)
    { f with sw_root := List.range f.sw_root.length }

/-- The locals of the cluster phase of `SWUpdate` together with the object:
`sw_map` (a `std::map<int,int>`, as an association list), `is_flipped` and
`n_clusters`. -/
structure SWClusters where
  f : QfeIsing
  sw_map : List (Nat × Nat)
  is_flipped : List Bool
  n_clusters : Nat

/-- One iteration `s` of the site loop of `SWUpdate` (lines 219-235). -/
def swSite (fuel : Nat) (st : SWClusters) (s : Nat) : Option SWClusters :=
  -- find the root node for this site
  match FindSWRoot fuel st.f.sw_root s with
  | none => none
  | some (r, sw) =>
    let f1 := { st.f with sw_root := sw }
    let st1 : SWClusters :=
      if (st.sw_map.lookup r).isNone then
        let d := f1.lattice.rng.RandReal
        { f := f1.withRng d.2
          sw_map := (r, st.n_clusters) :: st.sw_map
          is_flipped := st.is_flipped ++ [decide (d.1 > (1 / 2 : ℚ))]
          n_clusters := st.n_clusters + 1 }
      else { st with f := f1 }
    let c := (st1.sw_map.lookup r).getD 0
    -- flip half the clusters
    if st1.is_flipped.getD c false then
      some { st1 with f := { st1.f with spin := st1.f.spin.set s (-st1.f.spin.getD s 0) } }
    else some st1

/-- The cluster phase of `SWUpdate` (lines 215-235). -/
def swClusterPhase (fuel : Nat) (f : QfeIsing) : Option SWClusters :=
  (List.range f.lattice.n_sites).foldlM (swSite fuel) ⟨f, [], [], 0⟩

/-- The method `QfeIsing::SWUpdate`: returns the number of clusters and the object
after the update. -/
def SWUpdate (expLt : ℚ → ℚ → Bool) (fuel : Nat) (f : QfeIsing) : Option (Nat × QfeIsing) :=
  match swBondPhase expLt fuel f with
  | none => none
  | some f1 =>
    match swClusterPhase fuel f1 with
    | none => none
    | some st => some (st.n_clusters, st.f)

/-- The links activated by the bond test of `SWUpdate` over the link ids `ls`, in
order, each as its pair of end sites.  The test and its draws are those of
`swBond`; the spins do not change during the bond phase. -/
def swActivated (expLt : ℚ → ℚ → Bool) (f : QfeIsing) : List Nat → QfeRng → List (Nat × Nat)
  | [], _ => []
  | l :: ls, rng =>
    let s1 := (f.lattice.links.getD l default).sites.1
    let s2 := (f.lattice.links.getD l default).sites.2
    let link_wt := (f.lattice.links.getD l default).wt
    let rate := -2 * f.beta * f.spin.getD s1 0 * f.spin.getD s2 0 * link_wt
    if rate ≥ 0 then swActivated expLt f ls rng
    else
      let d := rng.RandReal
      if expLt d.1 rate then swActivated expLt f ls d.2
      else (s1, s2) :: swActivated expLt f ls d.2

/-- Every link in use exists and its two end sites are dynamic sites. -/
def QfeLattice.LinksInRange (lat : QfeLattice) : Prop :=
  lat.n_links ≤ lat.links.length ∧
  ∀ l < lat.n_links,
    (lat.links.getD l default).sites.1 < lat.n_sites ∧
    (lat.links.getD l default).sites.2 < lat.n_sites

instance (lat : QfeLattice) : Decidable lat.LinksInRange := by
  unfold QfeLattice.LinksInRange; infer_instance

/-! ## The union-find forest -/

/-- The forest condition on `sw_root`: no parent id exceeds the node id. -/
def Forest (sw : List Nat) : Prop := ∀ i < sw.length, sw.getD i 0 ≤ i

/-- The root of node `x` in the forest `sw`: the result of following parent ids
from `x`, with the fuel `x + 1` that suffices in a `Forest`. -/
def rootOf (sw : List Nat) (x : Nat) : Nat := (findRootLoop (x + 1) sw x).getD x

/-- Connectivity by a list of united pairs: the reflexive-symmetric-transitive
closure of the pairs. -/
def Conn (E : List (Nat × Nat)) : Nat → Nat → Prop :=
  Relation.EqvGen fun a b => (a, b) ∈ E

/-- The forests reachable from the identity forest on `n` nodes by calls of
`FindSWRoot` and by union steps that returned. -/
inductive Reachable (n : Nat) : List Nat → Prop
  | init : Reachable n (List.range n)
  | find (fuel s : Nat) (sw : List Nat) (r : Nat) (sw1 : List Nat) :
      Reachable n sw → s < n → FindSWRoot fuel sw s = some (r, sw1) → Reachable n sw1
  | union (fuel a b : Nat) (sw sw1 : List Nat) :
      Reachable n sw → a < n → b < n → swUnion fuel sw a b = some sw1 → Reachable n sw1

/-- The roots of the forest `sw` decide connectivity by the pairs `E`: two nodes
have the same root exactly when they are connected. -/
def RootsMatch (sw : List Nat) (E : List (Nat × Nat)) : Prop :=
  Forest sw ∧
  ∀ x y, x < sw.length → y < sw.length → (rootOf sw x = rootOf sw y ↔ Conn E x y)

/-- A sequence of union steps as `SWUpdate` performs them, one per pair. -/
def swUnions (fuel : Nat) (sw : List Nat) (pairs : List (Nat × Nat)) : Option (List Nat) :=
  pairs.foldlM (fun sw p => swUnion fuel sw p.1 p.2) sw

/-- The links activated in one call of `SWUpdate` on `f`, as pairs of end sites. -/
def swLinks (expLt : ℚ → ℚ → Bool) (f : QfeIsing) : List (Nat × Nat) :=
  swActivated expLt f (List.range f.lattice.n_links) f.lattice.rng

/-- The object `f1` differs from `f` at most in the generator and the scratch
vectors: spins, coupling and lattice topology are those of `f`. -/
def SameField (f f1 : QfeIsing) : Prop :=
  f1.spin = f.spin ∧ f1.beta = f.beta ∧ f1.lattice.links = f.lattice.links ∧
  f1.lattice.sites = f.lattice.sites ∧ f1.lattice.n_sites = f.lattice.n_sites ∧
  f1.lattice.n_links = f.lattice.n_links

/-- The flip decision recorded for the cluster with root `r`: `is_flipped[sw_map[r]]`,
and `false` while the root has no entry in `sw_map`. -/
def flipOf (st : SWClusters) (r : Nat) : Bool :=
  match st.sw_map.lookup r with
  | some c => st.is_flipped.getD c false
  | none => false

/-- The invariant of the site loop of `SWUpdate` after the sites `done` have been
visited, relative to the forest `sw0` and the object `f0` at loop entry. -/
structure SWInv (sw0 : List Nat) (f0 : QfeIsing) (done : List Nat) (st : SWClusters) : Prop where
  forest : Forest st.f.sw_root
  len : st.f.sw_root.length = sw0.length
  roots : ∀ x, x < sw0.length → rootOf st.f.sw_root x = rootOf sw0 x
  keys : ∀ r, (st.sw_map.lookup r).isSome = true ↔ ∃ x ∈ done, rootOf sw0 x = r
  vals : ∀ r c, st.sw_map.lookup r = some c → c < st.is_flipped.length
  nflip : st.is_flipped.length = st.n_clusters
  count : st.n_clusters = (done.map (rootOf sw0)).toFinset.card
  spin_len : st.f.spin.length = f0.spin.length
  spin_eq : ∀ x, st.f.spin.getD x 0 =
    if x ∈ done ∧ flipOf st (rootOf sw0 x) = true then -f0.spin.getD x 0 else f0.spin.getD x 0
  draws : st.f.lattice.rng.pos = f0.lattice.rng.pos + st.n_clusters
  n_eq : st.f.lattice.n_sites = f0.lattice.n_sites

/-- Connectivity of the sites `0 .. n-1` by the pairs `E`, as an equivalence; its
classes are the connected components of the graph with these edges. -/
def connSetoid (n : Nat) (E : List (Nat × Nat)) : Setoid (Fin n) where
  r a b := Conn E a.val b.val
  iseqv :=
    ⟨fun a => Relation.EqvGen.refl a.val, fun h => Relation.EqvGen.symm _ _ h,
      fun h1 h2 => Relation.EqvGen.trans _ _ _ h1 h2⟩

/-! ## Draw counts of the bond phase -/

/-- The rate `-2 * beta * spin[s1] * spin[s2] * link_wt` of link `l` as the bond test of
`SWUpdate` computes it (line 202). -/
def swRate (f : QfeIsing) (l : Nat) : ℚ :=
  -2 * f.beta * f.spin.getD (f.lattice.links.getD l default).sites.1 0 *
    f.spin.getD (f.lattice.links.getD l default).sites.2 0 *
    (f.lattice.links.getD l default).wt

/-- The number of links of the lattice whose rate is negative: the links for which
the test `rate >= 0.0 || RandReal() < exp(rate)` reaches its second operand. -/
def swTestedLinks (f : QfeIsing) : Nat :=
  ((List.range f.lattice.n_links).filter fun l => decide (swRate f l < 0)).length

/-! ## The comparison against `exp` -/

/-- The parameter `expLt` decides the comparison `u < exp(x)` of the source. -/
def IsExpLt (expLt : ℚ → ℚ → Bool) : Prop :=
  ∀ u x : ℚ, expLt u x = true ↔ (u : ℝ) < Real.exp (x : ℝ)

/-- The 4-cycle of `cycle4` with a generator whose raw draws are all `0`, so that
every `RandReal()` returns `0`. -/
def cycle4Zero : QfeLattice :=
  ⟨4, 4,
    [⟨1, 2, [0, 3], [1, 3]⟩, ⟨1, 2, [0, 1], [0, 2]⟩, ⟨1, 2, [1, 2], [1, 3]⟩,
      ⟨1, 2, [2, 3], [2, 0]⟩],
    [⟨(0, 1), 1⟩, ⟨(1, 2), 1⟩, ⟨(2, 3), 1⟩, ⟨(3, 0), 1⟩], 4, ⟨fun _ => 0, 0⟩⟩

/-- An Ising field on `cycle4Zero` with all spins `+1` and `beta = 1`, in the state
of `WolffUpdate` after site 0 was popped and negated. -/
def ising4Popped : QfeIsing :=
  ⟨cycle4Zero, [-1, 1, 1, 1], 1, [true, false, false, false], [0], [0, 0, 0, 0]⟩

/-! ## Action and Metropolis update -/

/-- The method `QfeIsing::Action` (lines 78-90). -/
def Action (f : QfeIsing) : ℚ :=
  (List.range f.lattice.n_links).foldl
      (fun action l =>
        action -
          f.beta * f.spin.getD (f.lattice.links.getD l default).sites.1 0 *
            f.spin.getD (f.lattice.links.getD l default).sites.2 0 *
            (f.lattice.links.getD l default).wt)
      0 /
    f.lattice.vol

/-- The local `delta_S` of `Metropolis` for site `s` (lines 120-129): the sum over
the links connected to the site, then `delta_S *= 2.0 * spin[s]`. -/
def delta_S (f : QfeIsing) (s : Nat) : ℚ :=
  (List.range (f.lattice.sites.getD s default).nn).foldl
      (fun acc n =>
        acc +
          f.beta * f.spin.getD ((f.lattice.sites.getD s default).neighbors.getD n 0) 0 *
            (f.lattice.links.getD ((f.lattice.sites.getD s default).links.getD n 0) default).wt)
      0 *
    (2 * f.spin.getD s 0)

/-- One iteration `s` of the site loop of `Metropolis` (lines 119-136); the state is
the object and the counter `accept`. -/
def metropolisSite (expLt : ℚ → ℚ → Bool) (st : QfeIsing × Nat) (s : Nat) : QfeIsing × Nat :=
  let f := st.1
  -- metropolis algorithm
  if delta_S f s ≤ 0 then ({ f with spin := f.spin.set s (f.spin.getD s 0 * -1) }, st.2 + 1)
  else
    let d := f.lattice.rng.RandReal
    if expLt d.1 (-delta_S f s) then
      ({ f.withRng d.2 with spin := f.spin.set s (f.spin.getD s 0 * -1) }, st.2 + 1)
    else (f.withRng d.2, st.2)

/-- The method `QfeIsing::Metropolis`: returns the acceptance fraction and the
object after the sweep. -/
def Metropolis (expLt : ℚ → ℚ → Bool) (f : QfeIsing) : ℚ × QfeIsing :=
  let st := (List.range f.lattice.n_sites).foldl (metropolisSite expLt) (f, 0)
  ((st.2 : ℚ) / (f.lattice.n_sites : ℚ), st.1)

/-- The accept decision of the trial at site `s` on the object `f`. -/
def metropolisAccepts (expLt : ℚ → ℚ → Bool) (f : QfeIsing) (s : Nat) : Bool :=
  decide (delta_S f s ≤ 0) || expLt f.lattice.rng.RandReal.1 (-delta_S f s)

/-- The accept decisions of the trials at the sites `ss`, in order, starting on `f`. -/
def metropolisDecisions (expLt : ℚ → ℚ → Bool) : QfeIsing → List Nat → List Bool
  | _, [] => []
  | f, s :: ss =>
    metropolisAccepts expLt f s :: metropolisDecisions expLt (metropolisSite expLt (f, 0) s).1 ss

/-- The link `l` seen from site `i`: the link id with the opposite end site, when
`i` is an end site of `l`. -/
def incident (lat : QfeLattice) (i l : Nat) : Option (Nat × Nat) :=
  if (lat.links.getD l default).sites.1 = i then some (l, (lat.links.getD l default).sites.2)
  else if (lat.links.getD l default).sites.2 = i then some (l, (lat.links.getD l default).sites.1)
  else none

/-- No link in use joins a site to itself. -/
def QfeLattice.NoSelfLoops (lat : QfeLattice) : Prop :=
  ∀ l < lat.n_links, (lat.links.getD l default).sites.1 ≠ (lat.links.getD l default).sites.2

instance (lat : QfeLattice) : Decidable lat.NoSelfLoops := by
  unfold QfeLattice.NoSelfLoops; infer_instance

/-- The adjacency list of site `i` lists exactly its incident links, each once, with
the opposite end site as neighbour (in any order). -/
def QfeLattice.AdjExact (lat : QfeLattice) (i : Nat) : Prop :=
  List.Perm
    ((List.range (lat.sites.getD i default).nn).map fun n =>
      ((lat.sites.getD i default).links.getD n 0, (lat.sites.getD i default).neighbors.getD n 0))
    ((List.range lat.n_links).filterMap (incident lat i))

instance (lat : QfeLattice) (i : Nat) : Decidable (lat.AdjExact i) := by
  unfold QfeLattice.AdjExact; infer_instance

/-! ## Bit-packed serialization of the field -/

/-- The update of the 8-bit `char mask` at the end of each loop iteration of
`WriteField` and `ReadField`: `mask <<= 1; if (!mask) mask = 1;`.  The mask is held
as its bit pattern, a number below 256. -/
def nextMask (mask : Nat) : Nat :=
  if mask * 2 % 256 = 0 then 1 else mask * 2 % 256

/-- One iteration `i` of the loop of `WriteField` (lines 51-57); the state is the
buffer of `unsigned char` and the mask. -/
def writeStep (spin : List ℚ) (st : List Nat × Nat) (i : Nat) : List Nat × Nat :=
  (if spin.getD i 0 = -1 then st.1.set (i / 8) ((st.1.getD (i / 8) 0 ||| st.2) % 256) else st.1,
    nextMask st.2)

/-- The method `QfeIsing::WriteField`: returns the bytes handed to `fwrite`. -/
def WriteField (f : QfeIsing) : List Nat :=
  ((List.range f.spin.length).foldl (writeStep f.spin)
    (List.replicate ((f.spin.length + 7) / 8) 0, 1)).1

/-- The method `QfeIsing::ColdStart`: `std::fill` of the first `n_sites` spins
with `1.0`. -/
def ColdStart (f : QfeIsing) : QfeIsing :=
  { f with spin := List.replicate f.lattice.n_sites 1 ++ f.spin.drop f.lattice.n_sites }

/-- One iteration `i` of the loop of `ReadField` (lines 69-75); the state is the
spin vector and the mask. -/
def readStep (spin_buf : List Nat) (st : List ℚ × Nat) (i : Nat) : List ℚ × Nat :=
  (if spin_buf.getD (i / 8) 0 &&& st.2 ≠ 0 then st.1.set i (-1) else st.1, nextMask st.2)

/-- The method `QfeIsing::ReadField` on the bytes `file` delivered by `fread` into
the zero-initialised buffer. -/
def ReadField (f : QfeIsing) (file : List Nat) : QfeIsing :=
  let spin_buf := (List.range ((f.spin.length + 7) / 8)).map fun j => file.getD j 0
  { ColdStart f with
    spin := ((List.range f.spin.length).foldl (readStep spin_buf) ((ColdStart f).spin, 1)).1 }

/-- A field of ten sites without links, for the serialization examples. -/
def field10 (spin : List ℚ) : QfeIsing :=
  ⟨⟨10, 0, [], [], 1, ⟨fun _ => 0, 0⟩⟩, spin, 1, [], [], []⟩

/-! ## Scratch state -/

/-- Replace the scratch vector `sw_root`. -/
def QfeIsing.withSwRoot (f : QfeIsing) (sw : List Nat) : QfeIsing :=
  { f with sw_root := sw }

/-- Replace the scratch vectors `is_clustered` and `wolff_cluster`. -/
def QfeIsing.withWolffScratch (f : QfeIsing) (c : List Bool) (w : List Nat) : QfeIsing :=
  { f with is_clustered := c, wolff_cluster := w }

/-- The objects `f` and `g` have the same lattice (with its generator), spins and
`beta`, and scratch vectors of the same sizes; the contents of `is_clustered`,
`wolff_cluster` and `sw_root` are arbitrary. -/
def SameUpToScratch (f g : QfeIsing) : Prop :=
  g.lattice = f.lattice ∧ g.spin = f.spin ∧ g.beta = f.beta ∧
  g.is_clustered.length = f.is_clustered.length ∧ g.sw_root.length = f.sw_root.length

/-- The field `ising4 1` with other contents of the scratch vectors. -/
def ising4Scratch : QfeIsing :=
  ⟨cycle4, [1, 1, 1, -1], 1, [true, false, true, true], [3, 1, 2], [2, 2, 2, 2]⟩

/-! ## Trace of the Wolff loop -/

/-- The object at the head of the `while` loop of `WolffUpdate`, after the reset and
the seeding (lines 145-155). -/
def wolffStart (f : QfeIsing) : QfeIsing :=
  { ({ f with is_clustered := List.replicate f.is_clustered.length false,
              wolff_cluster := [] } : QfeIsing).withRng
        (f.lattice.rng.RandInt 0 (f.lattice.n_sites - 1)).2 with
    wolff_cluster := [] ++ [wolffSeed f]
    is_clustered := (List.replicate f.is_clustered.length false).set (wolffSeed f) true }

/-- The sites popped from the stack by the `while` loop of `WolffUpdate`, in order;
the object and the stack evolve as in `wolffLoop`. -/
def wolffPops (expLt : ℚ → ℚ → Bool) : Nat → QfeIsing → List Nat → List Nat
  | 0, _, _ => []
  | _ + 1, _, [] => []
  | fuel + 1, f, s :: stack =>
    s :: wolffPops expLt fuel
      ((List.range (f.lattice.sites.getD s default).nn).foldl
        (wolffTry expLt (f.lattice.sites.getD s default) (f.spin.getD s 0))
        ({ f with spin := f.spin.set s (-f.spin.getD s 0) }, stack)).1
      ((List.range (f.lattice.sites.getD s default).nn).foldl
        (wolffTry expLt (f.lattice.sites.getD s default) (f.spin.getD s 0))
        ({ f with spin := f.spin.set s (-f.spin.getD s 0) }, stack)).2

/-- The pairs (site, adjacency entry) that undergo the in-cluster check of the
neighbour loop, in order, for the popped sites `pops`: every entry `n < nn` of every
popped site. -/
def wolffChecks (lat : QfeLattice) (pops : List Nat) : List (Nat × Nat) :=
  pops.flatMap fun s => (List.range (lat.sites.getD s default).nn).map fun n => (s, n)

instance (sw : List Nat) : Decidable (Forest sw) := by
  unfold Forest; infer_instance

/-! ## Parent paths -/

/-- The node `x` lies on the parent path that starts at `s`: it is `s` or lies on
the parent path of the parent of `s`. -/
inductive OnPath (sw : List Nat) : Nat → Nat → Prop
  | here (s : Nat) : OnPath sw s s
  | step (s x : Nat) : OnPath sw (sw.getD s 0) x → OnPath sw s x

/-! ## Periodic separations on the rectangular lattice -/

/-- The separation `dx` of the cluster loop of `ising_rect_rad.cc` after its wrap
(lines 155, 158-163): `int dx = x2 - x1; if (dx < -Nx / 2) dx += Nx; else if
(dx > Nx / 2) dx -= Nx;`, with the truncating division of `int`. -/
def dx (Nx x1 x2 : Int) : Int :=
  let dx := x2 - x1
  -- mod distances to the range [-N/2,+N/2]
  if dx < Int.tdiv (-Nx) 2 then dx + Nx
  else if dx > Int.tdiv Nx 2 then dx - Nx
  else dx

/-- The separation `dy` of the same loop after its wrap (lines 156, 164-168). -/
def dy (Ny y1 y2 : Int) : Int :=
  let dy := y2 - y1
  if dy < Int.tdiv (-Ny) 2 then dy + Ny
  else if dy > Int.tdiv Ny 2 then dy - Ny
  else dy

/-! ## Time separation on the AdS3 lattice -/

/-- The members of `QfeLatticeAdS3` that `DeltaT` reads: the number of time slices,
the ratio of temporal to spatial lattice spacing and the time coordinate of the
sites. -/
structure QfeLatticeAdS3 where
  Nt : Int
  t_scale : ℚ
  t : List Int

/-- The method `QfeLatticeAdS3::DeltaT` (`ads3.h`, lines 172-175); `abs` on `int`
is the cast of `Int.natAbs`. -/
def QfeLatticeAdS3.DeltaT (lat : QfeLatticeAdS3) (s1 s2 : Nat) : ℚ :=
  let dt : Int :=
    Int.tdiv lat.Nt 2 -
      (((((lat.t.getD s1 0 - lat.t.getD s2 0).natAbs : Nat) : Int) -
        Int.tdiv lat.Nt 2).natAbs : Nat)
  (dt : ℚ) / lat.t_scale

/-- The periodic time separation in the words of the specification:
`min(|t1 - t2|, Nt - |t1 - t2|)`. -/
def periodicSeparation (Nt t1 t2 : Int) : Int :=
  min (((t1 - t2).natAbs : Nat) : Int) (Nt - (((t1 - t2).natAbs : Nat) : Int))

/-- Three time slices with unit `t_scale`; site 0 lies in slice 0 and site 1 in
slice 2, which the periodic time links join directly. -/
def threeSlices : QfeLatticeAdS3 := ⟨3, 1, [0, 2]⟩

/-! ## Hot start and the Z2 condition -/

/-- Modelled from the spec: `bool()->p=1/2` of the Random Stream (`rng.h` is not
part of the sources).  One raw draw is consumed and its parity is the result. -/
def QfeRng.RandBool (rng : QfeRng) : Bool × QfeRng :=
  (decide (rng.stream rng.pos % 2 = 1), { rng with pos := rng.pos + 1 })

/-- One iteration `s` of the loop of `HotStart` (lines 101-107). -/
def hotStartSite (f : QfeIsing) (s : Nat) : QfeIsing :=
  let d := f.lattice.rng.RandBool
  if d.1 then { f.withRng d.2 with spin := f.spin.set s 1 }
  else { f.withRng d.2 with spin := f.spin.set s (-1) }

/-- The method `QfeIsing::HotStart`. -/
def HotStart (f : QfeIsing) : QfeIsing :=
  (List.range f.lattice.n_sites).foldl hotStartSite f

/-- The Z2 condition on the field: every `spin[s]` with `s < n_sites` is `+1` or
`-1`. -/
def QfeIsing.IsZ2 (f : QfeIsing) : Prop :=
  ∀ s < f.lattice.n_sites, f.spin.getD s 0 = 1 ∨ f.spin.getD s 0 = -1

instance (f : QfeIsing) : Decidable f.IsZ2 := by
  unfold QfeIsing.IsZ2; infer_instance

/-- The object `r` arises from `f` by negating entries of `spin` only: same number
of sites, same vector size, and every entry is the old one or its negation. -/
def OnlyNegates (f r : QfeIsing) : Prop :=
  r.lattice.n_sites = f.lattice.n_sites ∧ r.spin.length = f.spin.length ∧
  ∀ i, r.spin.getD i 0 = f.spin.getD i 0 ∨ r.spin.getD i 0 = -f.spin.getD i 0

/-! ## Growth of the Wolff cluster -/

/-- The ways the vector `wolff_cluster` grows in `WolffUpdate`: it starts as the seed
alone (line 154), and a site is appended (line 178) only as the adjacency entry `n`
of a site `s` already in the cluster whose bond test had a negative rate, computed
from the spins `spin0` before the call. -/
inductive WolffGrown (lat : QfeLattice) (beta : ℚ) (spin0 : List ℚ) (seed : Nat) :
    List Nat → Prop
  | seed : WolffGrown lat beta spin0 seed [seed]
  | add (c : List Nat) (s n : Nat) : WolffGrown lat beta spin0 seed c → s ∈ c →
      n < (lat.sites.getD s default).nn →
      -2 * beta * spin0.getD s 0 *
          spin0.getD ((lat.sites.getD s default).neighbors.getD n 0) 0 *
          (lat.links.getD ((lat.sites.getD s default).links.getD n 0) default).wt < 0 →
      WolffGrown lat beta spin0 seed (c ++ [(lat.sites.getD s default).neighbors.getD n 0])

/-- Site `b` is an adjacency entry of site `a`: `sites[a].neighbors[n] == b` for some
`n < sites[a].nn`. -/
def QfeLattice.Adjacent (lat : QfeLattice) (a b : Nat) : Prop :=
  ∃ n, n < (lat.sites.getD a default).nn ∧ (lat.sites.getD a default).neighbors.getD n 0 = b

/-- Some link in use joins the sites `a` and `b`. -/
def QfeLattice.Linked (lat : QfeLattice) (a b : Nat) : Prop :=
  ∃ l, l < lat.n_links ∧
    ((lat.links.getD l default).sites = (a, b) ∨ (lat.links.getD l default).sites = (b, a))

/-- A path of `step`s from `a` to `b` all of whose sites are in the list `c`. -/
def ClusterPath (step : Nat → Nat → Prop) (c : List Nat) : Nat → Nat → Prop :=
  Relation.ReflTransGen fun a b => a ∈ c ∧ b ∈ c ∧ step a b

/-! ## Hyperspherical harmonic indices in `phi4_s3_corr.cc` -/

/-- The value held by an `int` after an operation whose exact result is `x`: the
two's complement wrap-around of `x` to 32 bits. -/
def toInt32 (x : Int) : Int := (x + 2147483648) % 4294967296 - 2147483648

/-- The number of hyperspherical harmonics to measure (line 90), in the arithmetic
of `int`: `n_yjlm = (j_max + 1) * (j_max + 2) * (j_max + 3) / 6` with every sum and
product wrapped to 32 bits and the truncating division. -/
def n_yjlm (j_max : Int) : Int :=
  Int.tdiv
    (toInt32 (toInt32 (toInt32 (j_max + 1) * toInt32 (j_max + 2)) * toInt32 (j_max + 3))) 6

/-- The nested loops over `y_j`, `y_l`, `y_m` that fill `yjlm_2pt_sum` (lines
185-193), for one site; `y_j` takes the values `0 .. j_max`, none when `j_max < 0`.
The state is the counter `y_i` and the list of the harmonics visited so far, each as
`(y_i, y_j, y_l, y_m)`: the index used for `yjlm_2pt_sum[y_i]` and the arguments of
`GetYjlm`.  The counters count up from 0 and are held as natural numbers, which is
exact while they stay below `2 ^ 31`. -/
def nestedHarmonics (j_max : Int) : Nat × List (Nat × Nat × Nat × Nat) :=
  (List.range (j_max + 1).toNat).foldl
    (fun st y_j =>
      (List.range (y_j + 1)).foldl
        (fun st y_l =>
          (List.range (y_l + 1)).foldl
            (fun st y_m => (st.1 + 1, st.2 ++ [(st.1, y_j, y_l, y_m)]))
            st)
        st)
    (0, [])

/-- The state of the measurement loop of lines 198-219: the incremental counter
`(y_j, y_l, y_m)`, the harmonics visited so far as `(y_i, y_j, y_l, y_m)`, and the
indices `y_j` of the calls `legendre_2pt[y_j].Measure` made so far.  No counter
exceeds the number of iterations made, which is below `2 ^ 31`. -/
structure HarmonicCounter where
  y_j : Nat
  y_l : Nat
  y_m : Nat
  visited : List (Nat × Nat × Nat × Nat)
  measured : List Nat

/-- One iteration `y_i` of the measurement loop (lines 199-218): the harmonic
`y_i` is measured with the current `y_m`, then the counter advances. -/
def counterStep (st : HarmonicCounter) (y_i : Nat) : HarmonicCounter :=
  let visited := st.visited ++ [(y_i, st.y_j, st.y_l, st.y_m)]
  let y_m := st.y_m + 1
  if y_m > st.y_l then
    let y_l := st.y_l + 1
    if y_l > st.y_j then ⟨st.y_j + 1, 0, 0, visited, st.measured ++ [st.y_j]⟩
    else ⟨st.y_j, y_l, 0, visited, st.measured⟩
  else ⟨st.y_j, st.y_l, y_m, visited, st.measured⟩

/-- The measurement loop `for (y_i = 0, y_j = 0, y_l = 0, y_m = 0; y_i < n_yjlm;
y_i++)` of lines 198-219; `y_i` takes the values `0 .. n_yjlm - 1`, none when
`n_yjlm ≤ 0`. -/
def harmonicCounter (j_max : Int) : HarmonicCounter :=
  (List.range (n_yjlm j_max).toNat).foldl counterStep ⟨0, 0, 0, [], []⟩

/-- The harmonics `0 ≤ y_m ≤ y_l ≤ y_j` of one `y_j` and `y_l`, in the order of
`y_m`. -/
def harmonicsJL (y_j y_l : Nat) : List (Nat × Nat × Nat) :=
  (List.range (y_l + 1)).map fun y_m => (y_j, y_l, y_m)

/-- The harmonics of one `y_j`, in the order of `y_l`, then `y_m`. -/
def harmonicsJ (y_j : Nat) : List (Nat × Nat × Nat) :=
  (List.range (y_j + 1)).flatMap (harmonicsJL y_j)

/-- The harmonics `0 ≤ y_m ≤ y_l ≤ y_j ≤ j_max` in lexicographic order of
`(y_j, y_l, y_m)`. -/
def harmonics (j_max : Nat) : List (Nat × Nat × Nat) :=
  (List.range (j_max + 1)).flatMap harmonicsJ

/-! ## Generic facts on vectors -/

theorem getD_set_eq {α : Type} (l : List α) (i j : Nat) (a d : α) :
    (l.set i a).getD j d = if i = j ∧ i < l.length then a else l.getD j d := by
  simp only [List.getD_eq_getElem?_getD, List.getElem?_set]
  by_cases h : i = j
  · subst h
    by_cases h2 : i < l.length
    · simp [h2]
    · simp [h2, List.getElem?_eq_none (Nat.le_of_not_lt h2)]
  · simp [h]

theorem getD_replicate_false (n i : Nat) : (List.replicate n false).getD i false = false := by
  simp only [List.getD_eq_getElem?_getD, List.getElem?_replicate]
  split <;> rfl

/-- A duplicate-free list of numbers below `n` has at most `n` entries. -/
theorem length_le_of_nodup_lt {l : List Nat} {n : Nat} (hnd : l.Nodup) (hlt : ∀ i ∈ l, i < n) :
    l.length ≤ n := by
  have hsub : l ⊆ List.range n := fun i hi => List.mem_range.mpr (hlt i hi)
  simpa using (List.subperm_of_subset hnd hsub).length_le

@[simp] theorem withRng_spin (f : QfeIsing) (r : QfeRng) : (f.withRng r).spin = f.spin := rfl

@[simp] theorem withRng_beta (f : QfeIsing) (r : QfeRng) : (f.withRng r).beta = f.beta := rfl

@[simp] theorem withRng_is_clustered (f : QfeIsing) (r : QfeRng) :
    (f.withRng r).is_clustered = f.is_clustered := rfl

@[simp] theorem withRng_wolff_cluster (f : QfeIsing) (r : QfeRng) :
    (f.withRng r).wolff_cluster = f.wolff_cluster := rfl

@[simp] theorem withRng_sw_root (f : QfeIsing) (r : QfeRng) :
    (f.withRng r).sw_root = f.sw_root := rfl

@[simp] theorem withRng_sites (f : QfeIsing) (r : QfeRng) :
    (f.withRng r).lattice.sites = f.lattice.sites := rfl

@[simp] theorem withRng_links (f : QfeIsing) (r : QfeRng) :
    (f.withRng r).lattice.links = f.lattice.links := rfl

@[simp] theorem withRng_n_sites (f : QfeIsing) (r : QfeRng) :
    (f.withRng r).lattice.n_sites = f.lattice.n_sites := rfl

@[simp] theorem withRng_n_links (f : QfeIsing) (r : QfeRng) :
    (f.withRng r).lattice.n_links = f.lattice.n_links := rfl

@[simp] theorem withRng_rng (f : QfeIsing) (r : QfeRng) :
    (f.withRng r).lattice.rng = r := rfl

/-! ## The Wolff loop invariant -/

theorem wolffTry_inv (expLt : ℚ → ℚ → Bool) (lat : QfeLattice) (beta : ℚ) (spin0 : List ℚ)
    (seed : Nat) (site : QfeSite) (value : ℚ) (st : QfeIsing × List Nat) (n : Nat)
    (hn : site.neighbors.getD n 0 < lat.n_sites)
    (h : WolffInv lat beta spin0 seed st.1 st.2) :
    WolffInv lat beta spin0 seed (wolffTry expLt site value st n).1
        (wolffTry expLt site value st n).2 ∧
      (wolffTry expLt site value st n).1.wolff_cluster.length + st.2.length =
        st.1.wolff_cluster.length + (wolffTry expLt site value st n).2.length := by
  obtain ⟨f, stack⟩ := st
  simp only at h
  unfold wolffTry
  simp only []
  generalize site.neighbors.getD n 0 = s at hn ⊢
  split_ifs with h1 h2 h3
  · exact ⟨h, rfl⟩
  · exact ⟨h, rfl⟩
  · refine ⟨?_, rfl⟩
    exact { h with }
  · have hnot : s ∉ f.wolff_cluster := fun hm => h1 ((h.mem_iff _).mpr hm)
    refine ⟨?_, by simp; omega⟩
    refine
      { sites_eq := h.sites_eq, links_eq := h.links_eq, n_eq := h.n_eq, beta_eq := h.beta_eq,
        clen := by simpa using h.clen, slen := h.slen, seed_head := ?_, mem_iff := ?_,
        nodup := ?_, lt := ?_, stack_sub := ?_, stack_nodup := ?_, spin_eq := ?_ }
    · have := h.seed_head
      cases hc : f.wolff_cluster with
      | nil => simp [hc] at this
      | cons a t => simpa [hc] using this
    · intro i
      simp only [withRng_is_clustered, getD_set_eq, List.mem_append, List.mem_singleton]
      by_cases hi : s = i
      · subst hi
        have hlt : s < f.is_clustered.length := lt_of_lt_of_le hn h.clen
        simp only [hlt, and_self, if_true, or_true]
      · have hi2 : ¬ i = s := fun e => hi e.symm
        simp only [hi, false_and, if_false, hi2, or_false]
        exact h.mem_iff i
    · simp only [withRng_wolff_cluster]
      refine List.Nodup.append h.nodup (List.nodup_singleton _) ?_
      intro a ha hb
      rw [List.mem_singleton] at hb
      subst hb
      exact hnot ha
    · intro i hi
      simp only [withRng_wolff_cluster, List.mem_append, List.mem_singleton] at hi
      rcases hi with hi | hi
      · exact h.lt i hi
      · subst hi; exact hn
    · intro i hi
      simp only [withRng_wolff_cluster, List.mem_append, List.mem_singleton]
      rcases List.mem_cons.mp hi with hi | hi
      · exact Or.inr hi
      · exact Or.inl (h.stack_sub i hi)
    · exact List.nodup_cons.mpr ⟨fun hm => hnot (h.stack_sub _ hm), h.stack_nodup⟩
    · intro i
      simp only [withRng_spin, withRng_wolff_cluster, List.mem_append, List.mem_singleton,
        List.mem_cons]
      rw [h.spin_eq i]
      by_cases hi : i = s
      · subst hi
        simp only [hnot, false_and, if_false, true_or, not_true_eq_false, and_false]
      · simp only [hi, or_false, false_or, List.not_mem_nil]

theorem wolffNeighbors_inv (expLt : ℚ → ℚ → Bool) (lat : QfeLattice) (beta : ℚ)
    (spin0 : List ℚ) (seed : Nat) (site : QfeSite) (value : ℚ) (ns : List Nat)
    (hns : ∀ n ∈ ns, site.neighbors.getD n 0 < lat.n_sites) :
    ∀ st : QfeIsing × List Nat, WolffInv lat beta spin0 seed st.1 st.2 →
      WolffInv lat beta spin0 seed (ns.foldl (wolffTry expLt site value) st).1
          (ns.foldl (wolffTry expLt site value) st).2 ∧
        (ns.foldl (wolffTry expLt site value) st).1.wolff_cluster.length + st.2.length =
          st.1.wolff_cluster.length + (ns.foldl (wolffTry expLt site value) st).2.length := by
  induction ns with
  | nil => intro st h; exact ⟨h, rfl⟩
  | cons n ns ih =>
    intro st h
    have h1 := wolffTry_inv expLt lat beta spin0 seed site value st n
      (hns n (List.mem_cons_self _ _)) h
    have h2 := ih (fun m hm => hns m (List.mem_cons_of_mem _ hm)) _ h1.1
    simp only [List.foldl_cons]
    exact ⟨h2.1, by omega⟩

/-- Popping the top of the stack and negating its spin re-establishes the
invariant for the remaining stack. -/
theorem wolffPop_inv (lat : QfeLattice) (beta : ℚ) (spin0 : List ℚ) (seed : Nat)
    (hlen : lat.n_sites ≤ spin0.length) (f : QfeIsing) (s : Nat) (stack : List Nat)
    (h : WolffInv lat beta spin0 seed f (s :: stack)) :
    WolffInv lat beta spin0 seed { f with spin := f.spin.set s (-f.spin.getD s 0) } stack := by
  have hsC : s ∈ f.wolff_cluster := h.stack_sub s (List.mem_cons_self _ _)
  have hnd := List.nodup_cons.mp h.stack_nodup
  refine
    { sites_eq := h.sites_eq, links_eq := h.links_eq, n_eq := h.n_eq, beta_eq := h.beta_eq,
      clen := h.clen, slen := by simpa using h.slen, seed_head := h.seed_head,
      mem_iff := h.mem_iff, nodup := h.nodup, lt := h.lt,
      stack_sub := fun i hi => h.stack_sub i (List.mem_cons_of_mem _ hi),
      stack_nodup := hnd.2, spin_eq := ?_ }
  intro i
  simp only [getD_set_eq]
  have hs : s < f.spin.length := by
    have := h.lt s hsC
    have := h.slen
    omega
  by_cases hi : s = i
  · subst hi
    have h0 := h.spin_eq s
    simp only [List.mem_cons, true_or, not_true_eq_false, and_false, if_false] at h0
    simp only [hs, and_self, if_true, hsC, hnd.1, not_false_eq_true, h0]
  · have hi2 : ¬ i = s := fun e => hi e.symm
    have h0 := h.spin_eq i
    simp only [List.mem_cons, hi2, false_or] at h0
    simp only [hi, false_and, if_false, h0]

theorem wolffLoop_terminates (expLt : ℚ → ℚ → Bool) (lat : QfeLattice) (beta : ℚ)
    (spin0 : List ℚ) (seed : Nat) (hadj : lat.AdjInRange)
    (hlen : lat.n_sites ≤ spin0.length) :
    ∀ (fuel : Nat) (f : QfeIsing) (stack : List Nat), WolffInv lat beta spin0 seed f stack →
      lat.n_sites + stack.length < fuel + f.wolff_cluster.length →
      ∃ r, wolffLoop expLt fuel f stack = some r ∧ WolffInv lat beta spin0 seed r [] := by
  intro fuel
  induction fuel with
  | zero =>
    intro f stack h hf
    have := length_le_of_nodup_lt h.nodup h.lt
    omega
  | succ fuel ih =>
    intro f stack h hf
    cases stack with
    | nil => exact ⟨f, rfl, h⟩
    | cons s stack =>
      have hpop := wolffPop_inv lat beta spin0 seed hlen f s stack h
      have hs : s < lat.n_sites := h.lt s (h.stack_sub s (List.mem_cons_self _ _))
      have hsite : f.lattice.sites.getD s default = lat.sites.getD s default := by
        rw [h.sites_eq]
      have hns : ∀ n ∈ List.range (f.lattice.sites.getD s default).nn,
          (f.lattice.sites.getD s default).neighbors.getD n 0 < lat.n_sites := by
        intro n hn
        rw [hsite] at hn ⊢
        exact (hadj s hs).2 n (List.mem_range.mp hn)
      have hfold := wolffNeighbors_inv expLt lat beta spin0 seed
        (f.lattice.sites.getD s default) (f.spin.getD s 0) _ hns
        ({ f with spin := f.spin.set s (-f.spin.getD s 0) }, stack) hpop
      simp only [wolffLoop]
      refine ih _ _ hfold.1 ?_
      have := hfold.2
      simp only [List.length_cons] at hf this ⊢
      omega

theorem wolffLoop_fuel_mono (expLt : ℚ → ℚ → Bool) :
    ∀ (fuel : Nat) (f : QfeIsing) (stack : List Nat) (r : QfeIsing),
      wolffLoop expLt fuel f stack = some r →
      ∀ k, wolffLoop expLt (fuel + k) f stack = some r := by
  intro fuel
  induction fuel with
  | zero => intro f stack r h; simp [wolffLoop] at h
  | succ fuel ih =>
    intro f stack r h k
    have e : fuel + 1 + k = (fuel + k) + 1 := by omega
    rw [e]
    cases stack with
    | nil => simpa [wolffLoop] using h
    | cons s stack =>
      simp only [wolffLoop] at h ⊢
      exact ih _ _ _ h k

theorem wolffSeed_lt (f : QfeIsing) (hn : 1 ≤ f.lattice.n_sites) :
    wolffSeed f < f.lattice.n_sites := by
  unfold wolffSeed QfeRng.RandInt
  simp only [Nat.sub_zero, Nat.zero_add]
  have e : f.lattice.n_sites - 1 + 1 = f.lattice.n_sites := by omega
  rw [e]
  exact Nat.mod_lt _ (by omega)

/-- The result of `WolffUpdate` on well-formed input: it returns for every fuel
above `n_sites`, the result does not depend on the fuel, and the loop invariant
holds at exit with the empty stack. -/
theorem WolffUpdate_spec (expLt : ℚ → ℚ → Bool) (f : QfeIsing)
    (hn : 1 ≤ f.lattice.n_sites) (hs : f.Sized) (hadj : f.lattice.AdjInRange) :
    ∃ r : QfeIsing,
      (∀ fuel, f.lattice.n_sites + 1 ≤ fuel →
        WolffUpdate expLt fuel f = some (r.wolff_cluster.length, r)) ∧
      WolffInv f.lattice f.beta f.spin (wolffSeed f) r [] := by
  obtain ⟨hs1, hs2, hs3, -⟩ := hs
  have hseed := wolffSeed_lt f hn
  have hinit : WolffInv f.lattice f.beta f.spin (wolffSeed f)
      { ({ f with is_clustered := List.replicate f.is_clustered.length false,
                  wolff_cluster := [] } : QfeIsing).withRng
            (f.lattice.rng.RandInt 0 (f.lattice.n_sites - 1)).2 with
          wolff_cluster := [] ++ [wolffSeed f]
          is_clustered := (List.replicate f.is_clustered.length false).set (wolffSeed f) true }
      [wolffSeed f] := by
    refine
      { sites_eq := rfl, links_eq := rfl, n_eq := rfl, beta_eq := rfl,
        clen := by simp; omega, slen := rfl, seed_head := rfl, mem_iff := ?_,
        nodup := by simp, lt := by simpa using hseed, stack_sub := by simp,
        stack_nodup := by simp, spin_eq := by simp }
    intro i
    simp only [getD_set_eq, List.length_replicate, getD_replicate_false, List.nil_append,
      List.mem_singleton]
    have : wolffSeed f < f.is_clustered.length := by omega
    constructor
    · intro h
      by_contra hne
      have hne2 : ¬ wolffSeed f = i := fun e => hne e.symm
      simp [hne2] at h
    · intro h
      subst h
      simp [this]
  obtain ⟨r, hr, hinv⟩ := wolffLoop_terminates expLt f.lattice f.beta f.spin (wolffSeed f) hadj
    (by omega) (f.lattice.n_sites + 1) _ _ hinit (by simp)
  refine ⟨r, ?_, hinv⟩
  intro fuel hfuel
  obtain ⟨k, rfl⟩ := Nat.exists_eq_add_of_le hfuel
  have := wolffLoop_fuel_mono expLt _ _ _ _ hr k
  unfold WolffUpdate
  simp only [wolffSeed] at this
  simp only [withRng_wolff_cluster, withRng_is_clustered, withRng_rng]
  rw [this]
  rfl

theorem wolffTry_beta_zero (expLt : ℚ → ℚ → Bool) (site : QfeSite) (value : ℚ)
    (st : QfeIsing × List Nat) (n : Nat) (hb : st.1.beta = 0) :
    wolffTry expLt site value st n = st := by
  unfold wolffTry
  simp only [hb, mul_zero, zero_mul, ge_iff_le, le_refl, if_true, ite_self]

theorem wolffNeighbors_beta_zero (expLt : ℚ → ℚ → Bool) (site : QfeSite) (value : ℚ)
    (ns : List Nat) (st : QfeIsing × List Nat) (hb : st.1.beta = 0) :
    ns.foldl (wolffTry expLt site value) st = st := by
  induction ns with
  | nil => rfl
  | cons n ns ih => rw [List.foldl_cons, wolffTry_beta_zero expLt site value st n hb, ih]

/-- When the neighbour loop of the seed adds nothing, `WolffUpdate` returns 1. -/
theorem WolffUpdate_single (expLt : ℚ → ℚ → Bool) (f : QfeIsing)
    (hfold : ∀ st : QfeIsing × List Nat, st.1.beta = f.beta →
      st.1.lattice.sites = f.lattice.sites →
      (List.range (f.lattice.sites.getD (wolffSeed f) default).nn).foldl
        (wolffTry expLt (f.lattice.sites.getD (wolffSeed f) default)
          (f.spin.getD (wolffSeed f) 0)) st = st)
    (fuel : Nat) (hfuel : 2 ≤ fuel) :
    WolffUpdate expLt fuel f = some (1, wolffSingle f) := by
  obtain ⟨k, rfl⟩ := Nat.exists_eq_add_of_le hfuel
  have e : 2 + k = (k + 1) + 1 := by omega
  rw [e]
  unfold WolffUpdate
  simp only [wolffLoop, withRng_spin, withRng_sites]
  have := hfold
    ({ ({ f with is_clustered := List.replicate f.is_clustered.length false,
                 wolff_cluster := [] } : QfeIsing).withRng
            (f.lattice.rng.RandInt 0 (f.lattice.n_sites - 1)).2 with
          wolff_cluster := [] ++ [wolffSeed f]
          is_clustered := (List.replicate f.is_clustered.length false).set (wolffSeed f) true
          spin := f.spin.set (wolffSeed f) (-f.spin.getD (wolffSeed f) 0) }, []) rfl rfl
  simp only [wolffSeed] at this
  rw [this]
  rfl

theorem wolffSingle_spin (f : QfeIsing) (hn : 1 ≤ f.lattice.n_sites) (hs : f.Sized) :
    (wolffSingle f).spin.getD (wolffSeed f) 0 = -f.spin.getD (wolffSeed f) 0 ∧
      ∀ i, i ≠ wolffSeed f → (wolffSingle f).spin.getD i 0 = f.spin.getD i 0 := by
  have hseed := wolffSeed_lt f hn
  obtain ⟨hs1, hs2, -, -⟩ := hs
  have hlt : wolffSeed f < f.spin.length := by omega
  constructor
  · simp only [wolffSingle, getD_set_eq, hlt, and_self, if_true]
  · intro i hi
    have hi2 : ¬ wolffSeed f = i := fun e => hi e.symm
    simp only [wolffSingle, getD_set_eq, hi2, false_and, if_false]

/-- C1: for a lattice with `n_sites >= 1` whose adjacency entries name sites in
`[0, n_sites)`, every spin vector, `beta` and draw stream, `WolffUpdate` returns for
every fuel above `n_sites`, always with the same result: a cluster size `k` with
`1 <= k <= n_sites`, and `wolff_cluster` has exactly `k` pairwise distinct entries. -/
theorem WolffUpdate_cluster_size (expLt : ℚ → ℚ → Bool) (f : QfeIsing)
    (hn : 1 ≤ f.lattice.n_sites) (hs : f.Sized) (hadj : f.lattice.AdjInRange) :
    ∃ (k : Nat) (r : QfeIsing),
      (∀ fuel, f.lattice.n_sites + 1 ≤ fuel → WolffUpdate expLt fuel f = some (k, r)) ∧
      1 ≤ k ∧ k ≤ f.lattice.n_sites ∧ r.wolff_cluster.length = k ∧ r.wolff_cluster.Nodup := by
  obtain ⟨r, hr, hinv⟩ := WolffUpdate_spec expLt f hn hs hadj
  refine ⟨r.wolff_cluster.length, r, hr, ?_, length_le_of_nodup_lt hinv.nodup hinv.lt, rfl,
    hinv.nodup⟩
  have := hinv.seed_head
  cases hc : r.wolff_cluster with
  | nil => simp [hc] at this
  | cons a t => simp

/-- Witness of C1 on the 4-cycle. -/
theorem WolffUpdate_cluster_size_witness :
    (1 ≤ (ising4 1).lattice.n_sites ∧ (ising4 1).Sized ∧ (ising4 1).lattice.AdjInRange) ∧
    ∃ (k : Nat) (r : QfeIsing),
      (∀ fuel, (ising4 1).lattice.n_sites + 1 ≤ fuel →
        WolffUpdate (fun _ _ => false) fuel (ising4 1) = some (k, r)) ∧
      1 ≤ k ∧ k ≤ (ising4 1).lattice.n_sites ∧ r.wolff_cluster.length = k ∧
      r.wolff_cluster.Nodup :=
  ⟨⟨by decide, by decide, by decide⟩,
    WolffUpdate_cluster_size (fun _ _ => false) (ising4 1) (by decide) (by decide) (by decide)⟩

/-- C5: after `WolffUpdate` returns, every site of the returned cluster carries the
negation of its spin before the call and every other site carries its spin unchanged. -/
theorem WolffUpdate_flips_cluster (expLt : ℚ → ℚ → Bool) (f : QfeIsing)
    (hn : 1 ≤ f.lattice.n_sites) (hs : f.Sized) (hadj : f.lattice.AdjInRange) :
    ∃ (k : Nat) (r : QfeIsing),
      (∀ fuel, f.lattice.n_sites + 1 ≤ fuel → WolffUpdate expLt fuel f = some (k, r)) ∧
      r.spin.length = f.spin.length ∧
      ∀ i, (i ∈ r.wolff_cluster → r.spin.getD i 0 = -f.spin.getD i 0) ∧
        (i ∉ r.wolff_cluster → r.spin.getD i 0 = f.spin.getD i 0) := by
  obtain ⟨r, hr, hinv⟩ := WolffUpdate_spec expLt f hn hs hadj
  refine ⟨r.wolff_cluster.length, r, hr, hinv.slen, fun i => ⟨fun hi => ?_, fun hi => ?_⟩⟩
  · rw [hinv.spin_eq i]; simp [hi]
  · rw [hinv.spin_eq i]; simp [hi]

/-- Witness of C5 on the 4-cycle. -/
theorem WolffUpdate_flips_cluster_witness :
    (1 ≤ (ising4 1).lattice.n_sites ∧ (ising4 1).Sized ∧ (ising4 1).lattice.AdjInRange) ∧
    ∃ (k : Nat) (r : QfeIsing),
      (∀ fuel, (ising4 1).lattice.n_sites + 1 ≤ fuel →
        WolffUpdate (fun _ _ => false) fuel (ising4 1) = some (k, r)) ∧
      r.spin.length = (ising4 1).spin.length ∧
      ∀ i, (i ∈ r.wolff_cluster → r.spin.getD i 0 = -(ising4 1).spin.getD i 0) ∧
        (i ∉ r.wolff_cluster → r.spin.getD i 0 = (ising4 1).spin.getD i 0) :=
  ⟨⟨by decide, by decide, by decide⟩,
    WolffUpdate_flips_cluster (fun _ _ => false) (ising4 1) (by decide) (by decide)
      (by decide)⟩

/-- C6: when `beta = 0`, `WolffUpdate` returns exactly 1 for every fuel from 2 on:
the cluster is the seed alone, the seed's spin is negated, every other spin is
unchanged, and no draw beyond the seed draw is consumed. -/
theorem WolffUpdate_beta_zero (expLt : ℚ → ℚ → Bool) (f : QfeIsing) (hb : f.beta = 0)
    (hn : 1 ≤ f.lattice.n_sites) (hs : f.Sized) :
    ∃ r : QfeIsing,
      (∀ fuel, 2 ≤ fuel → WolffUpdate expLt fuel f = some (1, r)) ∧
      r.wolff_cluster = [wolffSeed f] ∧
      r.spin.getD (wolffSeed f) 0 = -f.spin.getD (wolffSeed f) 0 ∧
      (∀ i, i ≠ wolffSeed f → r.spin.getD i 0 = f.spin.getD i 0) ∧
      r.lattice.rng.pos = f.lattice.rng.pos + 1 := by
  refine ⟨wolffSingle f, fun fuel hfuel => ?_, rfl, (wolffSingle_spin f hn hs).1,
    (wolffSingle_spin f hn hs).2, rfl⟩
  exact WolffUpdate_single expLt f
    (fun st hst _ => wolffNeighbors_beta_zero expLt _ _ _ st (hst.trans hb)) fuel hfuel

/-- Witness of C6: the spec scenario, the 4-cycle with `J = 1` and `beta = 0`. -/
theorem WolffUpdate_beta_zero_witness :
    ((ising4 0).beta = 0 ∧ 1 ≤ (ising4 0).lattice.n_sites ∧ (ising4 0).Sized) ∧
    ∃ r : QfeIsing,
      (∀ fuel, 2 ≤ fuel → WolffUpdate (fun _ _ => false) fuel (ising4 0) = some (1, r)) ∧
      r.wolff_cluster = [wolffSeed (ising4 0)] ∧
      r.spin.getD (wolffSeed (ising4 0)) 0 = -(ising4 0).spin.getD (wolffSeed (ising4 0)) 0 ∧
      (∀ i, i ≠ wolffSeed (ising4 0) → r.spin.getD i 0 = (ising4 0).spin.getD i 0) ∧
      r.lattice.rng.pos = (ising4 0).lattice.rng.pos + 1 :=
  ⟨⟨rfl, by decide, by decide⟩,
    WolffUpdate_beta_zero (fun _ _ => false) (ising4 0) rfl (by decide) (by decide)⟩

/-- C7: if the seed drawn by `WolffUpdate` has no neighbours (`nn = 0`), the update
returns cluster size 1 for every fuel from 2 on, negates the seed's spin and leaves
every other spin unchanged. -/
theorem WolffUpdate_isolated_seed (expLt : ℚ → ℚ → Bool) (f : QfeIsing)
    (hnn : (f.lattice.sites.getD (wolffSeed f) default).nn = 0)
    (hn : 1 ≤ f.lattice.n_sites) (hs : f.Sized) :
    ∃ r : QfeIsing,
      (∀ fuel, 2 ≤ fuel → WolffUpdate expLt fuel f = some (1, r)) ∧
      r.wolff_cluster = [wolffSeed f] ∧
      r.spin.getD (wolffSeed f) 0 = -f.spin.getD (wolffSeed f) 0 ∧
      ∀ i, i ≠ wolffSeed f → r.spin.getD i 0 = f.spin.getD i 0 := by
  refine ⟨wolffSingle f, fun fuel hfuel => ?_, rfl, (wolffSingle_spin f hn hs).1,
    (wolffSingle_spin f hn hs).2⟩
  refine WolffUpdate_single expLt f (fun st _ _ => ?_) fuel hfuel
  rw [hnn]
  rfl

/-- Witness of C7: the seed drawn on `isolated3` is the isolated site 2. -/
theorem WolffUpdate_isolated_seed_witness :
    ((ising3.lattice.sites.getD (wolffSeed ising3) default).nn = 0 ∧
      1 ≤ ising3.lattice.n_sites ∧ ising3.Sized) ∧
    ∃ r : QfeIsing,
      (∀ fuel, 2 ≤ fuel → WolffUpdate (fun _ _ => false) fuel ising3 = some (1, r)) ∧
      r.wolff_cluster = [wolffSeed ising3] ∧
      r.spin.getD (wolffSeed ising3) 0 = -ising3.spin.getD (wolffSeed ising3) 0 ∧
      ∀ i, i ≠ wolffSeed ising3 → r.spin.getD i 0 = ising3.spin.getD i 0 :=
  ⟨⟨by decide, by decide, by decide⟩,
    WolffUpdate_isolated_seed (fun _ _ => false) ising3 (by decide) (by decide) (by decide)⟩

/-! ## Roots in a forest -/

theorem findRootLoop_stable (sw : List Nat) (hF : Forest sw) :
    ∀ x, x < sw.length → ∀ k, x < k →
      ∃ r, findRootLoop k sw x = some r ∧ findRootLoop (x + 1) sw x = some r ∧
        r ≤ x ∧ sw.getD r 0 = r := by
  intro x
  induction x using Nat.strong_induction_on with
  | _ x ih =>
    intro hx k hk
    obtain ⟨k, rfl⟩ : ∃ j, k = j + 1 := ⟨k - 1, by omega⟩
    by_cases h : x = sw.getD x 0
    · refine ⟨x, ?_, ?_, le_refl _, h.symm⟩
      · rw [findRootLoop, if_neg (not_not.mpr h)]
      · rw [findRootLoop, if_neg (not_not.mpr h)]
    · have hp : sw.getD x 0 < x := lt_of_le_of_ne (hF x hx) (fun e => h e.symm)
      have hpl : sw.getD x 0 < sw.length := lt_trans hp hx
      obtain ⟨r, h1, h2, h3, h4⟩ := ih _ hp hpl k (by omega)
      obtain ⟨r2, h5, h6, -, -⟩ := ih _ hp hpl x hp
      have e : r2 = r := Option.some.inj (h6.symm.trans h2)
      subst e
      refine ⟨r2, ?_, ?_, by omega, h4⟩
      · rw [findRootLoop, if_pos h]; exact h1
      · rw [findRootLoop, if_pos h]; exact h5

theorem findRootLoop_eq {sw : List Nat} (hF : Forest sw) {x k : Nat} (hx : x < sw.length)
    (hk : x < k) : findRootLoop k sw x = some (rootOf sw x) := by
  obtain ⟨r, h1, h2, -, -⟩ := findRootLoop_stable sw hF x hx k hk
  rw [h1, rootOf, h2]
  rfl

theorem rootOf_le {sw : List Nat} (hF : Forest sw) {x : Nat} (hx : x < sw.length) :
    rootOf sw x ≤ x := by
  obtain ⟨r, -, h2, h3, -⟩ := findRootLoop_stable sw hF x hx (x + 1) (by omega)
  rw [rootOf, h2]
  exact h3

theorem rootOf_lt {sw : List Nat} (hF : Forest sw) {x : Nat} (hx : x < sw.length) :
    rootOf sw x < sw.length :=
  lt_of_le_of_lt (rootOf_le hF hx) hx

theorem rootOf_root {sw : List Nat} (hF : Forest sw) {x : Nat} (hx : x < sw.length) :
    sw.getD (rootOf sw x) 0 = rootOf sw x := by
  obtain ⟨r, -, h2, -, h4⟩ := findRootLoop_stable sw hF x hx (x + 1) (by omega)
  rw [rootOf, h2]
  exact h4

theorem rootOf_self {sw : List Nat} {x : Nat} (h : sw.getD x 0 = x) : rootOf sw x = x := by
  rw [rootOf, findRootLoop, if_neg (not_not.mpr h.symm)]
  rfl

theorem rootOf_parent {sw : List Nat} (hF : Forest sw) {x : Nat} (hx : x < sw.length) :
    rootOf sw (sw.getD x 0) = rootOf sw x := by
  by_cases h : x = sw.getD x 0
  · rw [← h]
  · have hp : sw.getD x 0 < x := lt_of_le_of_ne (hF x hx) (fun e => h e.symm)
    have h1 := findRootLoop_eq hF (lt_trans hp hx) hp
    show rootOf sw (sw.getD x 0) = (findRootLoop (x + 1) sw x).getD x
    rw [findRootLoop, if_pos h, h1]
    rfl

theorem rootOf_idem {sw : List Nat} (hF : Forest sw) {x : Nat} (hx : x < sw.length) :
    rootOf sw (rootOf sw x) = rootOf sw x :=
  rootOf_self (rootOf_root hF hx)

/-- In a forest, a node that is its own root is self-parented. -/
theorem getD_of_rootOf_eq {sw : List Nat} (hF : Forest sw) {x : Nat} (hx : x < sw.length)
    (h : rootOf sw x = x) : sw.getD x 0 = x := by
  have := rootOf_root hF hx
  rwa [h] at this

theorem Forest_range (n : Nat) : Forest (List.range n) := by
  intro i hi
  rw [List.length_range] at hi
  rw [List.getD_eq_getElem _ _ (by simpa using hi), List.getElem_range]

theorem rootOf_range {n x : Nat} (hx : x < n) : rootOf (List.range n) x = x := by
  apply rootOf_self
  rw [List.getD_eq_getElem _ _ (by simpa using hx), List.getElem_range]

theorem Forest_set {sw : List Nat} (hF : Forest sw) {y v : Nat} (hv : v ≤ y) :
    Forest (sw.set y v) := by
  intro i hi
  rw [List.length_set] at hi
  rw [getD_set_eq]
  split_ifs with h
  · omega
  · exact hF i hi

/-- Writing to a vector cell the value it already holds changes nothing. -/
theorem set_getD_self {sw : List Nat} {i v : Nat} (h : sw.getD i 0 = v) (hi : i < sw.length) :
    sw.set i v = sw := by
  apply List.ext_getElem?
  intro j
  rw [List.getElem?_set]
  split_ifs with h1
  · subst h1
    rw [List.getD_eq_getElem _ _ hi] at h
    rw [List.getElem?_eq_getElem hi, h]
  · rfl

/-- Path compression of one node: re-parenting `y` to its root keeps every root. -/
theorem rootOf_set_compress {sw : List Nat} (hF : Forest sw) {y : Nat} (hy : y < sw.length) :
    ∀ x, x < sw.length → rootOf (sw.set y (rootOf sw y)) x = rootOf sw x := by
  have hF1 : Forest (sw.set y (rootOf sw y)) := Forest_set hF (rootOf_le hF hy)
  intro x
  induction x using Nat.strong_induction_on with
  | _ x ih =>
    intro hx
    have hx1 : x < (sw.set y (rootOf sw y)).length := by rwa [List.length_set]
    by_cases hxy : y = x
    · subst hxy
      by_cases hr : rootOf sw y = y
      · rw [hr, set_getD_self (getD_of_rootOf_eq hF hy hr) hy]
        exact hr
      · have hlt : rootOf sw y < y := lt_of_le_of_ne (rootOf_le hF hy) hr
        have hp : (sw.set y (rootOf sw y)).getD y 0 = rootOf sw y := by
          rw [getD_set_eq, if_pos ⟨rfl, hy⟩]
        rw [← rootOf_parent hF1 hx1, hp, ih _ hlt (rootOf_lt hF hy), rootOf_idem hF hy]
    · have hp : (sw.set y (rootOf sw y)).getD x 0 = sw.getD x 0 := by
        rw [getD_set_eq, if_neg (fun h => hxy h.1)]
      by_cases hs : sw.getD x 0 = x
      · rw [rootOf_self hs, rootOf_self (hp.trans hs)]
      · have hlt : sw.getD x 0 < x := lt_of_le_of_ne (hF x hx) hs
        rw [← rootOf_parent hF1 hx1, hp, ih _ hlt (lt_trans hlt hx), rootOf_parent hF hx]

/-- Union of two distinct roots: re-parenting the root `b` to the smaller root `a`
moves exactly the nodes of `b` to `a`. -/
theorem rootOf_set_union {sw : List Nat} (hF : Forest sw) {a b : Nat} (hb : b < sw.length)
    (hab : a < b) (hra : sw.getD a 0 = a) (hrb : sw.getD b 0 = b) :
    ∀ x, x < sw.length →
      rootOf (sw.set b a) x = if rootOf sw x = b then a else rootOf sw x := by
  have hF1 : Forest (sw.set b a) := Forest_set hF (le_of_lt hab)
  intro x
  induction x using Nat.strong_induction_on with
  | _ x ih =>
    intro hx
    have hx1 : x < (sw.set b a).length := by rwa [List.length_set]
    by_cases hxb : b = x
    · subst hxb
      have hp : (sw.set b a).getD b 0 = a := by rw [getD_set_eq, if_pos ⟨rfl, hb⟩]
      rw [← rootOf_parent hF1 hx1, hp, ih _ hab (lt_trans hab hb), rootOf_self hra,
        rootOf_self hrb, if_neg (ne_of_lt hab), if_pos rfl]
    · have hp : (sw.set b a).getD x 0 = sw.getD x 0 := by
        rw [getD_set_eq, if_neg (fun h => hxb h.1)]
      by_cases hs : sw.getD x 0 = x
      · rw [rootOf_self hs, rootOf_self (hp.trans hs), if_neg (fun e => hxb e.symm)]
      · have hlt : sw.getD x 0 < x := lt_of_le_of_ne (hF x hx) hs
        rw [← rootOf_parent hF1 hx1, hp, ih _ hlt (lt_trans hlt hx), rootOf_parent hF hx]

/-! ## `FindSWRoot` and the union step on a forest -/

theorem compressLoop_spec :
    ∀ (s : Nat) (sw : List Nat), Forest sw → s < sw.length → ∀ fuel, s < fuel →
      ∃ sw1, compressLoop fuel sw (rootOf sw s) s = some sw1 ∧ Forest sw1 ∧
        sw1.length = sw.length ∧
        (∀ x, x < sw.length → rootOf sw1 x = rootOf sw x) ∧
        (∀ i, s < i → sw1.getD i 0 = sw.getD i 0) ∧
        (s ≠ rootOf sw s → sw1.getD s 0 = rootOf sw s) := by
  intro s
  induction s using Nat.strong_induction_on with
  | _ s ih =>
    intro sw hF hs fuel hfuel
    obtain ⟨k, rfl⟩ : ∃ j, fuel = j + 1 := ⟨fuel - 1, by omega⟩
    by_cases h : s = rootOf sw s
    · refine ⟨sw, ?_, hF, rfl, fun _ _ => rfl, fun _ _ => rfl, fun h2 => absurd h h2⟩
      rw [compressLoop, if_neg (not_not.mpr h)]
    · have hne : sw.getD s 0 ≠ s := fun e => h (rootOf_self e).symm
      have hp : sw.getD s 0 < s := lt_of_le_of_ne (hF s hs) hne
      have hF1 : Forest (sw.set s (rootOf sw s)) := Forest_set hF (rootOf_le hF hs)
      have hlen1 : (sw.set s (rootOf sw s)).length = sw.length := List.length_set _ _ _
      have hroots := rootOf_set_compress hF hs
      have hr : rootOf (sw.set s (rootOf sw s)) (sw.getD s 0) = rootOf sw s := by
        rw [hroots _ (lt_trans hp hs), rootOf_parent hF hs]
      obtain ⟨sw2, h1, h2, h3, h4, h5, -⟩ :=
        ih _ hp (sw.set s (rootOf sw s)) hF1 (by rw [hlen1]; exact lt_trans hp hs) k (by omega)
      rw [hr] at h1
      refine ⟨sw2, ?_, h2, h3.trans hlen1, ?_, ?_, ?_⟩
      · rw [compressLoop, if_pos h]; exact h1
      · intro x hx
        rw [h4 x (by rw [hlen1]; exact hx), hroots x hx]
      · intro i hi
        rw [h5 i (lt_trans hp hi), getD_set_eq, if_neg (fun e => by omega)]
      · intro _
        rw [h5 s hp, getD_set_eq, if_pos ⟨rfl, hs⟩]

theorem FindSWRoot_spec {sw : List Nat} (hF : Forest sw) {s : Nat} (hs : s < sw.length)
    {fuel : Nat} (hfuel : s < fuel) :
    ∃ sw1, FindSWRoot fuel sw s = some (rootOf sw s, sw1) ∧ Forest sw1 ∧
      sw1.length = sw.length ∧
      (∀ x, x < sw.length → rootOf sw1 x = rootOf sw x) ∧
      (∀ i, s < i → sw1.getD i 0 = sw.getD i 0) ∧
      sw1.getD s 0 = rootOf sw s := by
  have hp : sw.getD s 0 ≤ s := hF s hs
  have h1 : findRootLoop fuel sw (sw.getD s 0) = some (rootOf sw s) := by
    rw [findRootLoop_eq hF (lt_of_le_of_lt hp hs) (lt_of_le_of_lt hp hfuel), rootOf_parent hF hs]
  obtain ⟨sw1, h2, h3, h4, h5, h6, h7⟩ := compressLoop_spec s sw hF hs fuel hfuel
  refine ⟨sw1, ?_, h3, h4, h5, h6, ?_⟩
  · rw [FindSWRoot, h1]
    simp only [h2]
  · by_cases h : s = rootOf sw s
    · have e : rootOf sw1 s = s := by rw [h5 s hs]; exact h.symm
      rw [getD_of_rootOf_eq h3 (by rw [h4]; exact hs) e]
      exact h
    · exact h7 h

theorem findRootLoop_fuel_mono (sw : List Nat) :
    ∀ (k x r : Nat), findRootLoop k sw x = some r → ∀ j, findRootLoop (k + j) sw x = some r := by
  intro k
  induction k with
  | zero => intro x r h; simp [findRootLoop] at h
  | succ k ih =>
    intro x r h j
    have e : k + 1 + j = (k + j) + 1 := by omega
    rw [e]
    rw [findRootLoop] at h ⊢
    split_ifs at h ⊢ with h1
    · exact ih _ _ h j
    · exact h

theorem compressLoop_fuel_mono (root : Nat) :
    ∀ (k : Nat) (sw : List Nat) (s : Nat) (r : List Nat), compressLoop k sw root s = some r →
      ∀ j, compressLoop (k + j) sw root s = some r := by
  intro k
  induction k with
  | zero => intro sw s r h; simp [compressLoop] at h
  | succ k ih =>
    intro sw s r h j
    have e : k + 1 + j = (k + j) + 1 := by omega
    rw [e]
    rw [compressLoop] at h ⊢
    split_ifs at h ⊢ with h1
    · exact ih _ _ _ h j
    · exact h

theorem FindSWRoot_fuel_mono {k : Nat} {sw : List Nat} {s : Nat} {p : Nat × List Nat}
    (h : FindSWRoot k sw s = some p) (j : Nat) : FindSWRoot (k + j) sw s = some p := by
  unfold FindSWRoot at h ⊢
  cases h1 : findRootLoop k sw (sw.getD s 0) with
  | none => rw [h1] at h; cases h
  | some root =>
    rw [h1] at h
    simp only at h
    cases h2 : compressLoop k sw root s with
    | none => rw [h2] at h; cases h
    | some sw1 =>
      rw [h2] at h
      rw [findRootLoop_fuel_mono sw _ _ _ h1 j]
      simp only
      rw [compressLoop_fuel_mono root _ _ _ _ h2 j]
      exact h

/-- A call of `FindSWRoot` that returned on a forest returned the root of the node,
and a forest with the same roots. -/
theorem FindSWRoot_some {sw : List Nat} (hF : Forest sw) {s : Nat} (hs : s < sw.length)
    {fuel r : Nat} {sw1 : List Nat} (h : FindSWRoot fuel sw s = some (r, sw1)) :
    r = rootOf sw s ∧ Forest sw1 ∧ sw1.length = sw.length ∧
      (∀ x, x < sw.length → rootOf sw1 x = rootOf sw x) ∧ sw1.getD s 0 = rootOf sw s := by
  obtain ⟨sw2, h1, h2, h3, h4, -, h6⟩ :=
    FindSWRoot_spec hF hs (Nat.lt_add_left fuel (Nat.lt_succ_self s) : s < fuel + (s + 1))
  have h0 := FindSWRoot_fuel_mono h (s + 1)
  rw [h1] at h0
  have e := Option.some.inj h0
  have e1 : rootOf sw s = r := congrArg Prod.fst e
  have e2 : sw2 = sw1 := congrArg Prod.snd e
  subst e2
  exact ⟨e1.symm, h2, h3, h4, h6⟩

theorem swUnion_spec {sw : List Nat} (hF : Forest sw) {a b : Nat} (ha : a < sw.length)
    (hb : b < sw.length) {fuel : Nat} (hfuel : sw.length ≤ fuel) :
    ∃ sw1, swUnion fuel sw a b = some sw1 ∧ Forest sw1 ∧ sw1.length = sw.length ∧
      ∀ x, x < sw.length →
        rootOf sw1 x =
          if rootOf sw x = rootOf sw a ∨ rootOf sw x = rootOf sw b then
            min (rootOf sw a) (rootOf sw b)
          else rootOf sw x := by
  obtain ⟨swa, h1, hFa, hla, hra, -, -⟩ := FindSWRoot_spec hF ha (lt_of_lt_of_le ha hfuel)
  have hb1 : b < swa.length := by rw [hla]; exact hb
  obtain ⟨swb, h2, hFb, hlb, hrb, -, -⟩ := FindSWRoot_spec hFa hb1 (lt_of_lt_of_le hb hfuel)
  rw [hra b hb] at h2
  have hlen : swb.length = sw.length := hlb.trans hla
  have hroots : ∀ x, x < sw.length → rootOf swb x = rootOf sw x := fun x hx => by
    rw [hrb x (by rw [hla]; exact hx), hra x hx]
  have hA : rootOf sw a < swb.length := by rw [hlen]; exact rootOf_lt hF ha
  have hB : rootOf sw b < swb.length := by rw [hlen]; exact rootOf_lt hF hb
  have hgA : swb.getD (rootOf sw a) 0 = rootOf sw a :=
    getD_of_rootOf_eq hFb hA (by rw [hroots _ (rootOf_lt hF ha), rootOf_idem hF ha])
  have hgB : swb.getD (rootOf sw b) 0 = rootOf sw b :=
    getD_of_rootOf_eq hFb hB (by rw [hroots _ (rootOf_lt hF hb), rootOf_idem hF hb])
  unfold swUnion
  simp only [h1, h2]
  by_cases he : rootOf sw a = rootOf sw b
  · refine ⟨swb, by rw [if_pos he], hFb, hlen, fun x hx => ?_⟩
    rw [hroots x hx]
    split_ifs with h3
    · have e : rootOf sw x = rootOf sw a := h3.elim id (fun e => e.trans he.symm)
      rw [e, ← he, min_self]
    · rfl
  · rw [if_neg he]
    rcases lt_or_gt_of_ne he with hlt | hgt
    · have hmin : min (rootOf sw a) (rootOf sw b) = rootOf sw a := min_eq_left (le_of_lt hlt)
      rw [hmin, set_getD_self hgA hA]
      refine ⟨_, rfl, Forest_set hFb (le_of_lt hlt), by rw [List.length_set]; exact hlen,
        fun x hx => ?_⟩
      rw [rootOf_set_union hFb hB hlt hgA hgB x (by rw [hlen]; exact hx), hroots x hx]
      by_cases c1 : rootOf sw x = rootOf sw b
      · simp only [c1, if_true, or_true]
      · by_cases c2 : rootOf sw x = rootOf sw a
        · simp only [c1, c2, if_false, true_or, if_true, ite_self]
        · simp only [c1, c2, if_false, or_self]
    · have hmin : min (rootOf sw a) (rootOf sw b) = rootOf sw b := min_eq_right (le_of_lt hgt)
      have hF3 : Forest (swb.set (rootOf sw a) (rootOf sw b)) := Forest_set hFb (le_of_lt hgt)
      have hg3 : (swb.set (rootOf sw a) (rootOf sw b)).getD (rootOf sw b) 0 = rootOf sw b := by
        rw [getD_set_eq, if_neg (fun h => he h.1)]
        exact hgB
      rw [hmin, set_getD_self hg3 (by rw [List.length_set]; exact hB)]
      refine ⟨_, rfl, hF3, by rw [List.length_set]; exact hlen, fun x hx => ?_⟩
      rw [rootOf_set_union hFb hA hgt hgB hgA x (by rw [hlen]; exact hx), hroots x hx]
      by_cases c1 : rootOf sw x = rootOf sw a
      · simp only [c1, if_true, true_or]
      · by_cases c2 : rootOf sw x = rootOf sw b
        · simp only [c1, c2, if_false, or_true, if_true, ite_self]
        · simp only [c1, c2, if_false, or_self]

theorem swUnion_fuel_mono {k : Nat} {sw : List Nat} {a b : Nat} {r : List Nat}
    (h : swUnion k sw a b = some r) (j : Nat) : swUnion (k + j) sw a b = some r := by
  unfold swUnion at h ⊢
  cases h1 : FindSWRoot k sw a with
  | none => rw [h1] at h; cases h
  | some p1 =>
    obtain ⟨r1, sw1⟩ := p1
    rw [h1] at h
    simp only at h
    cases h2 : FindSWRoot k sw1 b with
    | none => rw [h2] at h; cases h
    | some p2 =>
      obtain ⟨r2, sw2⟩ := p2
      rw [h2] at h
      rw [FindSWRoot_fuel_mono h1 j]
      simp only
      rw [FindSWRoot_fuel_mono h2 j]
      exact h

/-! ## Connectivity -/

theorem Conn_refl (E : List (Nat × Nat)) (x : Nat) : Conn E x x := Relation.EqvGen.refl x

theorem Conn_symm {E : List (Nat × Nat)} {x y : Nat} (h : Conn E x y) : Conn E y x :=
  Relation.EqvGen.symm x y h

theorem Conn_trans {E : List (Nat × Nat)} {x y z : Nat} (h1 : Conn E x y) (h2 : Conn E y z) :
    Conn E x z :=
  Relation.EqvGen.trans x y z h1 h2

theorem Conn_mono {E F : List (Nat × Nat)} (h : ∀ p ∈ E, p ∈ F) {x y : Nat}
    (hc : Conn E x y) : Conn F x y :=
  Relation.EqvGen.mono (fun a b hab => h (a, b) hab) hc

theorem Conn_nil {x y : Nat} (h : Conn [] x y) : x = y := by
  unfold Conn at h
  induction h with
  | rel a b hab => simp at hab
  | refl a => rfl
  | symm a b _ ih => exact ih.symm
  | trans a b c _ _ ih1 ih2 => exact ih1.trans ih2

/-- Connected nodes are both below `n` or equal when every pair lies below `n`. -/
theorem Conn_lt {E : List (Nat × Nat)} {n : Nat} (hE : ∀ p ∈ E, p.1 < n ∧ p.2 < n)
    {x y : Nat} (h : Conn E x y) : x = y ∨ (x < n ∧ y < n) := by
  unfold Conn at h
  induction h with
  | rel a b hab => exact Or.inr (hE (a, b) hab)
  | refl a => exact Or.inl rfl
  | symm a b _ ih =>
    rcases ih with ih | ih
    · exact Or.inl ih.symm
    · exact Or.inr ⟨ih.2, ih.1⟩
  | trans a b c _ _ ih1 ih2 =>
    rcases ih1 with ih1 | ih1
    · subst ih1; exact ih2
    · rcases ih2 with ih2 | ih2
      · subst ih2; exact Or.inr ih1
      · exact Or.inr ⟨ih1.1, ih2.2⟩

/-- Adding one pair `(a, b)` merges the classes of `a` and `b` and nothing else. -/
theorem Conn_append_pair (E : List (Nat × Nat)) (a b x y : Nat) :
    Conn (E ++ [(a, b)]) x y ↔
      Conn E x y ∨ ((Conn E x a ∨ Conn E x b) ∧ (Conn E y a ∨ Conn E y b)) := by
  constructor
  · intro h
    unfold Conn at h
    induction h with
    | rel u v huv =>
      rcases List.mem_append.mp huv with h1 | h1
      · exact Or.inl (Relation.EqvGen.rel u v h1)
      · rw [List.mem_singleton] at h1
        have e1 : u = a := congrArg Prod.fst h1
        have e2 : v = b := congrArg Prod.snd h1
        subst e1; subst e2
        exact Or.inr ⟨Or.inl (Conn_refl E u), Or.inr (Conn_refl E v)⟩
    | refl u => exact Or.inl (Conn_refl E u)
    | symm u v _ ih =>
      rcases ih with ih | ih
      · exact Or.inl (Conn_symm ih)
      · exact Or.inr ⟨ih.2, ih.1⟩
    | trans u v w _ _ ih1 ih2 =>
      have push : ∀ {p q : Nat}, Conn E p q → (Conn E q a ∨ Conn E q b) →
          (Conn E p a ∨ Conn E p b) := fun hpq hq =>
        hq.elim (fun h => Or.inl (Conn_trans hpq h)) (fun h => Or.inr (Conn_trans hpq h))
      rcases ih1 with ih1 | ih1
      · rcases ih2 with ih2 | ih2
        · exact Or.inl (Conn_trans ih1 ih2)
        · exact Or.inr ⟨push ih1 ih2.1, ih2.2⟩
      · rcases ih2 with ih2 | ih2
        · exact Or.inr ⟨ih1.1, push (Conn_symm ih2) ih1.2⟩
        · exact Or.inr ⟨ih1.1, ih2.2⟩
  · intro h
    have hmono : ∀ {p q : Nat}, Conn E p q → Conn (E ++ [(a, b)]) p q := fun hc =>
      Conn_mono (fun p hp => List.mem_append_left _ hp) hc
    have hab : Conn (E ++ [(a, b)]) a b :=
      Relation.EqvGen.rel a b (List.mem_append_right _ (List.mem_singleton_self _))
    rcases h with h | ⟨hx, hy⟩
    · exact hmono h
    · rcases hx with hx | hx <;> rcases hy with hy | hy
      · exact Conn_trans (hmono hx) (Conn_symm (hmono hy))
      · exact Conn_trans (hmono hx) (Conn_trans hab (Conn_symm (hmono hy)))
      · exact Conn_trans (hmono hx) (Conn_trans (Conn_symm hab) (Conn_symm (hmono hy)))
      · exact Conn_trans (hmono hx) (Conn_symm (hmono hy))

/-! ## Roots and connectivity -/

theorem RootsMatch_range (n : Nat) : RootsMatch (List.range n) [] := by
  refine ⟨Forest_range n, fun x y hx hy => ?_⟩
  rw [List.length_range] at hx hy
  rw [rootOf_range hx, rootOf_range hy]
  exact ⟨fun h => h ▸ Conn_refl [] x, Conn_nil⟩

theorem RootsMatch_union {sw : List Nat} {E : List (Nat × Nat)} (h : RootsMatch sw E)
    {a b : Nat} (ha : a < sw.length) (hb : b < sw.length) {fuel : Nat}
    (hfuel : sw.length ≤ fuel) :
    ∃ sw1, swUnion fuel sw a b = some sw1 ∧ sw1.length = sw.length ∧
      RootsMatch sw1 (E ++ [(a, b)]) := by
  obtain ⟨sw1, h1, hF1, hlen, hroots⟩ := swUnion_spec h.1 ha hb hfuel
  refine ⟨sw1, h1, hlen, hF1, fun x y hx hy => ?_⟩
  rw [hlen] at hx hy
  rw [hroots x hx, hroots y hy, Conn_append_pair, ← h.2 x y hx hy, ← h.2 x a hx ha,
    ← h.2 x b hx hb, ← h.2 y a hy ha, ← h.2 y b hy hb]
  have hm : min (rootOf sw a) (rootOf sw b) = rootOf sw a ∨
      min (rootOf sw a) (rootOf sw b) = rootOf sw b := min_choice _ _
  by_cases px : rootOf sw x = rootOf sw a ∨ rootOf sw x = rootOf sw b
  · by_cases py : rootOf sw y = rootOf sw a ∨ rootOf sw y = rootOf sw b
    · simp only [px, py, if_true, and_self, or_true]
    · simp only [px, py, if_true, if_false, and_false, or_false]
      constructor
      · intro e
        exact absurd (hm.imp (fun h => e.symm.trans h) (fun h => e.symm.trans h)) py
      · intro e
        exact absurd (px.imp (fun h => e.symm.trans h) (fun h => e.symm.trans h)) py
  · by_cases py : rootOf sw y = rootOf sw a ∨ rootOf sw y = rootOf sw b
    · simp only [px, py, if_true, if_false, false_and, or_false]
      constructor
      · intro e
        exact absurd (hm.imp (fun h => e.trans h) (fun h => e.trans h)) px
      · intro e
        exact absurd (py.imp (fun h => e.trans h) (fun h => e.trans h)) px
    · simp only [px, py, if_false, false_and, or_false]

theorem swUnions_spec (fuel : Nat) :
    ∀ (pairs : List (Nat × Nat)) (sw : List Nat) (E : List (Nat × Nat)),
      RootsMatch sw E → sw.length ≤ fuel →
      (∀ p ∈ pairs, p.1 < sw.length ∧ p.2 < sw.length) →
      ∃ sw1, swUnions fuel sw pairs = some sw1 ∧ sw1.length = sw.length ∧
        RootsMatch sw1 (E ++ pairs) := by
  intro pairs
  induction pairs with
  | nil =>
    intro sw E h _ _
    exact ⟨sw, rfl, rfl, by rwa [List.append_nil]⟩
  | cons p pairs ih =>
    intro sw E h hfuel hp
    obtain ⟨hp1, hp2⟩ := hp p (List.mem_cons_self _ _)
    obtain ⟨sw1, h1, hlen, hm⟩ := RootsMatch_union h hp1 hp2 hfuel
    obtain ⟨sw2, h2, hlen2, hm2⟩ := ih sw1 (E ++ [(p.1, p.2)]) hm (by rw [hlen]; exact hfuel)
      (fun q hq => by rw [hlen]; exact hp q (List.mem_cons_of_mem _ hq))
    refine ⟨sw2, ?_, hlen2.trans hlen, ?_⟩
    · unfold swUnions at h2 ⊢
      rw [List.foldlM_cons, h1]
      exact h2
    · rw [List.append_assoc] at hm2
      exact hm2

/-- In a forest matching `E`, the result of `FindSWRoot` is the least node
connected to the argument. -/
theorem RootsMatch_least {sw : List Nat} {E : List (Nat × Nat)} (h : RootsMatch sw E)
    (hE : ∀ p ∈ E, p.1 < sw.length ∧ p.2 < sw.length) {s : Nat} (hs : s < sw.length) :
    Conn E s (rootOf sw s) ∧ ∀ t, Conn E s t → rootOf sw s ≤ t := by
  constructor
  · exact (h.2 s _ hs (rootOf_lt h.1 hs)).mp (rootOf_idem h.1 hs).symm
  · intro t ht
    rcases Conn_lt hE ht with e | ⟨-, ht2⟩
    · subst e; exact rootOf_le h.1 hs
    · rw [(h.2 s t hs ht2).mpr ht]
      exact rootOf_le h.1 ht2

theorem findRootLoop_parent {sw : List Nat} (hF : Forest sw) {s : Nat} (hs : s < sw.length)
    {fuel : Nat} (hfuel : s < fuel) :
    findRootLoop fuel sw (sw.getD s 0) = some (rootOf sw s) := by
  have hp : sw.getD s 0 ≤ s := hF s hs
  rw [findRootLoop_eq hF (lt_of_le_of_lt hp hs) (lt_of_le_of_lt hp hfuel), rootOf_parent hF hs]

/-- On a node whose parent already is its root the trail update writes nothing new. -/
theorem compressLoop_compressed {sw : List Nat} {r s fuel : Nat} (hg : sw.getD s 0 = r)
    (hs : s < sw.length) (hr : r ≤ s) (hfuel : s < fuel) :
    compressLoop fuel sw r s = some sw := by
  by_cases h : s = r
  · obtain ⟨k, rfl⟩ : ∃ j, fuel = j + 1 := ⟨fuel - 1, by omega⟩
    rw [compressLoop, if_neg (not_not.mpr h)]
  · obtain ⟨k, rfl⟩ : ∃ j, fuel = j + 2 := ⟨fuel - 2, by omega⟩
    rw [compressLoop, if_pos h, set_getD_self hg hs, hg, compressLoop,
      if_neg (not_not.mpr rfl)]

theorem swUnion_some {sw : List Nat} (hF : Forest sw) {a b : Nat} (ha : a < sw.length)
    (hb : b < sw.length) {fuel : Nat} {sw1 : List Nat} (h : swUnion fuel sw a b = some sw1) :
    Forest sw1 ∧ sw1.length = sw.length := by
  obtain ⟨sw2, h1, h2, h3, -⟩ :=
    swUnion_spec hF ha hb (Nat.le_add_left sw.length fuel : sw.length ≤ fuel + sw.length)
  have h0 := swUnion_fuel_mono h sw.length
  rw [h1] at h0
  have e : sw2 = sw1 := Option.some.inj h0
  subst e
  exact ⟨h2, h3⟩

theorem Reachable_forest {n : Nat} {sw : List Nat} (h : Reachable n sw) :
    Forest sw ∧ sw.length = n := by
  induction h with
  | init => exact ⟨Forest_range n, List.length_range n⟩
  | find fuel s sw r sw1 _ hs hf ih =>
    obtain ⟨-, h2, h3, -, -⟩ := FindSWRoot_some ih.1 (by rw [ih.2]; exact hs) hf
    exact ⟨h2, h3.trans ih.2⟩
  | union fuel a b sw sw1 _ ha hb hu ih =>
    obtain ⟨h2, h3⟩ := swUnion_some ih.1 (by rw [ih.2]; exact ha) (by rw [ih.2]; exact hb) hu
    exact ⟨h2, h3.trans ih.2⟩

/-- C3: starting from the identity forest on `n` nodes and applying any finite
sequence of unions as `SWUpdate` performs them, the unions return (fuel `n` suffices)
and, for all nodes `a` and `b`, `FindSWRoot(a) == FindSWRoot(b)` holds if and only
if `a` and `b` are connected in the reflexive-symmetric-transitive closure of the
united pairs. -/
theorem FindSWRoot_eq_iff_connected (n : Nat) (pairs : List (Nat × Nat))
    (hp : ∀ p ∈ pairs, p.1 < n ∧ p.2 < n) (fuel : Nat) (hfuel : n ≤ fuel) :
    ∃ sw, swUnions fuel (List.range n) pairs = some sw ∧
      ∀ a b, a < n → b < n →
        ∃ ra sa rb sb, FindSWRoot fuel sw a = some (ra, sa) ∧
          FindSWRoot fuel sa b = some (rb, sb) ∧ (ra = rb ↔ Conn pairs a b) := by
  have hlen : (List.range n).length = n := List.length_range n
  obtain ⟨sw, h1, h2, h3⟩ := swUnions_spec fuel pairs (List.range n) [] (RootsMatch_range n)
    (by rw [hlen]; exact hfuel) (by rw [hlen]; exact hp)
  rw [List.nil_append] at h3
  rw [hlen] at h2
  refine ⟨sw, h1, fun a b ha hb => ?_⟩
  have ha1 : a < sw.length := by rw [h2]; exact ha
  have hb1 : b < sw.length := by rw [h2]; exact hb
  obtain ⟨sa, h4, hFa, hla, hra, -, -⟩ := FindSWRoot_spec h3.1 ha1 (lt_of_lt_of_le ha hfuel)
  obtain ⟨sb, h5, -, -, -, -, -⟩ :=
    FindSWRoot_spec hFa (by rw [hla]; exact hb1) (lt_of_lt_of_le hb hfuel)
  rw [hra b hb1] at h5
  exact ⟨_, sa, _, sb, h4, h5, h3.2 a b ha1 hb1⟩

/-- Witness of C3: three nodes, the unions `0 - 1` and `1 - 0`. -/
theorem FindSWRoot_eq_iff_connected_witness :
    ((∀ p ∈ [(0, 1), (1, 0)], p.1 < 3 ∧ p.2 < 3) ∧ 3 ≤ 3) ∧
    ∃ sw, swUnions 3 (List.range 3) [(0, 1), (1, 0)] = some sw ∧
      ∀ a b, a < 3 → b < 3 →
        ∃ ra sa rb sb, FindSWRoot 3 sw a = some (ra, sa) ∧
          FindSWRoot 3 sa b = some (rb, sb) ∧ (ra = rb ↔ Conn [(0, 1), (1, 0)] a b) :=
  ⟨⟨by decide, by decide⟩,
    FindSWRoot_eq_iff_connected 3 [(0, 1), (1, 0)] (by decide) 3 (by decide)⟩

/-- C4: on every forest reachable from the identity forest by unions and finds, and
every node `s`, calling `FindSWRoot(s)` twice in a row returns the same root both
times, the second call leaves `sw_root` unchanged, and the first call changes the
root of no node `x` (the `FindSWRoot` result for `x` before and after is equal). -/
theorem FindSWRoot_idempotent (n : Nat) (sw : List Nat) (hR : Reachable n sw) (s : Nat)
    (hs : s < n) (fuel : Nat) (hfuel : n ≤ fuel) :
    ∃ r sw1, FindSWRoot fuel sw s = some (r, sw1) ∧ FindSWRoot fuel sw1 s = some (r, sw1) ∧
      ∀ x, x < n → ∃ rx sx sx1,
        FindSWRoot fuel sw x = some (rx, sx) ∧ FindSWRoot fuel sw1 x = some (rx, sx1) := by
  obtain ⟨hF, hlen⟩ := Reachable_forest hR
  have hs1 : s < sw.length := by rw [hlen]; exact hs
  have hsf : s < fuel := lt_of_lt_of_le hs hfuel
  obtain ⟨sw1, h1, hF1, hl1, hr1, -, hg1⟩ := FindSWRoot_spec hF hs1 hsf
  have hs2 : s < sw1.length := by rw [hl1]; exact hs1
  refine ⟨rootOf sw s, sw1, h1, ?_, fun x hx => ?_⟩
  · have hfind := findRootLoop_parent hF1 hs2 hsf
    rw [hr1 s hs1] at hfind
    have hcomp := compressLoop_compressed hg1 hs2 (rootOf_le hF hs1) hsf
    rw [FindSWRoot, hfind]
    simp only [hcomp]
  · have hx1 : x < sw.length := by rw [hlen]; exact hx
    have hxf : x < fuel := lt_of_lt_of_le hx hfuel
    obtain ⟨sx, h2, -⟩ := FindSWRoot_spec hF hx1 hxf
    obtain ⟨sx1, h3, -⟩ := FindSWRoot_spec hF1 (by rw [hl1]; exact hx1) hxf
    rw [hr1 x hx1] at h3
    exact ⟨_, sx, sx1, h2, h3⟩

/-- Witness of C4: the forest after uniting `1 - 2` on three nodes, node 2. -/
theorem FindSWRoot_idempotent_witness :
    (Reachable 3 [0, 1, 1] ∧ 2 < 3 ∧ 3 ≤ 3) ∧
    ∃ r sw1, FindSWRoot 3 [0, 1, 1] 2 = some (r, sw1) ∧
      FindSWRoot 3 sw1 2 = some (r, sw1) ∧
      ∀ x, x < 3 → ∃ rx sx sx1,
        FindSWRoot 3 [0, 1, 1] x = some (rx, sx) ∧ FindSWRoot 3 sw1 x = some (rx, sx1) :=
  ⟨⟨Reachable.union 3 1 2 (List.range 3) [0, 1, 1] Reachable.init (by decide) (by decide)
      (by decide), by decide, by decide⟩,
    FindSWRoot_idempotent 3 [0, 1, 1]
      (Reachable.union 3 1 2 (List.range 3) [0, 1, 1] Reachable.init (by decide) (by decide)
        (by decide)) 2 (by decide) 3 (by decide)⟩

/-! ## The bond phase of `SWUpdate` -/

theorem SameField_refl (f : QfeIsing) : SameField f f := ⟨rfl, rfl, rfl, rfl, rfl, rfl⟩

theorem SameField_trans {f f1 f2 : QfeIsing} (h1 : SameField f f1) (h2 : SameField f1 f2) :
    SameField f f2 :=
  ⟨h2.1.trans h1.1, h2.2.1.trans h1.2.1, h2.2.2.1.trans h1.2.2.1,
    h2.2.2.2.1.trans h1.2.2.2.1, h2.2.2.2.2.1.trans h1.2.2.2.2.1,
    h2.2.2.2.2.2.trans h1.2.2.2.2.2⟩

theorem swActivated_congr (expLt : ℚ → ℚ → Bool) {f f1 : QfeIsing} (h : SameField f f1) :
    ∀ (ls : List Nat) (rng : QfeRng), swActivated expLt f1 ls rng = swActivated expLt f ls rng := by
  intro ls
  induction ls with
  | nil => intro rng; rfl
  | cons l ls ih =>
    intro rng
    simp only [swActivated, h.1, h.2.1, h.2.2.1, ih]

theorem swBondLoop_spec (expLt : ℚ → ℚ → Bool) (fuel : Nat) :
    ∀ (ls : List Nat) (f : QfeIsing) (E : List (Nat × Nat)),
      RootsMatch f.sw_root E → f.sw_root.length ≤ fuel →
      (∀ l ∈ ls, (f.lattice.links.getD l default).sites.1 < f.sw_root.length ∧
        (f.lattice.links.getD l default).sites.2 < f.sw_root.length) →
      ∃ f1, ls.foldlM (swBond expLt fuel) f = some f1 ∧
        f1.sw_root.length = f.sw_root.length ∧
        RootsMatch f1.sw_root (E ++ swActivated expLt f ls f.lattice.rng) ∧
        SameField f f1 := by
  intro ls
  induction ls with
  | nil =>
    intro f E h _ _
    exact ⟨f, rfl, rfl, by simpa [swActivated] using h, SameField_refl f⟩
  | cons l ls ih =>
    intro f E h hfuel hl
    obtain ⟨hl1, hl2⟩ := hl l (List.mem_cons_self _ _)
    have hls : ∀ m ∈ ls, (f.lattice.links.getD m default).sites.1 < f.sw_root.length ∧
        (f.lattice.links.getD m default).sites.2 < f.sw_root.length :=
      fun m hm => hl m (List.mem_cons_of_mem _ hm)
    rw [List.foldlM_cons]
    by_cases hrate : -2 * f.beta * f.spin.getD (f.lattice.links.getD l default).sites.1 0 *
        f.spin.getD (f.lattice.links.getD l default).sites.2 0 *
        (f.lattice.links.getD l default).wt ≥ 0
    · have e1 : swBond expLt fuel f l = some f := by
        unfold swBond; simp only [hrate, if_true]
      have e2 : swActivated expLt f (l :: ls) f.lattice.rng =
          swActivated expLt f ls f.lattice.rng := by
        simp only [swActivated, hrate, if_true]
      rw [e1, e2]
      exact ih f E h hfuel hls
    · by_cases hexp : expLt f.lattice.rng.RandReal.1
          (-2 * f.beta * f.spin.getD (f.lattice.links.getD l default).sites.1 0 *
            f.spin.getD (f.lattice.links.getD l default).sites.2 0 *
            (f.lattice.links.getD l default).wt) = true
      · have e1 : swBond expLt fuel f l = some (f.withRng f.lattice.rng.RandReal.2) := by
          unfold swBond; simp only [hrate, if_false, hexp, if_true]
        have e2 : swActivated expLt f (l :: ls) f.lattice.rng =
            swActivated expLt f ls f.lattice.rng.RandReal.2 := by
          simp only [swActivated, hrate, if_false, hexp, if_true]
        have hsame : SameField f (f.withRng f.lattice.rng.RandReal.2) := SameField_refl f
        rw [e1, e2]
        obtain ⟨f1, h1, h2, h3, h4⟩ := ih (f.withRng f.lattice.rng.RandReal.2) E h hfuel hls
        rw [swActivated_congr expLt hsame] at h3
        exact ⟨f1, h1, h2, h3, SameField_trans hsame h4⟩
      · obtain ⟨sw1, hu, hlen, hm⟩ := RootsMatch_union h hl1 hl2 hfuel
        have e1 : swBond expLt fuel f l =
            some { f.withRng f.lattice.rng.RandReal.2 with sw_root := sw1 } := by
          unfold swBond; simp only [hrate, if_false, hexp, Bool.false_eq_true, hu, Option.map_some']
        have e2 : swActivated expLt f (l :: ls) f.lattice.rng =
            ((f.lattice.links.getD l default).sites.1, (f.lattice.links.getD l default).sites.2) ::
              swActivated expLt f ls f.lattice.rng.RandReal.2 := by
          simp only [swActivated, hrate, if_false, hexp, Bool.false_eq_true]
        have hsame : SameField f { f.withRng f.lattice.rng.RandReal.2 with sw_root := sw1 } :=
          SameField_refl f
        rw [e1, e2]
        obtain ⟨f1, h1, h2, h3, h4⟩ :=
          ih { f.withRng f.lattice.rng.RandReal.2 with sw_root := sw1 } _ hm
            (by simp only; rw [hlen]; exact hfuel)
            (fun m hm => by simp only [withRng_links]; rw [hlen]; exact hls m hm)
        rw [swActivated_congr expLt hsame] at h3
        refine ⟨f1, h1, h2.trans hlen, ?_, SameField_trans hsame h4⟩
        rw [List.append_assoc] at h3
        exact h3

/-- Every activated link is a link of the lattice. -/
theorem swActivated_mem (expLt : ℚ → ℚ → Bool) (f : QfeIsing) :
    ∀ (ls : List Nat) (rng : QfeRng) (p : Nat × Nat), p ∈ swActivated expLt f ls rng →
      ∃ l ∈ ls, p = (f.lattice.links.getD l default).sites := by
  intro ls
  induction ls with
  | nil => intro rng p hp; simp [swActivated] at hp
  | cons l ls ih =>
    intro rng p hp
    simp only [swActivated] at hp
    split_ifs at hp with h1 h2
    · obtain ⟨m, hm, e⟩ := ih _ p hp
      exact ⟨m, List.mem_cons_of_mem _ hm, e⟩
    · obtain ⟨m, hm, e⟩ := ih _ p hp
      exact ⟨m, List.mem_cons_of_mem _ hm, e⟩
    · rcases List.mem_cons.mp hp with e | hp
      · exact ⟨l, List.mem_cons_self _ _, e⟩
      · obtain ⟨m, hm, e⟩ := ih _ p hp
        exact ⟨m, List.mem_cons_of_mem _ hm, e⟩

theorem swLinks_lt (expLt : ℚ → ℚ → Bool) (f : QfeIsing) (hl : f.lattice.LinksInRange) :
    ∀ p ∈ swLinks expLt f, p.1 < f.lattice.n_sites ∧ p.2 < f.lattice.n_sites := by
  intro p hp
  obtain ⟨l, hl1, e⟩ := swActivated_mem expLt f _ _ p hp
  rw [e]
  exact hl.2 l (List.mem_range.mp hl1)

/-- The bond phase on well-formed input returns, keeps the field, and leaves a
forest whose roots decide connectivity by the activated links. -/
theorem swBondPhase_spec (expLt : ℚ → ℚ → Bool) (f : QfeIsing) (hs : f.Sized)
    (hl : f.lattice.LinksInRange) (fuel : Nat) (hfuel : f.sw_root.length ≤ fuel) :
    ∃ f1, swBondPhase expLt fuel f = some f1 ∧ f1.sw_root.length = f.sw_root.length ∧
      RootsMatch f1.sw_root (swLinks expLt f) ∧ SameField f f1 := by
  obtain ⟨hs1, -, -, hs4⟩ := hs
  have hlen : (List.range f.sw_root.length).length = f.sw_root.length := List.length_range _
  have hsame : SameField f { f with sw_root := List.range f.sw_root.length } :=
    SameField_refl f
  obtain ⟨f1, h1, h2, h3, h4⟩ := swBondLoop_spec expLt fuel (List.range f.lattice.n_links)
    { f with sw_root := List.range f.sw_root.length } [] (RootsMatch_range _)
    (by simp only; rw [hlen]; exact hfuel)
    (fun l hl1 => by
      simp only
      rw [hlen]
      have := hl.2 l (List.mem_range.mp hl1)
      omega)
  rw [List.nil_append, swActivated_congr expLt hsame] at h3
  exact ⟨f1, h1, h2.trans hlen, h3, h4⟩

/-- C8: after the bond phase of `SWUpdate`, for every site `s` the call
`FindSWRoot(s)` returns the minimum site id of the connected component of `s` in the
graph formed by the activated links: a site connected to `s` that is below or equal
to every site connected to `s`. -/
theorem swBondPhase_canonical_roots (expLt : ℚ → ℚ → Bool) (f : QfeIsing) (hs : f.Sized)
    (hl : f.lattice.LinksInRange) (fuel : Nat) (hfuel : f.lattice.sites.length ≤ fuel) :
    ∃ f1, swBondPhase expLt fuel f = some f1 ∧
      ∀ s, s < f.lattice.sites.length →
        ∃ r sw1, FindSWRoot fuel f1.sw_root s = some (r, sw1) ∧
          Conn (swLinks expLt f) s r ∧ ∀ t, Conn (swLinks expLt f) s t → r ≤ t := by
  have hsz := hs
  obtain ⟨hs1, -, -, hs4⟩ := hs
  obtain ⟨f1, h1, h2, h3, -⟩ := swBondPhase_spec expLt f hsz hl fuel (by rw [hs4]; exact hfuel)
  refine ⟨f1, h1, fun s hs => ?_⟩
  have hs' : s < f1.sw_root.length := by rw [h2, hs4]; exact hs
  obtain ⟨sw1, h4, -⟩ := FindSWRoot_spec h3.1 hs' (lt_of_lt_of_le hs hfuel)
  have hE : ∀ p ∈ swLinks expLt f, p.1 < f1.sw_root.length ∧ p.2 < f1.sw_root.length := by
    intro p hp
    have := swLinks_lt expLt f hl p hp
    rw [h2, hs4]
    omega
  obtain ⟨h5, h6⟩ := RootsMatch_least h3 hE hs'
  exact ⟨_, sw1, h4, h5, h6⟩

/-- Witness of C8 on the 4-cycle. -/
theorem swBondPhase_canonical_roots_witness :
    ((ising4 1).Sized ∧ (ising4 1).lattice.LinksInRange ∧
      (ising4 1).lattice.sites.length ≤ 4) ∧
    ∃ f1, swBondPhase (fun _ _ => false) 4 (ising4 1) = some f1 ∧
      ∀ s, s < (ising4 1).lattice.sites.length →
        ∃ r sw1, FindSWRoot 4 f1.sw_root s = some (r, sw1) ∧
          Conn (swLinks (fun _ _ => false) (ising4 1)) s r ∧
          ∀ t, Conn (swLinks (fun _ _ => false) (ising4 1)) s t → r ≤ t :=
  ⟨⟨by decide, by decide, by decide⟩,
    swBondPhase_canonical_roots (fun _ _ => false) (ising4 1) (by decide) (by decide) 4
      (by decide)⟩

/-! ## The cluster phase of `SWUpdate` -/

theorem swSite_new {fuel : Nat} {st : SWClusters} {s r : Nat} {sw1 : List Nat}
    (hfind : FindSWRoot fuel st.f.sw_root s = some (r, sw1))
    (hlk : st.sw_map.lookup r = none) (hnf : st.is_flipped.length = st.n_clusters) :
    swSite fuel st s = some
      { f := { st.f with
          lattice := { st.f.lattice with rng := st.f.lattice.rng.RandReal.2 }
          sw_root := sw1
          spin :=
            if decide (st.f.lattice.rng.RandReal.1 > (1 / 2 : ℚ)) = true then
              st.f.spin.set s (-st.f.spin.getD s 0)
            else st.f.spin }
        sw_map := (r, st.n_clusters) :: st.sw_map
        is_flipped := st.is_flipped ++ [decide (st.f.lattice.rng.RandReal.1 > (1 / 2 : ℚ))]
        n_clusters := st.n_clusters + 1 } := by
  have hget : ∀ b : Bool, (st.is_flipped ++ [b]).getD st.n_clusters false = b := by
    intro b
    rw [List.getD_eq_getElem?_getD, List.getElem?_append_right (by omega), hnf]
    simp
  unfold swSite
  rw [hfind]
  simp only [hlk, Option.isNone_none, if_true, List.lookup_cons, beq_self_eq_true,
    Option.getD_some, hget]
  split_ifs <;> rfl

theorem swSite_old {fuel : Nat} {st : SWClusters} {s r c : Nat} {sw1 : List Nat}
    (hfind : FindSWRoot fuel st.f.sw_root s = some (r, sw1))
    (hlk : st.sw_map.lookup r = some c) :
    swSite fuel st s = some
      { st with
        f := { st.f with
          sw_root := sw1
          spin :=
            if st.is_flipped.getD c false = true then st.f.spin.set s (-st.f.spin.getD s 0)
            else st.f.spin } } := by
  unfold swSite
  rw [hfind]
  simp only [hlk, Option.isNone_some, Bool.false_eq_true, if_false, Option.getD_some]
  split_ifs <;> rfl

/-- The effect of the flip of site `s` on the spin part of the loop invariant, for
the recorded flip decisions `φ` before and `φ1` after the iteration. -/
theorem spin_eq_step (spin spin0 : List ℚ) (root : Nat → Nat) (φ φ1 : Nat → Bool)
    (done : List Nat) (s : Nat) (flag : Bool)
    (hinv : ∀ x, spin.getD x 0 =
      if x ∈ done ∧ φ (root x) = true then -spin0.getD x 0 else spin0.getD x 0)
    (hs : s < spin.length) (hnd : s ∉ done) (h1 : φ1 (root s) = flag)
    (h2 : ∀ x ∈ done, φ1 (root x) = φ (root x)) :
    ∀ x, (if flag = true then spin.set s (-spin.getD s 0) else spin).getD x 0 =
      if x ∈ s :: done ∧ φ1 (root x) = true then -spin0.getD x 0 else spin0.getD x 0 := by
  intro x
  by_cases hx : x = s
  · subst hx
    have hold : spin.getD x 0 = spin0.getD x 0 := by
      rw [hinv x, if_neg (fun h => hnd h.1)]
    rw [h1]
    cases flag with
    | false =>
      simp only [Bool.false_eq_true, if_false, and_false]
      exact hold
    | true =>
      simp only [if_true, List.mem_cons, true_or, and_self]
      rw [getD_set_eq, if_pos ⟨rfl, hs⟩, hold]
  · have hx2 : ¬ s = x := fun e => hx e.symm
    have hl : (if flag = true then spin.set s (-spin.getD s 0) else spin).getD x 0 =
        spin.getD x 0 := by
      split_ifs
      · rw [getD_set_eq, if_neg (fun h => hx2 h.1)]
      · rfl
    rw [hl, hinv x]
    by_cases hd : x ∈ done
    · simp only [hd, true_and, List.mem_cons, or_true, h2 x hd]
    · simp only [hd, false_and, if_false, List.mem_cons, hx, or_self]

theorem swSite_inv {sw0 : List Nat} {f0 : QfeIsing} {done : List Nat} {st : SWClusters}
    (h : SWInv sw0 f0 done st) {s : Nat} (hs : s < sw0.length) (hsp : s < f0.spin.length)
    (hnd : s ∉ done) {fuel : Nat} (hfuel : s < fuel) :
    ∃ st1, swSite fuel st s = some st1 ∧ SWInv sw0 f0 (s :: done) st1 := by
  have hs1 : s < st.f.sw_root.length := by rw [h.len]; exact hs
  obtain ⟨sw1, hfind, hF1, hl1, hr1, -, -⟩ := FindSWRoot_spec h.forest hs1 hfuel
  rw [h.roots s hs] at hfind
  have hroots : ∀ x, x < sw0.length → rootOf sw1 x = rootOf sw0 x := fun x hx => by
    rw [hr1 x (by rw [h.len]; exact hx), h.roots x hx]
  have hsp1 : s < st.f.spin.length := by rw [h.spin_len]; exact hsp
  cases hlk : st.sw_map.lookup (rootOf sw0 s) with
  | none =>
    have hnot : ∀ x ∈ done, rootOf sw0 x ≠ rootOf sw0 s := by
      intro x hx e
      have := (h.keys (rootOf sw0 s)).mpr ⟨x, hx, e⟩
      rw [hlk] at this
      exact absurd this (by simp)
    refine ⟨_, swSite_new hfind hlk h.nflip, ?_⟩
    have hflip1 : ∀ b : Bool, flipOf
        { f := st.f, sw_map := (rootOf sw0 s, st.n_clusters) :: st.sw_map,
          is_flipped := st.is_flipped ++ [b], n_clusters := st.n_clusters + 1 }
        (rootOf sw0 s) = b := by
      intro b
      simp only [flipOf, List.lookup_cons, beq_self_eq_true]
      rw [List.getD_eq_getElem?_getD, List.getElem?_append_right (by rw [h.nflip]), h.nflip]
      simp
    have hflip2 : ∀ (b : Bool) (x : Nat), x ∈ done → flipOf
        { f := st.f, sw_map := (rootOf sw0 s, st.n_clusters) :: st.sw_map,
          is_flipped := st.is_flipped ++ [b], n_clusters := st.n_clusters + 1 }
        (rootOf sw0 x) = flipOf st (rootOf sw0 x) := by
      intro b x hx
      have hne : (rootOf sw0 x == rootOf sw0 s) = false := by
        simpa using hnot x hx
      simp only [flipOf, List.lookup_cons, hne]
      cases hc : st.sw_map.lookup (rootOf sw0 x) with
      | none => rfl
      | some c =>
        simp only
        rw [List.getD_eq_getElem?_getD, List.getD_eq_getElem?_getD,
          List.getElem?_append_left (h.vals _ _ hc)]
    refine
      { forest := hF1, len := hl1.trans h.len, roots := hroots, keys := ?_, vals := ?_,
        nflip := by simp [h.nflip], count := ?_, spin_len := ?_, spin_eq := ?_,
        draws := ?_, n_eq := h.n_eq }
    · intro r
      simp only [List.lookup_cons, List.mem_cons, exists_eq_or_imp]
      by_cases hr : r = rootOf sw0 s
      · subst hr
        simp
      · have hne : (r == rootOf sw0 s) = false := by simpa using hr
        have hne2 : ¬ rootOf sw0 s = r := fun e => hr e.symm
        simp only [hne, hne2, false_or]
        exact h.keys r
    · intro r c hc
      simp only [List.lookup_cons] at hc
      simp only [List.length_append, List.length_singleton]
      by_cases hr : r = rootOf sw0 s
      · subst hr
        simp only [beq_self_eq_true, Option.some.injEq] at hc
        rw [h.nflip]
        omega
      · have hne : (r == rootOf sw0 s) = false := by simpa using hr
        simp only [hne] at hc
        have := h.vals r c hc
        omega
    · simp only [List.map_cons, List.toFinset_cons]
      rw [Finset.card_insert_of_not_mem, ← h.count]
      intro hm
      rw [List.mem_toFinset, List.mem_map] at hm
      obtain ⟨x, hx, e⟩ := hm
      exact hnot x hx e
    · simp only
      split_ifs
      · rw [List.length_set]; exact h.spin_len
      · exact h.spin_len
    · exact spin_eq_step st.f.spin f0.spin (rootOf sw0) (flipOf st) _ done s _ h.spin_eq hsp1 hnd
        (hflip1 _) (hflip2 _)
    · show st.f.lattice.rng.pos + 1 = f0.lattice.rng.pos + (st.n_clusters + 1)
      rw [h.draws]
      omega
  | some c =>
    have hflip1 : flipOf st (rootOf sw0 s) = st.is_flipped.getD c false := by
      simp only [flipOf, hlk]
    refine ⟨_, swSite_old hfind hlk, ?_⟩
    refine
      { forest := hF1, len := hl1.trans h.len, roots := hroots, keys := ?_, vals := h.vals,
        nflip := h.nflip, count := ?_, spin_len := ?_, spin_eq := ?_,
        draws := h.draws, n_eq := h.n_eq }
    · intro r
      simp only [List.mem_cons, exists_eq_or_imp]
      rw [h.keys r]
      constructor
      · exact fun hx => Or.inr hx
      · rintro (e | hx)
        · apply (h.keys r).mp
          rw [← e, hlk]
          rfl
        · exact hx
    · simp only [List.map_cons, List.toFinset_cons]
      have hm : rootOf sw0 s ∈ (done.map (rootOf sw0)).toFinset := by
        rw [List.mem_toFinset, List.mem_map]
        apply (h.keys _).mp
        rw [hlk]
        rfl
      rw [Finset.insert_eq_of_mem hm]
      exact h.count
    · simp only
      split_ifs
      · rw [List.length_set]; exact h.spin_len
      · exact h.spin_len
    · exact spin_eq_step st.f.spin f0.spin (rootOf sw0) (flipOf st) (flipOf st) done s _
        h.spin_eq hsp1 hnd hflip1 (fun _ _ => rfl)

theorem swSiteLoop_inv {sw0 : List Nat} {f0 : QfeIsing} (fuel : Nat) :
    ∀ (ss done : List Nat) (st : SWClusters), SWInv sw0 f0 done st →
      (∀ s ∈ ss, s < sw0.length ∧ s < f0.spin.length ∧ s < fuel) → ss.Nodup →
      (∀ s ∈ ss, s ∉ done) →
      ∃ st1, ss.foldlM (swSite fuel) st = some st1 ∧ SWInv sw0 f0 (ss.reverse ++ done) st1 := by
  intro ss
  induction ss with
  | nil => intro done st h _ _ _; exact ⟨st, rfl, h⟩
  | cons s ss ih =>
    intro done st h hlt hnd hdone
    obtain ⟨h1, h2, h3⟩ := hlt s (List.mem_cons_self _ _)
    obtain ⟨hs, hss⟩ := List.nodup_cons.mp hnd
    obtain ⟨st1, e1, hinv1⟩ := swSite_inv h h1 h2 (hdone s (List.mem_cons_self _ _)) h3
    obtain ⟨st2, e2, hinv2⟩ := ih (s :: done) st1 hinv1
      (fun x hx => hlt x (List.mem_cons_of_mem _ hx)) hss
      (fun x hx hm => by
        rcases List.mem_cons.mp hm with e | hm
        · subst e; exact hs hx
        · exact hdone x (List.mem_cons_of_mem _ hx) hm)
    refine ⟨st2, ?_, ?_⟩
    · rw [List.foldlM_cons, e1]; exact e2
    · have e : (s :: ss).reverse ++ done = ss.reverse ++ s :: done := by simp
      rw [e]; exact hinv2

/-- The cluster phase on a forest returns, and the loop invariant holds at exit with
every site visited. -/
theorem swClusterPhase_spec (f1 : QfeIsing) (hF : Forest f1.sw_root)
    (hn : f1.lattice.n_sites ≤ f1.sw_root.length) (hsp : f1.lattice.n_sites ≤ f1.spin.length)
    (fuel : Nat) (hfuel : f1.lattice.n_sites ≤ fuel) :
    ∃ st, swClusterPhase fuel f1 = some st ∧
      SWInv f1.sw_root f1 (List.range f1.lattice.n_sites).reverse st := by
  have h0 : SWInv f1.sw_root f1 [] ⟨f1, [], [], 0⟩ :=
    { forest := hF, len := rfl, roots := fun _ _ => rfl, keys := by simp, vals := by simp,
      nflip := rfl, count := rfl, spin_len := rfl, spin_eq := by simp, draws := rfl,
      n_eq := rfl }
  obtain ⟨st, h1, h2⟩ := swSiteLoop_inv fuel (List.range f1.lattice.n_sites) [] _ h0
    (fun s hs => by have := List.mem_range.mp hs; omega) (List.nodup_range _) (by simp)
  rw [List.append_nil] at h2
  exact ⟨st, h1, h2⟩

/-- The number of distinct roots over the sites `0 .. n-1`. -/
theorem card_roots_reverse (root : Nat → Nat) (n : Nat) :
    (((List.range n).reverse).map root).toFinset = ((List.range n).map root).toFinset := by
  ext r
  simp

theorem card_roots_bounds (root : Nat → Nat) {n : Nat} (hn : 1 ≤ n) :
    1 ≤ ((List.range n).map root).toFinset.card ∧
      ((List.range n).map root).toFinset.card ≤ n := by
  constructor
  · apply Finset.card_pos.mpr
    refine ⟨root 0, ?_⟩
    rw [List.mem_toFinset, List.mem_map]
    exact ⟨0, List.mem_range.mpr (by omega), rfl⟩
  · have := List.toFinset_card_le ((List.range n).map root)
    simpa using this

/-- The result of `SWUpdate` on well-formed input, in terms of the bond phase result
`f1` and the exit state `st` of the site loop. -/
theorem SWUpdate_spec (expLt : ℚ → ℚ → Bool) (f : QfeIsing) (hs : f.Sized)
    (hl : f.lattice.LinksInRange) (fuel : Nat) (hfuel : f.lattice.sites.length ≤ fuel) :
    ∃ f1 st, swBondPhase expLt fuel f = some f1 ∧
      SWUpdate expLt fuel f = some (st.n_clusters, st.f) ∧
      f1.sw_root.length = f.lattice.sites.length ∧
      RootsMatch f1.sw_root (swLinks expLt f) ∧ SameField f f1 ∧
      SWInv f1.sw_root f1 (List.range f.lattice.n_sites).reverse st := by
  have hsz := hs
  obtain ⟨hs1, hs2, -, hs4⟩ := hs
  obtain ⟨f1, h1, h2, h3, h4⟩ := swBondPhase_spec expLt f hsz hl fuel (by rw [hs4]; exact hfuel)
  have hn1 : f1.lattice.n_sites = f.lattice.n_sites := h4.2.2.2.2.1
  obtain ⟨st, h5, h6⟩ := swClusterPhase_spec f1 h3.1 (by rw [hn1, h2, hs4]; exact hs1)
    (by rw [hn1, h4.1, hs2]; exact hs1) fuel (by rw [hn1]; omega)
  rw [hn1] at h6
  refine ⟨f1, st, h1, ?_, h2.trans hs4, h3, h4, h6⟩
  unfold SWUpdate
  rw [h1]
  simp only [h5]

/-! ## Independence of the fuel -/

theorem foldlM_fuel_mono {α β : Type} (g : Nat → β → α → Option β)
    (hg : ∀ k a x b j, g k a x = some b → g (k + j) a x = some b) :
    ∀ (l : List α) (k : Nat) (a b : β) (j : Nat),
      l.foldlM (g k) a = some b → l.foldlM (g (k + j)) a = some b := by
  intro l
  induction l with
  | nil => intro k a b j h; exact h
  | cons x l ih =>
    intro k a b j h
    rw [List.foldlM_cons] at h ⊢
    cases h1 : g k a x with
    | none => rw [h1] at h; cases h
    | some a1 =>
      rw [h1] at h
      rw [hg k a x a1 j h1]
      exact ih k a1 b j h

theorem swBond_fuel_mono (expLt : ℚ → ℚ → Bool) (k : Nat) (f : QfeIsing) (l : Nat)
    (r : QfeIsing) (j : Nat) (h : swBond expLt k f l = some r) :
    swBond expLt (k + j) f l = some r := by
  unfold swBond at h ⊢
  simp only at h ⊢
  split_ifs at h ⊢ with h1 h2
  · exact h
  · exact h
  · cases hu : swUnion k f.sw_root (f.lattice.links.getD l default).sites.1
        (f.lattice.links.getD l default).sites.2 with
    | none => rw [hu] at h; cases h
    | some sw =>
      rw [hu] at h
      rw [swUnion_fuel_mono hu j]
      exact h

theorem swSite_fuel_mono (k : Nat) (st : SWClusters) (s : Nat) (r : SWClusters) (j : Nat)
    (h : swSite k st s = some r) : swSite (k + j) st s = some r := by
  unfold swSite at h ⊢
  cases hf : FindSWRoot k st.f.sw_root s with
  | none => rw [hf] at h; cases h
  | some p =>
    rw [hf] at h
    rw [FindSWRoot_fuel_mono hf j]
    exact h

theorem SWUpdate_fuel_mono (expLt : ℚ → ℚ → Bool) (k : Nat) (f : QfeIsing)
    (p : Nat × QfeIsing) (j : Nat) (h : SWUpdate expLt k f = some p) :
    SWUpdate expLt (k + j) f = some p := by
  unfold SWUpdate at h ⊢
  cases h1 : swBondPhase expLt k f with
  | none => rw [h1] at h; cases h
  | some f1 =>
    rw [h1] at h
    simp only at h
    cases h2 : swClusterPhase k f1 with
    | none => rw [h2] at h; cases h
    | some st =>
      rw [h2] at h
      have e1 : swBondPhase expLt (k + j) f = some f1 :=
        foldlM_fuel_mono (fun k => swBond expLt k) (swBond_fuel_mono expLt) _ k _ f1 j h1
      have e2 : swClusterPhase (k + j) f1 = some st :=
        foldlM_fuel_mono (fun k => swSite k) swSite_fuel_mono _ k _ st j h2
      rw [e1]
      simp only
      rw [e2]
      exact h

theorem swBondPhase_fuel_mono (expLt : ℚ → ℚ → Bool) (k : Nat) (f f1 : QfeIsing) (j : Nat)
    (h : swBondPhase expLt k f = some f1) : swBondPhase expLt (k + j) f = some f1 :=
  foldlM_fuel_mono (fun k => swBond expLt k) (swBond_fuel_mono expLt) _ k _ f1 j h

/-! ## Properties of `SWUpdate` -/

/-- The result of `SWUpdate` on well-formed input does not depend on the fuel from
`sites.size()` on. -/
theorem SWUpdate_result (expLt : ℚ → ℚ → Bool) (f : QfeIsing) (hs : f.Sized)
    (hl : f.lattice.LinksInRange) :
    ∃ f1 st,
      (∀ fuel, f.lattice.sites.length ≤ fuel →
        swBondPhase expLt fuel f = some f1 ∧
        SWUpdate expLt fuel f = some (st.n_clusters, st.f)) ∧
      f1.sw_root.length = f.lattice.sites.length ∧
      RootsMatch f1.sw_root (swLinks expLt f) ∧ SameField f f1 ∧
      SWInv f1.sw_root f1 (List.range f.lattice.n_sites).reverse st := by
  obtain ⟨f1, st, h1, h2, h3, h4, h5, h6⟩ :=
    SWUpdate_spec expLt f hs hl f.lattice.sites.length (le_refl _)
  refine ⟨f1, st, fun fuel hfuel => ?_, h3, h4, h5, h6⟩
  obtain ⟨j, rfl⟩ := Nat.exists_eq_add_of_le hfuel
  exact ⟨swBondPhase_fuel_mono expLt _ f f1 j h1, SWUpdate_fuel_mono expLt _ f _ j h2⟩

/-- The number of connected components of the sites `0 .. n-1` is the number of
distinct roots, in a forest whose roots decide connectivity. -/
theorem card_components {sw : List Nat} {E : List (Nat × Nat)} (h : RootsMatch sw E) {n : Nat}
    (hn : n ≤ sw.length) :
    Nat.card (Quotient (connSetoid n E)) = ((List.range n).map (rootOf sw)).toFinset.card := by
  classical
  have hwd : ∀ a b : Fin n, (connSetoid n E).r a b → rootOf sw a.val = rootOf sw b.val :=
    fun a b hab =>
      (h.2 a.val b.val (lt_of_lt_of_le a.isLt hn) (lt_of_lt_of_le b.isLt hn)).mpr hab
  have hinj : Function.Injective
      (Quotient.lift (s := connSetoid n E) (fun a : Fin n => rootOf sw a.val) hwd) := by
    intro q1 q2
    refine Quotient.inductionOn₂ q1 q2 (fun a b e => ?_)
    apply Quotient.sound
    exact (h.2 a.val b.val (lt_of_lt_of_le a.isLt hn) (lt_of_lt_of_le b.isLt hn)).mp e
  haveI : Fintype (Quotient (connSetoid n E)) := Fintype.ofFinite _
  rw [Nat.card_eq_fintype_card, ← Finset.card_univ, ← Finset.card_image_of_injective _ hinj]
  congr 1
  ext r
  simp only [Finset.mem_image, Finset.mem_univ, true_and, List.mem_toFinset, List.mem_map,
    List.mem_range]
  constructor
  · rintro ⟨q, hq⟩
    revert hq
    refine Quotient.inductionOn q (fun a e => ?_)
    exact ⟨a.val, a.isLt, e⟩
  · rintro ⟨x, hx, e⟩
    exact ⟨Quotient.mk _ ⟨x, hx⟩, e⟩

/-- C2: for a lattice with `n_sites >= 1` whose link end sites lie in `[0, n_sites)`,
every spin vector, `beta` and draw stream, `SWUpdate` returns for every fuel from
`sites.size()` on, always with the same result, a cluster count `c` with
`1 <= c <= n_sites`. -/
theorem SWUpdate_cluster_count (expLt : ℚ → ℚ → Bool) (f : QfeIsing)
    (hn : 1 ≤ f.lattice.n_sites) (hs : f.Sized) (hl : f.lattice.LinksInRange) :
    ∃ (c : Nat) (r : QfeIsing),
      (∀ fuel, f.lattice.sites.length ≤ fuel → SWUpdate expLt fuel f = some (c, r)) ∧
      1 ≤ c ∧ c ≤ f.lattice.n_sites := by
  obtain ⟨f1, st, h1, -, -, -, h5⟩ := SWUpdate_result expLt f hs hl
  have hc := h5.count
  rw [card_roots_reverse] at hc
  have hb := card_roots_bounds (rootOf f1.sw_root) hn
  rw [← hc] at hb
  exact ⟨st.n_clusters, st.f, fun fuel hfuel => (h1 fuel hfuel).2, hb.1, hb.2⟩

/-- Witness of C2 on the 4-cycle. -/
theorem SWUpdate_cluster_count_witness :
    (1 ≤ (ising4 1).lattice.n_sites ∧ (ising4 1).Sized ∧ (ising4 1).lattice.LinksInRange) ∧
    ∃ (c : Nat) (r : QfeIsing),
      (∀ fuel, (ising4 1).lattice.sites.length ≤ fuel →
        SWUpdate (fun _ _ => false) fuel (ising4 1) = some (c, r)) ∧
      1 ≤ c ∧ c ≤ (ising4 1).lattice.n_sites :=
  ⟨⟨by decide, by decide, by decide⟩,
    SWUpdate_cluster_count (fun _ _ => false) (ising4 1) (by decide) (by decide) (by decide)⟩

/-- C9: the value returned by `SWUpdate` is the number of connected components of
the graph on the sites `0 .. n_sites-1` whose edges are the links activated in that
call, and it is the number of distinct `FindSWRoot` values over these sites on the
forest left by the bond phase. -/
theorem SWUpdate_counts_components (expLt : ℚ → ℚ → Bool) (f : QfeIsing) (hs : f.Sized)
    (hl : f.lattice.LinksInRange) :
    ∃ (c : Nat) (r f1 : QfeIsing),
      (∀ fuel, f.lattice.sites.length ≤ fuel →
        swBondPhase expLt fuel f = some f1 ∧ SWUpdate expLt fuel f = some (c, r)) ∧
      c = Nat.card (Quotient (connSetoid f.lattice.n_sites (swLinks expLt f))) ∧
      ∃ roots : Nat → Nat,
        (∀ s, s < f.lattice.n_sites → ∀ fuel, f.lattice.sites.length ≤ fuel →
          ∃ sw1, FindSWRoot fuel f1.sw_root s = some (roots s, sw1)) ∧
        c = ((List.range f.lattice.n_sites).map roots).toFinset.card := by
  obtain ⟨f1, st, h1, h2, h3, -, h5⟩ := SWUpdate_result expLt f hs hl
  have hc := h5.count
  rw [card_roots_reverse] at hc
  have hle : f.lattice.n_sites ≤ f1.sw_root.length := by rw [h2]; exact hs.1
  refine ⟨st.n_clusters, st.f, f1, h1, ?_, rootOf f1.sw_root, fun s hs1 fuel hfuel => ?_, hc⟩
  · rw [card_components h3 hle]; exact hc
  · obtain ⟨sw1, h6, -⟩ := FindSWRoot_spec h3.1 (lt_of_lt_of_le hs1 hle)
      (lt_of_lt_of_le (lt_of_lt_of_le hs1 hs.1) hfuel)
    exact ⟨sw1, h6⟩

/-- Witness of C9 on the 4-cycle. -/
theorem SWUpdate_counts_components_witness :
    ((ising4 1).Sized ∧ (ising4 1).lattice.LinksInRange) ∧
    ∃ (c : Nat) (r f1 : QfeIsing),
      (∀ fuel, (ising4 1).lattice.sites.length ≤ fuel →
        swBondPhase (fun _ _ => false) fuel (ising4 1) = some f1 ∧
        SWUpdate (fun _ _ => false) fuel (ising4 1) = some (c, r)) ∧
      c = Nat.card
        (Quotient (connSetoid (ising4 1).lattice.n_sites (swLinks (fun _ _ => false) (ising4 1)))) ∧
      ∃ roots : Nat → Nat,
        (∀ s, s < (ising4 1).lattice.n_sites → ∀ fuel, (ising4 1).lattice.sites.length ≤ fuel →
          ∃ sw1, FindSWRoot fuel f1.sw_root s = some (roots s, sw1)) ∧
        c = ((List.range (ising4 1).lattice.n_sites).map roots).toFinset.card :=
  ⟨⟨by decide, by decide⟩,
    SWUpdate_counts_components (fun _ _ => false) (ising4 1) (by decide) (by decide)⟩

/-- One link iteration that returns keeps the field and consumes one draw exactly
when the rate of the link is negative. -/
theorem swBond_draws (expLt : ℚ → ℚ → Bool) (fuel : Nat) (f f1 : QfeIsing) (l : Nat)
    (h : swBond expLt fuel f l = some f1) :
    SameField f f1 ∧
      f1.lattice.rng.pos = f.lattice.rng.pos + if swRate f l < 0 then 1 else 0 := by
  unfold swBond at h
  simp only at h
  by_cases hrate : swRate f l ≥ 0
  · have hr := hrate
    unfold swRate at hr
    rw [if_pos hr] at h
    have e : f = f1 := Option.some.inj h
    subst e
    exact ⟨SameField_refl f, by rw [if_neg (not_lt.mpr hrate)]; rfl⟩
  · have hr := hrate
    unfold swRate at hr
    rw [if_neg hr] at h
    rw [if_pos (not_le.mp hrate)]
    split_ifs at h with h2
    · have e := Option.some.inj h
      subst e
      exact ⟨SameField_refl f, rfl⟩
    · cases hu : swUnion fuel f.sw_root (f.lattice.links.getD l default).sites.1
          (f.lattice.links.getD l default).sites.2 with
      | none => rw [hu] at h; cases h
      | some sw =>
        rw [hu] at h
        have e := Option.some.inj h
        subst e
        exact ⟨SameField_refl f, rfl⟩

theorem swRate_congr {f f1 : QfeIsing} (h : SameField f f1) (l : Nat) :
    swRate f1 l = swRate f l := by
  unfold swRate
  rw [h.1, h.2.1, h.2.2.1]

theorem swBondLoop_draws (expLt : ℚ → ℚ → Bool) (fuel : Nat) :
    ∀ (ls : List Nat) (f f1 : QfeIsing), ls.foldlM (swBond expLt fuel) f = some f1 →
      SameField f f1 ∧
        f1.lattice.rng.pos =
          f.lattice.rng.pos + (ls.filter fun l => decide (swRate f l < 0)).length := by
  intro ls
  induction ls with
  | nil =>
    intro f f1 h
    have e : f = f1 := Option.some.inj h
    subst e
    exact ⟨SameField_refl f, rfl⟩
  | cons l ls ih =>
    intro f f1 h
    rw [List.foldlM_cons] at h
    cases h1 : swBond expLt fuel f l with
    | none => rw [h1] at h; cases h
    | some f2 =>
      rw [h1] at h
      obtain ⟨hs1, hp1⟩ := swBond_draws expLt fuel f f2 l h1
      obtain ⟨hs2, hp2⟩ := ih f2 f1 h
      refine ⟨SameField_trans hs1 hs2, ?_⟩
      have hfun : (fun l => decide (swRate f2 l < 0)) = fun l => decide (swRate f l < 0) := by
        funext m; rw [swRate_congr hs1]
      rw [hp2, hp1, hfun, List.filter_cons]
      by_cases hl : swRate f l < 0
      · simp only [hl, if_true, decide_True, List.length_cons]; omega
      · simp only [hl, if_false, decide_False, Bool.false_eq_true]; omega

/-- The bond phase on well-formed input consumes one draw per link of negative rate. -/
theorem swBondPhase_draws (expLt : ℚ → ℚ → Bool) (f : QfeIsing) (hs : f.Sized)
    (hl : f.lattice.LinksInRange) (fuel : Nat) (hfuel : f.lattice.sites.length ≤ fuel) :
    ∃ f1, swBondPhase expLt fuel f = some f1 ∧
      f1.lattice.rng.pos = f.lattice.rng.pos + swTestedLinks f := by
  obtain ⟨f1, h1, -⟩ := swBondPhase_spec expLt f hs hl fuel (by rw [hs.2.2.2]; exact hfuel)
  refine ⟨f1, h1, ?_⟩
  have h2 := (swBondLoop_draws expLt fuel _ _ f1 h1).2
  exact h2

theorem swTestedLinks_le (f : QfeIsing) : swTestedLinks f ≤ f.lattice.n_links := by
  unfold swTestedLinks
  have := List.length_filter_le (fun l => decide (swRate f l < 0)) (List.range f.lattice.n_links)
  simpa using this

/-- C11 (as amended): the bond phase of `SWUpdate` draws from the Random Stream once
for every link whose rate is negative and not at all for a link with `rate >= 0`
(the test short-circuits), so it consumes as many draws as there are links of negative
rate, at most `m = n_links`; the count depends on the spins and on `beta`. -/
theorem swBondPhase_draw_count (expLt : ℚ → ℚ → Bool) (f : QfeIsing) (hs : f.Sized)
    (hl : f.lattice.LinksInRange) (fuel : Nat) (hfuel : f.lattice.sites.length ≤ fuel) :
    ∃ f1, swBondPhase expLt fuel f = some f1 ∧
      f1.lattice.rng.pos = f.lattice.rng.pos + swTestedLinks f ∧
      swTestedLinks f ≤ f.lattice.n_links := by
  obtain ⟨f1, h1, h2⟩ := swBondPhase_draws expLt f hs hl fuel hfuel
  exact ⟨f1, h1, h2, swTestedLinks_le f⟩

/-- Witness of C11 (as amended) on the 4-cycle. -/
theorem swBondPhase_draw_count_witness :
    ((ising4 1).Sized ∧ (ising4 1).lattice.LinksInRange ∧
      (ising4 1).lattice.sites.length ≤ 4) ∧
    ∃ f1, swBondPhase (fun _ _ => false) 4 (ising4 1) = some f1 ∧
      f1.lattice.rng.pos = (ising4 1).lattice.rng.pos + swTestedLinks (ising4 1) ∧
      swTestedLinks (ising4 1) ≤ (ising4 1).lattice.n_links :=
  ⟨⟨by decide, by decide, by decide⟩,
    swBondPhase_draw_count (fun _ _ => false) (ising4 1) (by decide) (by decide) 4 (by decide)⟩

/-- C11 (counterexample): on the 4-cycle with spins `+1, +1, +1, -1`, `beta = 1` and
unit weights the lattice has 4 links, two of them join opposite spins and have a
positive rate, and the bond phase consumes 2 draws, not 4. -/
theorem swBondPhase_draw_count_counterexample :
    (ising4 1).lattice.n_links = 4 ∧
    ∃ f1, swBondPhase (fun _ _ => false) 4 (ising4 1) = some f1 ∧
      f1.lattice.rng.pos = (ising4 1).lattice.rng.pos + 2 ∧
      f1.lattice.rng.pos ≠ (ising4 1).lattice.rng.pos + (ising4 1).lattice.n_links := by
  refine ⟨rfl, ?_⟩
  obtain ⟨f1, h1, h2⟩ := swBondPhase_draws (fun _ _ => false) (ising4 1) (by decide) (by decide)
    4 (by decide)
  have e : swTestedLinks (ising4 1) = 2 := by decide!
  rw [e] at h2
  refine ⟨f1, h1, h2, ?_⟩
  rw [h2]
  decide

/-! ## The bond test of `WolffUpdate` -/

/-- The three outcomes of one bond test of `wolffTry` on a neighbour that is not yet in
the cluster, for any site record and any value in the place of the captured spin. -/
theorem wolffTry_step_rule (expLt : ℚ → ℚ → Bool) (site : QfeSite) (value : ℚ)
    (st : QfeIsing × List Nat) (n : Nat)
    (hc : st.1.is_clustered.getD (site.neighbors.getD n 0) false = false) :
    (-2 * st.1.beta * value * st.1.spin.getD (site.neighbors.getD n 0) 0 *
        (st.1.lattice.links.getD (site.links.getD n 0) default).wt ≥ 0 →
      wolffTry expLt site value st n = st) ∧
    (-2 * st.1.beta * value * st.1.spin.getD (site.neighbors.getD n 0) 0 *
        (st.1.lattice.links.getD (site.links.getD n 0) default).wt < 0 →
      expLt st.1.lattice.rng.RandReal.1
        (-2 * st.1.beta * value * st.1.spin.getD (site.neighbors.getD n 0) 0 *
          (st.1.lattice.links.getD (site.links.getD n 0) default).wt) = true →
      wolffTry expLt site value st n = (st.1.withRng st.1.lattice.rng.RandReal.2, st.2)) ∧
    (-2 * st.1.beta * value * st.1.spin.getD (site.neighbors.getD n 0) 0 *
        (st.1.lattice.links.getD (site.links.getD n 0) default).wt < 0 →
      expLt st.1.lattice.rng.RandReal.1
        (-2 * st.1.beta * value * st.1.spin.getD (site.neighbors.getD n 0) 0 *
          (st.1.lattice.links.getD (site.links.getD n 0) default).wt) = false →
      wolffTry expLt site value st n =
        ({ st.1.withRng st.1.lattice.rng.RandReal.2 with
            wolff_cluster := st.1.wolff_cluster ++ [site.neighbors.getD n 0]
            is_clustered := st.1.is_clustered.set (site.neighbors.getD n 0) true },
          site.neighbors.getD n 0 :: st.2)) := by
  refine ⟨fun h => ?_, fun h hu => ?_, fun h hu => ?_⟩
  · unfold wolffTry
    simp only [hc, Bool.false_eq_true, if_false, h, if_true]
  · unfold wolffTry
    simp only [hc, Bool.false_eq_true, if_false, not_le.mpr h, hu, if_true]
  · unfold wolffTry
    simp only [hc, Bool.false_eq_true, if_false, not_le.mpr h, hu]

/-- The bond test changes neither the spins nor `beta` nor the links. -/
theorem wolffTry_fixed (expLt : ℚ → ℚ → Bool) (site : QfeSite) (value : ℚ)
    (st : QfeIsing × List Nat) (n : Nat) :
    (wolffTry expLt site value st n).1.spin = st.1.spin ∧
      (wolffTry expLt site value st n).1.beta = st.1.beta ∧
      (wolffTry expLt site value st n).1.lattice.links = st.1.lattice.links := by
  unfold wolffTry
  simp only []
  split_ifs <;> exact ⟨rfl, rfl, rfl⟩

theorem wolffNeighbors_fixed (expLt : ℚ → ℚ → Bool) (site : QfeSite) (value : ℚ) :
    ∀ (ns : List Nat) (st : QfeIsing × List Nat),
      (ns.foldl (wolffTry expLt site value) st).1.spin = st.1.spin ∧
        (ns.foldl (wolffTry expLt site value) st).1.beta = st.1.beta ∧
        (ns.foldl (wolffTry expLt site value) st).1.lattice.links = st.1.lattice.links := by
  intro ns
  induction ns with
  | nil => intro st; exact ⟨rfl, rfl, rfl⟩
  | cons n ns ih =>
    intro st
    obtain ⟨h1, h2, h3⟩ := wolffTry_fixed expLt site value st n
    obtain ⟨g1, g2, g3⟩ := ih (wolffTry expLt site value st n)
    rw [List.foldl_cons]
    exact ⟨g1.trans h1, g2.trans h2, g3.trans h3⟩

/-- C12 (as amended): in the iteration of the `while` loop of `WolffUpdate` that pops
the node `s` from the object `f`, the captured value is `v = spin[s]` as it was before
`spin[s] = -v`, and the iteration continues the neighbour loop, and then the `while`
loop, from the state left by each bond test.  When the neighbour loop reaches an
adjacency entry `n < nn` whose
site is not yet in the cluster, in the state `st`, the spins are those of `f` with
`spin[s]` negated and, with `rate = -2 * beta * v * spin[neighbour] * J`: if
`rate >= 0` the bond is rejected without a draw; otherwise one draw `u` is taken and
the bond is rejected if `u < exp(rate)` (only the generator advances); otherwise the
neighbour is appended to the cluster, marked and pushed on the stack. -/
theorem wolffLoop_bond_rule (expLt : ℚ → ℚ → Bool) (fuel : Nat) (f : QfeIsing) (s : Nat)
    (stack : List Nat) (n : Nat) (st : QfeIsing × List Nat)
    (hn : n < (f.lattice.sites.getD s default).nn)
    (hst : st = (List.range n).foldl
      (wolffTry expLt (f.lattice.sites.getD s default) (f.spin.getD s 0))
      ({ f with spin := f.spin.set s (-f.spin.getD s 0) }, stack))
    (hc : st.1.is_clustered.getD ((f.lattice.sites.getD s default).neighbors.getD n 0) false =
      false) :
    wolffLoop expLt (fuel + 1) f (s :: stack) =
        wolffLoop expLt fuel
          ((List.range' (n + 1) ((f.lattice.sites.getD s default).nn - (n + 1))).foldl
            (wolffTry expLt (f.lattice.sites.getD s default) (f.spin.getD s 0))
            ((List.range (n + 1)).foldl
              (wolffTry expLt (f.lattice.sites.getD s default) (f.spin.getD s 0))
              ({ f with spin := f.spin.set s (-f.spin.getD s 0) }, stack))).1
          ((List.range' (n + 1) ((f.lattice.sites.getD s default).nn - (n + 1))).foldl
            (wolffTry expLt (f.lattice.sites.getD s default) (f.spin.getD s 0))
            ((List.range (n + 1)).foldl
              (wolffTry expLt (f.lattice.sites.getD s default) (f.spin.getD s 0))
              ({ f with spin := f.spin.set s (-f.spin.getD s 0) }, stack))).2 ∧
      (st.1.spin = f.spin.set s (-f.spin.getD s 0) ∧ st.1.beta = f.beta ∧
        st.1.lattice.links = f.lattice.links) ∧
      (-2 * f.beta * f.spin.getD s 0 *
            (f.spin.set s (-f.spin.getD s 0)).getD
              ((f.lattice.sites.getD s default).neighbors.getD n 0) 0 *
            (f.lattice.links.getD ((f.lattice.sites.getD s default).links.getD n 0) default).wt ≥
          0 →
        (List.range (n + 1)).foldl
            (wolffTry expLt (f.lattice.sites.getD s default) (f.spin.getD s 0))
            ({ f with spin := f.spin.set s (-f.spin.getD s 0) }, stack) = st) ∧
      (-2 * f.beta * f.spin.getD s 0 *
            (f.spin.set s (-f.spin.getD s 0)).getD
              ((f.lattice.sites.getD s default).neighbors.getD n 0) 0 *
            (f.lattice.links.getD ((f.lattice.sites.getD s default).links.getD n 0) default).wt <
          0 →
        expLt st.1.lattice.rng.RandReal.1
            (-2 * f.beta * f.spin.getD s 0 *
              (f.spin.set s (-f.spin.getD s 0)).getD
                ((f.lattice.sites.getD s default).neighbors.getD n 0) 0 *
              (f.lattice.links.getD ((f.lattice.sites.getD s default).links.getD n 0)
                default).wt) = true →
        (List.range (n + 1)).foldl
            (wolffTry expLt (f.lattice.sites.getD s default) (f.spin.getD s 0))
            ({ f with spin := f.spin.set s (-f.spin.getD s 0) }, stack) =
          (st.1.withRng st.1.lattice.rng.RandReal.2, st.2)) ∧
      (-2 * f.beta * f.spin.getD s 0 *
            (f.spin.set s (-f.spin.getD s 0)).getD
              ((f.lattice.sites.getD s default).neighbors.getD n 0) 0 *
            (f.lattice.links.getD ((f.lattice.sites.getD s default).links.getD n 0) default).wt <
          0 →
        expLt st.1.lattice.rng.RandReal.1
            (-2 * f.beta * f.spin.getD s 0 *
              (f.spin.set s (-f.spin.getD s 0)).getD
                ((f.lattice.sites.getD s default).neighbors.getD n 0) 0 *
              (f.lattice.links.getD ((f.lattice.sites.getD s default).links.getD n 0)
                default).wt) = false →
        (List.range (n + 1)).foldl
            (wolffTry expLt (f.lattice.sites.getD s default) (f.spin.getD s 0))
            ({ f with spin := f.spin.set s (-f.spin.getD s 0) }, stack) =
          ({ st.1.withRng st.1.lattice.rng.RandReal.2 with
              wolff_cluster :=
                st.1.wolff_cluster ++ [(f.lattice.sites.getD s default).neighbors.getD n 0]
              is_clustered :=
                st.1.is_clustered.set ((f.lattice.sites.getD s default).neighbors.getD n 0)
                  true },
            (f.lattice.sites.getD s default).neighbors.getD n 0 :: st.2)) := by
  have hfix := wolffNeighbors_fixed expLt (f.lattice.sites.getD s default) (f.spin.getD s 0)
    (List.range n) ({ f with spin := f.spin.set s (-f.spin.getD s 0) }, stack)
  rw [← hst] at hfix
  obtain ⟨e1, e2, e3⟩ := hfix
  simp only at e1 e2 e3
  have hnext : (List.range (n + 1)).foldl
      (wolffTry expLt (f.lattice.sites.getD s default) (f.spin.getD s 0))
      ({ f with spin := f.spin.set s (-f.spin.getD s 0) }, stack) =
      wolffTry expLt (f.lattice.sites.getD s default) (f.spin.getD s 0) st n := by
    rw [List.range_succ, List.foldl_append, ← hst]
    rfl
  obtain ⟨r1, r2, r3⟩ := wolffTry_step_rule expLt (f.lattice.sites.getD s default)
    (f.spin.getD s 0) st n hc
  rw [e1, e2, e3] at r1 r2 r3
  have hsplit : List.range (f.lattice.sites.getD s default).nn =
      List.range (n + 1) ++
        List.range' (n + 1) ((f.lattice.sites.getD s default).nn - (n + 1)) := by
    have h := List.range'_append 0 (n + 1) ((f.lattice.sites.getD s default).nn - (n + 1)) 1
    rw [Nat.zero_add, Nat.one_mul, Nat.sub_add_cancel hn] at h
    rw [List.range_eq_range', List.range_eq_range', h]
  have hloop : wolffLoop expLt (fuel + 1) f (s :: stack) =
      wolffLoop expLt fuel
        ((List.range (f.lattice.sites.getD s default).nn).foldl
          (wolffTry expLt (f.lattice.sites.getD s default) (f.spin.getD s 0))
          ({ f with spin := f.spin.set s (-f.spin.getD s 0) }, stack)).1
        ((List.range (f.lattice.sites.getD s default).nn).foldl
          (wolffTry expLt (f.lattice.sites.getD s default) (f.spin.getD s 0))
          ({ f with spin := f.spin.set s (-f.spin.getD s 0) }, stack)).2 := rfl
  refine ⟨?_, ⟨e1, e2, e3⟩, ?_, ?_, ?_⟩
  · rw [hloop, hsplit, List.foldl_append]
  · rw [hnext]; exact r1
  · rw [hnext]; exact r2
  · rw [hnext]; exact r3

/-- Witness of C12 (as amended): the first iteration of the `while` loop on the
4-cycle pops the seed 2 with `v = +1`; its adjacency entry 0 is site 1 with spin `+1`,
the rate is `-2`, the draw is not below `exp(rate)`, and site 1 is appended and
pushed. -/
theorem wolffLoop_bond_rule_witness :
    (wolffSeed (ising4 1) = 2 ∧
        0 < ((wolffStart (ising4 1)).lattice.sites.getD 2 default).nn ∧
        (wolffStart (ising4 1)).is_clustered.getD
          (((wolffStart (ising4 1)).lattice.sites.getD 2 default).neighbors.getD 0 0) false =
            false) ∧
      (List.range (0 + 1)).foldl
          (wolffTry (fun _ _ => false) ((wolffStart (ising4 1)).lattice.sites.getD 2 default)
            ((wolffStart (ising4 1)).spin.getD 2 0))
          ({ wolffStart (ising4 1) with
              spin := (wolffStart (ising4 1)).spin.set 2
                (-(wolffStart (ising4 1)).spin.getD 2 0) }, []) =
        ({ ({ wolffStart (ising4 1) with
                spin := (wolffStart (ising4 1)).spin.set 2
                  (-(wolffStart (ising4 1)).spin.getD 2 0) } : QfeIsing).withRng
              (wolffStart (ising4 1)).lattice.rng.RandReal.2 with
            wolff_cluster := (wolffStart (ising4 1)).wolff_cluster ++
              [((wolffStart (ising4 1)).lattice.sites.getD 2 default).neighbors.getD 0 0]
            is_clustered := (wolffStart (ising4 1)).is_clustered.set
              (((wolffStart (ising4 1)).lattice.sites.getD 2 default).neighbors.getD 0 0)
              true },
          ((wolffStart (ising4 1)).lattice.sites.getD 2 default).neighbors.getD 0 0 :: []) :=
  ⟨⟨by decide, by decide, by decide⟩,
    (wolffLoop_bond_rule (fun _ _ => false) 4 (wolffStart (ising4 1)) 2 [] 0
      ({ wolffStart (ising4 1) with
          spin := (wolffStart (ising4 1)).spin.set 2
            (-(wolffStart (ising4 1)).spin.getD 2 0) }, [])
      (by decide) rfl (by decide)).2.2.2.2 (by decide!) rfl⟩

/-- C12 (counterexample): for every `expLt` that decides `u < exp(x)`, at the popped
site 0 of the 4-cycle with `v = 1`, neighbour 1 with spin `+1`, `beta = J = 1`, the
rate is `-2` and the draw is `u = 0`.  The draw does not exceed `1 - exp(-2)`, so the
rule as claimed adds the neighbour, but `u < exp(-2)` and the code rejects the bond:
the stack and the cluster are unchanged. -/
theorem wolffTry_bond_rule_counterexample :
    ∃ expLt : ℚ → ℚ → Bool, IsExpLt expLt ∧
      ising4Popped.is_clustered.getD 1 false = false ∧
      (-2 * ising4Popped.beta * 1 * ising4Popped.spin.getD 1 0 *
        (ising4Popped.lattice.links.getD 0 default).wt = -2) ∧
      ising4Popped.lattice.rng.RandReal.1 = 0 ∧
      ¬ ((1 : ℝ) - Real.exp ((-2 : ℚ) : ℝ) < ((0 : ℚ) : ℝ)) ∧
      (wolffTry expLt (ising4Popped.lattice.sites.getD 0 default) 1 (ising4Popped, []) 0).2 = [] ∧
      (wolffTry expLt (ising4Popped.lattice.sites.getD 0 default) 1
        (ising4Popped, []) 0).1.wolff_cluster = [0] := by
  classical
  refine ⟨fun u x => decide ((u : ℝ) < Real.exp (x : ℝ)), fun u x => by simp, by decide,
    by decide!, by decide!, ?_, ?_⟩
  · have h1 : Real.exp ((-2 : ℚ) : ℝ) < 1 := by
      rw [Real.exp_lt_one_iff]
      norm_num
    push_cast
    push_cast at h1
    linarith
  · have e1 : (ising4Popped.lattice.sites.getD 0 default).neighbors.getD 0 0 = 1 := by decide
    have e2 : (ising4Popped.lattice.sites.getD 0 default).links.getD 0 0 = 0 := by decide
    have hc : ising4Popped.is_clustered.getD 1 false = false := by decide
    have hrate : (-2 * ising4Popped.beta * 1 * ising4Popped.spin.getD 1 0 *
        (ising4Popped.lattice.links.getD 0 default).wt : ℚ) = -2 := by decide!
    have hu : ising4Popped.lattice.rng.RandReal.1 = 0 := by decide!
    have hlt : ¬ ((-2 : ℚ) ≥ 0) := by norm_num
    have hexp : decide (((0 : ℚ) : ℝ) < Real.exp ((-2 : ℚ) : ℝ)) = true := by
      simp only [decide_eq_true_eq, Rat.cast_zero]
      exact Real.exp_pos _
    unfold wolffTry
    simp only [e1, e2, hc, Bool.false_eq_true, if_false, hrate, hlt, hu, hexp, if_true]
    exact ⟨trivial, rfl⟩

/-! ## The local energy change of `Metropolis` -/

theorem foldl_add_eq_sum {α : Type} (g : α → ℚ) :
    ∀ (l : List α) (init : ℚ), l.foldl (fun acc x => acc + g x) init = init + (l.map g).sum := by
  intro l
  induction l with
  | nil => intro init; simp
  | cons x l ih => intro init; rw [List.foldl_cons, ih, List.map_cons, List.sum_cons]; ring

theorem foldl_sub_eq_sum {α : Type} (g : α → ℚ) :
    ∀ (l : List α) (init : ℚ), l.foldl (fun acc x => acc - g x) init = init - (l.map g).sum := by
  intro l
  induction l with
  | nil => intro init; simp
  | cons x l ih => intro init; rw [List.foldl_cons, ih, List.map_cons, List.sum_cons]; ring

theorem sum_filterMap {α β : Type} (φ : α → Option β) (h : β → ℚ) :
    ∀ l : List α,
      (l.map fun x => (φ x).elim 0 h).sum = ((l.filterMap φ).map h).sum := by
  intro l
  induction l with
  | nil => rfl
  | cons x l ih =>
    rw [List.map_cons, List.sum_cons, ih, List.filterMap_cons]
    cases φ x with
    | none => simp
    | some p => simp

theorem sum_map_sub (g1 g2 : Nat → ℚ) :
    ∀ l : List Nat, (l.map g1).sum - (l.map g2).sum = (l.map fun x => g1 x - g2 x).sum := by
  intro l
  induction l with
  | nil => simp
  | cons x l ih => simp only [List.map_cons, List.sum_cons, ← ih]; ring

/-- The value of `delta_S` as the sum over the adjacency entries of the site. -/
theorem delta_S_eq_sum (f : QfeIsing) (i : Nat) :
    delta_S f i =
      2 * f.spin.getD i 0 * f.beta *
        ((List.range (f.lattice.sites.getD i default).nn).map fun n =>
          (f.lattice.links.getD ((f.lattice.sites.getD i default).links.getD n 0) default).wt *
            f.spin.getD ((f.lattice.sites.getD i default).neighbors.getD n 0) 0).sum := by
  unfold delta_S
  rw [foldl_add_eq_sum, zero_add, ← List.sum_map_mul_right, ← List.sum_map_mul_left]
  congr 1
  apply List.map_congr_left
  intro n _
  ring

/-- The change of one link term of the action when the spin of site `i` is negated. -/
theorem link_term_flip (f : QfeIsing) (i : Nat) (hi : i < f.spin.length) (l : Nat)
    (hl : (f.lattice.links.getD l default).sites.1 ≠ (f.lattice.links.getD l default).sites.2) :
    f.beta * f.spin.getD (f.lattice.links.getD l default).sites.1 0 *
          f.spin.getD (f.lattice.links.getD l default).sites.2 0 *
          (f.lattice.links.getD l default).wt -
        f.beta *
              (f.spin.set i (-f.spin.getD i 0)).getD (f.lattice.links.getD l default).sites.1 0 *
            (f.spin.set i (-f.spin.getD i 0)).getD (f.lattice.links.getD l default).sites.2 0 *
          (f.lattice.links.getD l default).wt =
      (incident f.lattice i l).elim 0 (fun p =>
        f.beta * f.spin.getD p.2 0 * (f.lattice.links.getD p.1 default).wt *
          (2 * f.spin.getD i 0)) := by
  unfold incident
  simp only [getD_set_eq]
  by_cases ha : (f.lattice.links.getD l default).sites.1 = i
  · have hb : ¬ (f.lattice.links.getD l default).sites.2 = i := fun e => hl (ha.trans e.symm)
    have hb2 : ¬ i = (f.lattice.links.getD l default).sites.2 := fun e => hb e.symm
    simp only [ha, if_true, hi, and_self, hb2, false_and, if_false, Option.elim]
    ring
  · have ha2 : ¬ i = (f.lattice.links.getD l default).sites.1 := fun e => ha e.symm
    by_cases hb : (f.lattice.links.getD l default).sites.2 = i
    · simp only [ha, if_false, hb, if_true, ha2, false_and, hi, and_self, Option.elim]
      ring
    · have hb2 : ¬ i = (f.lattice.links.getD l default).sites.2 := fun e => hb e.symm
      simp only [ha, if_false, hb, ha2, hb2, false_and, Option.elim]
      ring

/-- C13: on a lattice of nonzero volume with no self-loop links, for a site `i` whose
adjacency list lists exactly its incident links with the opposite end site as
neighbour, and every spin vector, the `delta_S` of `Metropolis` at `i` is
`2 * spin[i] * beta * sum_n J_in * spin[n]` and equals
`lattice.vol * (Action() after negating spin[i] alone - Action() before)`, in exact
arithmetic. -/
theorem delta_S_eq_action_change (f : QfeIsing) (i : Nat) (hself : f.lattice.NoSelfLoops)
    (hadj : f.lattice.AdjExact i) (hi : i < f.spin.length) (hvol : f.lattice.vol ≠ 0) :
    delta_S f i =
        2 * f.spin.getD i 0 * f.beta *
          ((List.range (f.lattice.sites.getD i default).nn).map fun n =>
            (f.lattice.links.getD ((f.lattice.sites.getD i default).links.getD n 0) default).wt *
              f.spin.getD ((f.lattice.sites.getD i default).neighbors.getD n 0) 0).sum ∧
      delta_S f i =
        f.lattice.vol *
          (Action { f with spin := f.spin.set i (-f.spin.getD i 0) } - Action f) := by
  refine ⟨delta_S_eq_sum f i, ?_⟩
  have hA : f.lattice.vol *
      (Action { f with spin := f.spin.set i (-f.spin.getD i 0) } - Action f) =
      ((List.range f.lattice.n_links).map fun l =>
        (incident f.lattice i l).elim 0 (fun p =>
          f.beta * f.spin.getD p.2 0 * (f.lattice.links.getD p.1 default).wt *
            (2 * f.spin.getD i 0))).sum := by
    unfold Action
    simp only [foldl_sub_eq_sum, zero_sub]
    rw [← sub_div, mul_div_cancel₀ _ hvol, neg_sub_neg, sum_map_sub]
    congr 1
    apply List.map_congr_left
    intro l hl
    exact link_term_flip f i hi l (hself l (List.mem_range.mp hl))
  rw [hA, sum_filterMap, ← (hadj.map _).sum_eq]
  unfold delta_S
  rw [foldl_add_eq_sum, zero_add, ← List.sum_map_mul_right, List.map_map]
  rfl

/-- Witness of C13: site 0 of the 4-cycle. -/
theorem delta_S_eq_action_change_witness :
    ((ising4 1).lattice.NoSelfLoops ∧ (ising4 1).lattice.AdjExact 0 ∧
      0 < (ising4 1).spin.length ∧ (ising4 1).lattice.vol ≠ 0) ∧
    delta_S (ising4 1) 0 =
      (ising4 1).lattice.vol *
        (Action { ising4 1 with spin := (ising4 1).spin.set 0 (-(ising4 1).spin.getD 0 0) } -
          Action (ising4 1)) :=
  ⟨⟨by decide, by decide, by decide, by decide!⟩,
    (delta_S_eq_action_change (ising4 1) 0 (by decide) (by decide) (by decide)
      (by decide!)).2⟩

/-! ## The accept test and the acceptance fraction of `Metropolis` -/

/-- C14: the trial of `Metropolis` at a site `s` is accepted (the spin is negated and
the accept counter incremented) without a draw if `delta_S <= 0`; otherwise one draw
`u` is taken and the trial is accepted exactly when `u < exp(-delta_S)`; a rejected
trial leaves the spin vector and the counter unchanged. -/
theorem metropolisSite_accept_rule (expLt : ℚ → ℚ → Bool) (f : QfeIsing) (accept s : Nat) :
    (delta_S f s ≤ 0 →
      metropolisSite expLt (f, accept) s =
        ({ f with spin := f.spin.set s (-f.spin.getD s 0) }, accept + 1)) ∧
    (0 < delta_S f s → expLt f.lattice.rng.RandReal.1 (-delta_S f s) = true →
      metropolisSite expLt (f, accept) s =
        ({ f.withRng f.lattice.rng.RandReal.2 with spin := f.spin.set s (-f.spin.getD s 0) },
          accept + 1)) ∧
    (0 < delta_S f s → expLt f.lattice.rng.RandReal.1 (-delta_S f s) = false →
      metropolisSite expLt (f, accept) s = (f.withRng f.lattice.rng.RandReal.2, accept)) ∧
    (s < f.spin.length →
      (f.spin.set s (-f.spin.getD s 0)).getD s 0 = -f.spin.getD s 0 ∧
      ∀ x, x ≠ s → (f.spin.set s (-f.spin.getD s 0)).getD x 0 = f.spin.getD x 0) := by
  refine ⟨fun h => ?_, fun h hu => ?_, fun h hu => ?_, fun hs => ⟨?_, fun x hx => ?_⟩⟩
  · unfold metropolisSite
    simp only [h, if_true, mul_neg, mul_one]
  · unfold metropolisSite
    simp only [not_le.mpr h, if_false, hu, if_true, mul_neg, mul_one]
  · unfold metropolisSite
    simp only [not_le.mpr h, if_false, hu, Bool.false_eq_true]
  · rw [getD_set_eq, if_pos ⟨rfl, hs⟩]
  · rw [getD_set_eq, if_neg (fun e => hx e.1.symm)]

theorem metropolisSite_fst (expLt : ℚ → ℚ → Bool) (f : QfeIsing) (a s : Nat) :
    (metropolisSite expLt (f, a) s).1 = (metropolisSite expLt (f, 0) s).1 ∧
      (metropolisSite expLt (f, a) s).2 =
        a + if metropolisAccepts expLt f s = true then 1 else 0 := by
  unfold metropolisSite metropolisAccepts
  simp only
  by_cases h : delta_S f s ≤ 0
  · simp only [h, if_true, decide_True, Bool.true_or, and_self]
  · simp only [h, if_false, decide_False, Bool.false_or]
    split_ifs <;> exact ⟨rfl, rfl⟩

theorem metropolisLoop_count (expLt : ℚ → ℚ → Bool) :
    ∀ (ss : List Nat) (f : QfeIsing) (a : Nat),
      (ss.foldl (metropolisSite expLt) (f, a)).2 =
        a + (metropolisDecisions expLt f ss).count true := by
  intro ss
  induction ss with
  | nil => intro f a; rfl
  | cons s ss ih =>
    intro f a
    obtain ⟨h1, h2⟩ := metropolisSite_fst expLt f a s
    have e : metropolisSite expLt (f, a) s =
        ((metropolisSite expLt (f, 0) s).1, (metropolisSite expLt (f, a) s).2) := by
      rw [← h1]
    rw [List.foldl_cons, e, ih, h2, metropolisDecisions, List.count_cons]
    cases metropolisAccepts expLt f s with
    | true => simp only [if_true, beq_self_eq_true]; omega
    | false => simp

theorem metropolisDecisions_length (expLt : ℚ → ℚ → Bool) :
    ∀ (ss : List Nat) (f : QfeIsing), (metropolisDecisions expLt f ss).length = ss.length := by
  intro ss
  induction ss with
  | nil => intro f; rfl
  | cons s ss ih => intro f; rw [metropolisDecisions, List.length_cons, ih, List.length_cons]

/-- C15: for a lattice with `n_sites >= 1`, every spin vector and draw stream, the
value returned by `Metropolis` is the number of sites whose trial was accepted divided
by `n_sites`, and lies in the closed interval `[0, 1]`. -/
theorem Metropolis_fraction (expLt : ℚ → ℚ → Bool) (f : QfeIsing)
    (hn : 1 ≤ f.lattice.n_sites) :
    (Metropolis expLt f).1 =
        (((metropolisDecisions expLt f (List.range f.lattice.n_sites)).count true : Nat) : ℚ) /
          (f.lattice.n_sites : ℚ) ∧
      0 ≤ (Metropolis expLt f).1 ∧ (Metropolis expLt f).1 ≤ 1 := by
  have hcount := metropolisLoop_count expLt (List.range f.lattice.n_sites) f 0
  rw [Nat.zero_add] at hcount
  have hle : (metropolisDecisions expLt f (List.range f.lattice.n_sites)).count true ≤
      f.lattice.n_sites := by
    have := List.count_le_length true (metropolisDecisions expLt f (List.range f.lattice.n_sites))
    rw [metropolisDecisions_length, List.length_range] at this
    exact this
  have hpos : (0 : ℚ) < (f.lattice.n_sites : ℚ) := by exact_mod_cast hn
  have hret : (Metropolis expLt f).1 =
      (((metropolisDecisions expLt f (List.range f.lattice.n_sites)).count true : Nat) : ℚ) /
        (f.lattice.n_sites : ℚ) := by
    unfold Metropolis
    simp only [hcount]
  refine ⟨hret, ?_, ?_⟩
  · rw [hret]
    exact div_nonneg (Nat.cast_nonneg _) (le_of_lt hpos)
  · rw [hret, div_le_one hpos]
    exact_mod_cast hle

/-- Witness of C15 on the 4-cycle. -/
theorem Metropolis_fraction_witness :
    1 ≤ (ising4 1).lattice.n_sites ∧
    ((Metropolis (fun _ _ => false) (ising4 1)).1 =
        (((metropolisDecisions (fun _ _ => false) (ising4 1)
          (List.range (ising4 1).lattice.n_sites)).count true : Nat) : ℚ) /
          ((ising4 1).lattice.n_sites : ℚ) ∧
      0 ≤ (Metropolis (fun _ _ => false) (ising4 1)).1 ∧
      (Metropolis (fun _ _ => false) (ising4 1)).1 ≤ 1) :=
  ⟨by decide, Metropolis_fraction (fun _ _ => false) (ising4 1) (by decide)⟩

/-- Witness of C14: the trial at site 0 of the 4-cycle has `delta_S = 0`. -/
theorem metropolisSite_accept_rule_witness :
    delta_S (ising4 1) 0 ≤ 0 ∧
    metropolisSite (fun _ _ => false) (ising4 1, 0) 0 =
      ({ ising4 1 with spin := (ising4 1).spin.set 0 (-(ising4 1).spin.getD 0 0) }, 0 + 1) :=
  ⟨by decide!, (metropolisSite_accept_rule (fun _ _ => false) (ising4 1) 0 0).1 (by decide!)⟩

/-! ## Serialization round trip -/

theorem nextMask_two_pow (k : Nat) : nextMask (2 ^ (k % 8)) = 2 ^ ((k + 1) % 8) := by
  have h8 : k % 8 < 8 := Nat.mod_lt _ (by decide)
  have hk : (k + 1) % 8 = if k % 8 = 7 then 0 else k % 8 + 1 := by
    split_ifs <;> omega
  rw [hk]
  generalize k % 8 = r at h8
  unfold nextMask
  interval_cases r <;> decide

/-- Two positions name the same bit exactly when they are equal. -/
theorem bit_pos_eq {j k : Nat} : (j / 8 = k / 8 ∧ k % 8 = j % 8) ↔ j = k := by
  constructor
  · rintro ⟨h1, h2⟩; omega
  · rintro rfl; exact ⟨rfl, rfl⟩

/-- The state of the loop of `WriteField` after `k` iterations: the mask is the bit
`k % 8`, the buffer keeps its size, and bit `j % 8` of byte `j / 8` is set exactly for
the positions `j < k` with `spin[j] == -1`. -/
theorem writeLoop_inv (spin : List ℚ) (B : Nat) :
    ∀ k, k ≤ 8 * B →
      ((List.range k).foldl (writeStep spin) (List.replicate B 0, 1)).2 = 2 ^ (k % 8) ∧
      ((List.range k).foldl (writeStep spin) (List.replicate B 0, 1)).1.length = B ∧
      ∀ j, (((List.range k).foldl (writeStep spin) (List.replicate B 0, 1)).1.getD (j / 8)
          0).testBit (j % 8) = decide (j < k ∧ spin.getD j 0 = -1) := by
  intro k
  induction k with
  | zero =>
    intro _
    refine ⟨rfl, by simp, fun j => ?_⟩
    simp only [List.range_zero, List.foldl_nil, Nat.not_lt_zero, false_and, decide_False]
    rw [List.getD_eq_getElem?_getD, List.getElem?_replicate]
    split_ifs <;> simp
  | succ k ih =>
    intro hk
    obtain ⟨h1, h2, h3⟩ := ih (by omega)
    rw [List.range_succ, List.foldl_append]
    simp only [List.foldl_cons, List.foldl_nil]
    generalize (List.range k).foldl (writeStep spin) (List.replicate B 0, 1) = st at h1 h2 h3
    obtain ⟨buf, mask⟩ := st
    simp only at h1 h2 h3
    subst h1
    unfold writeStep
    simp only
    refine ⟨nextMask_two_pow k, ?_, fun j => ?_⟩
    · split_ifs
      · rw [List.length_set]; exact h2
      · exact h2
    · have hkB : k / 8 < buf.length := by rw [h2]; omega
      have hj8 : j % 8 < 8 := Nat.mod_lt _ (by decide)
      by_cases hs : spin.getD k 0 = -1
      · rw [if_pos hs, getD_set_eq]
        by_cases hjk : k / 8 = j / 8
        · rw [if_pos ⟨hjk, hkB⟩]
          have e256 : 256 = 2 ^ 8 := by norm_num
          rw [e256, Nat.testBit_mod_two_pow, Nat.testBit_or, Nat.testBit_two_pow, hjk, h3 j]
          by_cases hjeq : j = k
          · subst hjeq
            simp only [hj8, decide_True, Bool.true_and, Bool.or_true, Nat.lt_succ_self, hs,
              and_self]
          · have hne : ¬ k % 8 = j % 8 := fun e => hjeq (bit_pos_eq.mp ⟨hjk.symm, e⟩)
            have hlt : (j < k + 1 ∧ spin.getD j 0 = -1) ↔ (j < k ∧ spin.getD j 0 = -1) := by
              constructor
              · rintro ⟨a, b⟩; exact ⟨by omega, b⟩
              · rintro ⟨a, b⟩; exact ⟨by omega, b⟩
            simp only [hj8, decide_True, Bool.true_and, hne, decide_False, Bool.or_false, hlt]
        · rw [if_neg (fun h => hjk h.1), h3 j]
          have hne : j ≠ k := fun e => hjk (by rw [e])
          have hlt : (j < k + 1 ∧ spin.getD j 0 = -1) ↔ (j < k ∧ spin.getD j 0 = -1) := by
            constructor
            · rintro ⟨a, b⟩; exact ⟨by omega, b⟩
            · rintro ⟨a, b⟩; exact ⟨by omega, b⟩
          simp only [hlt]
      · rw [if_neg hs, h3 j]
        have hlt : (j < k + 1 ∧ spin.getD j 0 = -1) ↔ (j < k ∧ spin.getD j 0 = -1) := by
          constructor
          · rintro ⟨a, b⟩
            refine ⟨?_, b⟩
            rcases Nat.lt_succ_iff_lt_or_eq.mp a with a | a
            · exact a
            · subst a; exact absurd b hs
          · rintro ⟨a, b⟩; exact ⟨by omega, b⟩
        simp only [hlt]

theorem and_two_pow_ne_zero (b i : Nat) : b &&& 2 ^ i ≠ 0 ↔ b.testBit i = true := by
  rw [Nat.and_two_pow]
  cases b.testBit i with
  | true => simp
  | false => simp

/-- The state of the loop of `ReadField` after `k` iterations on the spins `init`. -/
theorem readLoop_inv (buf : List Nat) (init : List ℚ) :
    ∀ k,
      ((List.range k).foldl (readStep buf) (init, 1)).2 = 2 ^ (k % 8) ∧
      ((List.range k).foldl (readStep buf) (init, 1)).1.length = init.length ∧
      ∀ j, ((List.range k).foldl (readStep buf) (init, 1)).1.getD j 0 =
        if j < k ∧ j < init.length ∧ (buf.getD (j / 8) 0).testBit (j % 8) = true then -1
        else init.getD j 0 := by
  intro k
  induction k with
  | zero =>
    refine ⟨rfl, rfl, fun j => ?_⟩
    simp only [List.range_zero, List.foldl_nil, Nat.not_lt_zero, false_and, if_false]
  | succ k ih =>
    obtain ⟨h1, h2, h3⟩ := ih
    rw [List.range_succ, List.foldl_append]
    simp only [List.foldl_cons, List.foldl_nil]
    generalize (List.range k).foldl (readStep buf) (init, 1) = st at h1 h2 h3
    obtain ⟨spin, mask⟩ := st
    simp only at h1 h2 h3
    subst h1
    unfold readStep
    simp only
    refine ⟨nextMask_two_pow k, ?_, fun j => ?_⟩
    · split_ifs
      · rw [List.length_set]; exact h2
      · exact h2
    · by_cases hb : buf.getD (k / 8) 0 &&& 2 ^ (k % 8) ≠ 0
      · rw [if_pos hb, getD_set_eq, h2]
        have hbit := (and_two_pow_ne_zero _ _).mp hb
        by_cases hjk : k = j
        · subst hjk
          by_cases hlen : k < init.length
          · simp only [hlen, and_self, if_true, Nat.lt_succ_self, hbit]
          · simp only [hlen, and_false, if_false, false_and]
            rw [h3 k]
            simp only [hlen, false_and, and_false, if_false]
        · simp only [hjk, false_and, if_false]
          rw [h3 j]
          have hlt : j < k + 1 ↔ j < k := by omega
          simp only [hlt]
      · rw [if_neg hb, h3 j]
        have hbit : ¬ (buf.getD (k / 8) 0).testBit (k % 8) = true := fun h =>
          hb ((and_two_pow_ne_zero _ _).mpr h)
        by_cases hjk : j = k
        · subst hjk
          simp only [Nat.lt_irrefl, false_and, if_false, hbit, and_false, Bool.false_eq_true]
        · have hlt : j < k + 1 ↔ j < k := by omega
          simp only [hlt]

theorem map_getD_range (l : List Nat) (B : Nat) (h : l.length = B) :
    ((List.range B).map fun j => l.getD j 0) = l := by
  apply List.ext_getElem
  · simp [h]
  · intro i h1 h2
    simp only [List.getElem_map, List.getElem_range]
    exact List.getD_eq_getElem _ _ h2

theorem list_ext_getD {l1 l2 : List ℚ} (hlen : l1.length = l2.length)
    (h : ∀ j, j < l1.length → l1.getD j 0 = l2.getD j 0) : l1 = l2 := by
  apply List.ext_getElem hlen
  intro i h1 h2
  have := h i h1
  rwa [List.getD_eq_getElem _ _ h1, List.getD_eq_getElem _ _ h2] at this

/-- The bits of the buffer produced by `WriteField`. -/
theorem WriteField_bits (f : QfeIsing) :
    (WriteField f).length = (f.spin.length + 7) / 8 ∧
      ∀ j, ((WriteField f).getD (j / 8) 0).testBit (j % 8) =
        decide (j < f.spin.length ∧ f.spin.getD j 0 = -1) := by
  obtain ⟨-, h2, h3⟩ := writeLoop_inv f.spin ((f.spin.length + 7) / 8) f.spin.length (by omega)
  exact ⟨h2, h3⟩

/-- C16: bit-packed serialization round-trips: for every spin vector whose entries
are all `+1` or `-1`, the bytes produced by `WriteField`, decoded by `ReadField` into
a field of the same length whose `n_sites` equals that length, yield exactly the
original spin vector. -/
theorem ReadField_WriteField (f g : QfeIsing) (hpm : ∀ x ∈ f.spin, x = 1 ∨ x = -1)
    (hlen : g.spin.length = f.spin.length) (hn : g.lattice.n_sites = g.spin.length) :
    (ReadField g (WriteField f)).spin = f.spin := by
  obtain ⟨hW1, hW2⟩ := WriteField_bits f
  have hbuf : ((List.range ((g.spin.length + 7) / 8)).map fun j => (WriteField f).getD j 0) =
      WriteField f := map_getD_range _ _ (by rw [hW1, hlen])
  have hcold : (ColdStart g).spin = List.replicate f.spin.length 1 := by
    unfold ColdStart
    simp only [hn]
    rw [List.drop_eq_nil_of_le (le_refl _), List.append_nil, hlen]
  unfold ReadField
  simp only [hbuf, hcold]
  obtain ⟨-, h2, h3⟩ := readLoop_inv (WriteField f) (List.replicate f.spin.length 1) g.spin.length
  simp only [List.length_replicate] at h2 h3
  apply list_ext_getD h2
  intro j hj
  rw [h2] at hj
  rw [h3 j, hW2 j]
  have hinit : (List.replicate f.spin.length (1 : ℚ)).getD j 0 = 1 := by
    rw [List.getD_eq_getElem _ _ (by simpa using hj)]
    simp
  have hmem : f.spin.getD j 0 ∈ f.spin := by
    rw [List.getD_eq_getElem _ _ hj]
    exact List.getElem_mem _
  rw [hinit]
  by_cases hs : f.spin.getD j 0 = -1
  · simp only [hlen, hj, hs, and_self, decide_True, if_true]
  · have h1 : f.spin.getD j 0 = 1 := (hpm _ hmem).resolve_right hs
    have hdec : decide (j < f.spin.length ∧ f.spin.getD j 0 = -1) = false :=
      decide_eq_false (fun h => hs h.2)
    rw [hdec, h1]
    simp only [Bool.false_eq_true, and_false, if_false]

/-- Witness of C16: ten spins, two bytes. -/
theorem ReadField_WriteField_witness :
    ((∀ x ∈ (field10 [1, -1, -1, 1, 1, 1, 1, -1, -1, 1]).spin, x = 1 ∨ x = -1) ∧
      (field10 [0, 0, 0, 0, 0, 0, 0, 0, 0, 0]).spin.length =
        (field10 [1, -1, -1, 1, 1, 1, 1, -1, -1, 1]).spin.length ∧
      (field10 [0, 0, 0, 0, 0, 0, 0, 0, 0, 0]).lattice.n_sites =
        (field10 [0, 0, 0, 0, 0, 0, 0, 0, 0, 0]).spin.length) ∧
    (ReadField (field10 [0, 0, 0, 0, 0, 0, 0, 0, 0, 0])
      (WriteField (field10 [1, -1, -1, 1, 1, 1, 1, -1, -1, 1]))).spin =
      (field10 [1, -1, -1, 1, 1, 1, 1, -1, -1, 1]).spin :=
  ⟨⟨by decide!, rfl, rfl⟩,
    ReadField_WriteField (field10 [1, -1, -1, 1, 1, 1, 1, -1, -1, 1])
      (field10 [0, 0, 0, 0, 0, 0, 0, 0, 0, 0]) (by decide!) rfl rfl⟩

/-! ## The forest invariant at every point of `SWUpdate` -/

theorem Forest_parent_le {sw : List Nat} (hF : Forest sw) (x : Nat) : sw.getD x 0 ≤ x := by
  by_cases hx : x < sw.length
  · exact hF x hx
  · rw [List.getD_eq_default _ _ (Nat.le_of_not_lt hx)]
    exact Nat.zero_le _

theorem Forest_iterate_le {sw : List Nat} (hF : Forest sw) :
    ∀ (k x : Nat), (fun y => sw.getD y 0)^[k] x ≤ x := by
  intro k
  induction k with
  | zero => intro x; exact le_refl _
  | succ k ih =>
    intro x
    rw [Function.iterate_succ_apply]
    exact le_trans (ih _) (Forest_parent_le hF x)

/-- In a forest the only cycles of the parent map are the self-loops of roots. -/
theorem Forest_no_cycle {sw : List Nat} (hF : Forest sw) (x k : Nat) (hk : 0 < k)
    (h : (fun y => sw.getD y 0)^[k] x = x) : sw.getD x 0 = x := by
  obtain ⟨j, rfl⟩ : ∃ j, k = j + 1 := ⟨k - 1, by omega⟩
  rw [Function.iterate_succ_apply] at h
  have h1 := Forest_iterate_le hF j (sw.getD x 0)
  have h2 := Forest_parent_le hF x
  omega

theorem swBond_reachable (expLt : ℚ → ℚ → Bool) (fuel L : Nat) (f : QfeIsing) (l : Nat)
    (hR : Reachable L f.sw_root) (hfuel : L ≤ fuel)
    (hl : (f.lattice.links.getD l default).sites.1 < L ∧
      (f.lattice.links.getD l default).sites.2 < L) :
    ∃ f1, swBond expLt fuel f l = some f1 ∧ Reachable L f1.sw_root ∧ SameField f f1 := by
  obtain ⟨hF, hlen⟩ := Reachable_forest hR
  unfold swBond
  simp only
  split_ifs with h1 h2
  · exact ⟨f, rfl, hR, SameField_refl f⟩
  · exact ⟨_, rfl, hR, SameField_refl f⟩
  · have hfuel1 : f.sw_root.length ≤ fuel := by rw [hlen]; exact hfuel
    obtain ⟨sw1, hu, -⟩ := swUnion_spec hF (by rw [hlen]; exact hl.1) (by rw [hlen]; exact hl.2)
      hfuel1
    rw [hu]
    exact ⟨_, rfl, Reachable.union fuel _ _ _ sw1 hR hl.1 hl.2 hu, SameField_refl f⟩

theorem swBondLoop_reachable (expLt : ℚ → ℚ → Bool) (fuel L : Nat) (hfuel : L ≤ fuel) :
    ∀ (ls : List Nat) (f : QfeIsing), Reachable L f.sw_root →
      (∀ l ∈ ls, (f.lattice.links.getD l default).sites.1 < L ∧
        (f.lattice.links.getD l default).sites.2 < L) →
      ∃ f1, ls.foldlM (swBond expLt fuel) f = some f1 ∧ Reachable L f1.sw_root := by
  intro ls
  induction ls with
  | nil => intro f hR _; exact ⟨f, rfl, hR⟩
  | cons l ls ih =>
    intro f hR hl
    obtain ⟨f1, h1, h2, h3⟩ := swBond_reachable expLt fuel L f l hR hfuel
      (hl l (List.mem_cons_self _ _))
    obtain ⟨f2, h4, h5⟩ := ih f1 h2 (fun m hm => by
      rw [h3.2.2.1]; exact hl m (List.mem_cons_of_mem _ hm))
    exact ⟨f2, by rw [List.foldlM_cons, h1]; exact h4, h5⟩

theorem swSite_sw_root {fuel : Nat} {st : SWClusters} {s r : Nat} {sw1 : List Nat}
    (hfind : FindSWRoot fuel st.f.sw_root s = some (r, sw1)) :
    ∃ st1, swSite fuel st s = some st1 ∧ st1.f.sw_root = sw1 := by
  unfold swSite
  rw [hfind]
  simp only
  split_ifs <;> exact ⟨_, rfl, rfl⟩

theorem swSiteLoop_reachable (fuel L : Nat) (hfuel : L ≤ fuel) :
    ∀ (ss : List Nat) (st : SWClusters), Reachable L st.f.sw_root → (∀ s ∈ ss, s < L) →
      ∃ st1, ss.foldlM (swSite fuel) st = some st1 ∧ Reachable L st1.f.sw_root := by
  intro ss
  induction ss with
  | nil => intro st hR _; exact ⟨st, rfl, hR⟩
  | cons s ss ih =>
    intro st hR hs
    obtain ⟨hF, hlen⟩ := Reachable_forest hR
    have hsL := hs s (List.mem_cons_self _ _)
    obtain ⟨sw1, hfind, -⟩ := FindSWRoot_spec hF (by rw [hlen]; exact hsL)
      (lt_of_lt_of_le hsL hfuel)
    obtain ⟨st1, h1, h2⟩ := swSite_sw_root hfind
    obtain ⟨st2, h3, h4⟩ := ih st1
      (by rw [h2]; exact Reachable.find fuel s _ _ sw1 hR hsL hfind)
      (fun x hx => hs x (List.mem_cons_of_mem _ hx))
    exact ⟨st2, by rw [List.foldlM_cons, h1]; exact h3, h4⟩

/-- C17: the union-find array is a valid forest at every point of `SWUpdate`.  After
the reset, after any number of link iterations and after any number of site
iterations the vector `sw_root` is reachable from the identity forest by finds and
unions; and on every such vector `sw_root[i] <= i` for every `i`, a parent that is
not the node itself is strictly smaller, the parent map has no cycle other than the
self-loops of roots, and both loops of `FindSWRoot` terminate (with any fuel from
`sites.size()` on), the first at a self-parented root. -/
theorem sw_root_always_forest (expLt : ℚ → ℚ → Bool) (f : QfeIsing) (hs : f.Sized)
    (hl : f.lattice.LinksInRange) (fuel : Nat) (hfuel : f.lattice.sites.length ≤ fuel) :
    (∀ k, k ≤ f.lattice.n_links →
      ∃ fk, (List.range k).foldlM (swBond expLt fuel)
          { f with sw_root := List.range f.sw_root.length } = some fk ∧
        Reachable f.lattice.sites.length fk.sw_root) ∧
    (∀ k, k ≤ f.lattice.n_sites →
      ∃ f1 st, swBondPhase expLt fuel f = some f1 ∧
        (List.range k).foldlM (swSite fuel) ⟨f1, [], [], 0⟩ = some st ∧
        Reachable f.lattice.sites.length st.f.sw_root) ∧
    ∀ sw, Reachable f.lattice.sites.length sw →
      (∀ i, i < f.lattice.sites.length → sw.getD i 0 ≤ i) ∧
      (∀ i, i < f.lattice.sites.length → sw.getD i 0 ≠ i → sw.getD i 0 < i) ∧
      (∀ x k, 0 < k → (fun y => sw.getD y 0)^[k] x = x → sw.getD x 0 = x) ∧
      ∀ s, s < f.lattice.sites.length → ∀ fuel1, f.lattice.sites.length ≤ fuel1 →
        ∃ r sw1, findRootLoop fuel1 sw (sw.getD s 0) = some r ∧ sw.getD r 0 = r ∧
          compressLoop fuel1 sw r s = some sw1 := by
  obtain ⟨hs1, -, -, hs4⟩ := hs
  have hinit : Reachable f.lattice.sites.length
      ({ f with sw_root := List.range f.sw_root.length } : QfeIsing).sw_root := by
    simp only [hs4]
    exact Reachable.init
  have hbond : ∀ k, k ≤ f.lattice.n_links →
      ∃ fk, (List.range k).foldlM (swBond expLt fuel)
          { f with sw_root := List.range f.sw_root.length } = some fk ∧
        Reachable f.lattice.sites.length fk.sw_root := by
    intro k hk
    refine swBondLoop_reachable expLt fuel _ hfuel (List.range k) _ hinit (fun l hl1 => ?_)
    have := hl.2 l (by have := List.mem_range.mp hl1; omega)
    simp only
    omega
  refine ⟨hbond, fun k hk => ?_, fun sw hR => ?_⟩
  · obtain ⟨f1, h1, h2⟩ := hbond f.lattice.n_links (le_refl _)
    obtain ⟨st, h3, h4⟩ := swSiteLoop_reachable fuel _ hfuel (List.range k) ⟨f1, [], [], 0⟩ h2
      (fun s hs2 => by have := List.mem_range.mp hs2; omega)
    exact ⟨f1, st, h1, h3, h4⟩
  · obtain ⟨hF, hlen⟩ := Reachable_forest hR
    refine ⟨fun i hi => hF i (by rw [hlen]; exact hi), fun i hi hne =>
      lt_of_le_of_ne (hF i (by rw [hlen]; exact hi)) hne, Forest_no_cycle hF, ?_⟩
    intro s hs2 fuel1 hfuel1
    have hs3 : s < sw.length := by rw [hlen]; exact hs2
    have hsf : s < fuel1 := lt_of_lt_of_le hs2 hfuel1
    obtain ⟨sw1, h1, -⟩ := compressLoop_spec s sw hF hs3 fuel1 hsf
    exact ⟨rootOf sw s, sw1, findRootLoop_parent hF hs3 hsf, rootOf_root hF hs3, h1⟩

/-- Witness of C17 on the 4-cycle. -/
theorem sw_root_always_forest_witness :
    ((ising4 1).Sized ∧ (ising4 1).lattice.LinksInRange ∧
      (ising4 1).lattice.sites.length ≤ 4) ∧
    (∀ k, k ≤ (ising4 1).lattice.n_links →
      ∃ fk, (List.range k).foldlM (swBond (fun _ _ => false) 4)
          { ising4 1 with sw_root := List.range (ising4 1).sw_root.length } = some fk ∧
        Reachable (ising4 1).lattice.sites.length fk.sw_root) ∧
    (∀ k, k ≤ (ising4 1).lattice.n_sites →
      ∃ f1 st, swBondPhase (fun _ _ => false) 4 (ising4 1) = some f1 ∧
        (List.range k).foldlM (swSite 4) ⟨f1, [], [], 0⟩ = some st ∧
        Reachable (ising4 1).lattice.sites.length st.f.sw_root) ∧
    ∀ sw, Reachable (ising4 1).lattice.sites.length sw →
      (∀ i, i < (ising4 1).lattice.sites.length → sw.getD i 0 ≤ i) ∧
      (∀ i, i < (ising4 1).lattice.sites.length → sw.getD i 0 ≠ i → sw.getD i 0 < i) ∧
      (∀ x k, 0 < k → (fun y => sw.getD y 0)^[k] x = x → sw.getD x 0 = x) ∧
      ∀ s, s < (ising4 1).lattice.sites.length → ∀ fuel1,
        (ising4 1).lattice.sites.length ≤ fuel1 →
        ∃ r sw1, findRootLoop fuel1 sw (sw.getD s 0) = some r ∧ sw.getD r 0 = r ∧
          compressLoop fuel1 sw r s = some sw1 :=
  ⟨⟨by decide, by decide, by decide⟩,
    sw_root_always_forest (fun _ _ => false) (ising4 1) (by decide) (by decide) 4 (by decide)⟩

/-! ## Independence of the prior scratch state -/

theorem wolffTry_withSwRoot (expLt : ℚ → ℚ → Bool) (site : QfeSite) (value : ℚ) (sw : List Nat)
    (st : QfeIsing × List Nat) (n : Nat) :
    wolffTry expLt site value (st.1.withSwRoot sw, st.2) n =
      ((wolffTry expLt site value st n).1.withSwRoot sw, (wolffTry expLt site value st n).2) := by
  unfold wolffTry
  simp only [QfeIsing.withSwRoot]
  split_ifs <;> rfl

theorem wolffNeighbors_withSwRoot (expLt : ℚ → ℚ → Bool) (site : QfeSite) (value : ℚ)
    (sw : List Nat) :
    ∀ (ns : List Nat) (st : QfeIsing × List Nat),
      ns.foldl (wolffTry expLt site value) (st.1.withSwRoot sw, st.2) =
        ((ns.foldl (wolffTry expLt site value) st).1.withSwRoot sw,
          (ns.foldl (wolffTry expLt site value) st).2) := by
  intro ns
  induction ns with
  | nil => intro st; rfl
  | cons n ns ih =>
    intro st
    rw [List.foldl_cons, List.foldl_cons, wolffTry_withSwRoot, ih]

theorem wolffLoop_withSwRoot (expLt : ℚ → ℚ → Bool) (sw : List Nat) :
    ∀ (fuel : Nat) (f : QfeIsing) (stack : List Nat),
      wolffLoop expLt fuel (f.withSwRoot sw) stack =
        (wolffLoop expLt fuel f stack).map fun r => r.withSwRoot sw := by
  intro fuel
  induction fuel with
  | zero => intro f stack; rfl
  | succ fuel ih =>
    intro f stack
    cases stack with
    | nil => rfl
    | cons s stack =>
      simp only [wolffLoop]
      have h := wolffNeighbors_withSwRoot expLt (f.lattice.sites.getD s default)
        (f.spin.getD s 0) sw (List.range (f.lattice.sites.getD s default).nn)
        ({ f with spin := f.spin.set s (-f.spin.getD s 0) }, stack)
      simp only [QfeIsing.withSwRoot] at h ⊢
      rw [h]
      exact ih _ _

theorem swBond_withWolffScratch (expLt : ℚ → ℚ → Bool) (fuel : Nat) (c : List Bool)
    (w : List Nat) (f : QfeIsing) (l : Nat) :
    swBond expLt fuel (f.withWolffScratch c w) l =
      (swBond expLt fuel f l).map fun r => r.withWolffScratch c w := by
  unfold swBond
  simp only [QfeIsing.withWolffScratch]
  split_ifs
  · rfl
  · rfl
  · cases swUnion fuel f.sw_root (f.lattice.links.getD l default).sites.1
        (f.lattice.links.getD l default).sites.2 <;> rfl

theorem foldlM_map_comm {α β : Type} (step : β → α → Option β) (T : β → β)
    (h : ∀ b x, step (T b) x = (step b x).map T) :
    ∀ (l : List α) (b : β), l.foldlM step (T b) = (l.foldlM step b).map T := by
  intro l
  induction l with
  | nil => intro b; rfl
  | cons x l ih =>
    intro b
    rw [List.foldlM_cons, List.foldlM_cons, h]
    cases step b x with
    | none => rfl
    | some b1 => exact ih b1

theorem swSite_withWolffScratch (fuel : Nat) (c : List Bool) (w : List Nat) (st : SWClusters)
    (s : Nat) :
    swSite fuel { st with f := st.f.withWolffScratch c w } s =
      (swSite fuel st s).map fun r => { r with f := r.f.withWolffScratch c w } := by
  unfold swSite
  simp only [QfeIsing.withWolffScratch]
  cases FindSWRoot fuel st.f.sw_root s with
  | none => rfl
  | some p =>
    simp only
    split_ifs <;> rfl

theorem delta_S_scratch (f : QfeIsing) (c : List Bool) (w : List Nat) (sw : List Nat) (s : Nat) :
    delta_S { f with is_clustered := c, wolff_cluster := w, sw_root := sw } s = delta_S f s :=
  rfl

theorem metropolisSite_scratch (expLt : ℚ → ℚ → Bool) (c : List Bool) (w : List Nat)
    (sw : List Nat) (st : QfeIsing × Nat) (s : Nat) :
    metropolisSite expLt
        ({ st.1 with is_clustered := c, wolff_cluster := w, sw_root := sw }, st.2) s =
      ({ (metropolisSite expLt st s).1 with is_clustered := c, wolff_cluster := w, sw_root := sw },
        (metropolisSite expLt st s).2) := by
  unfold metropolisSite
  simp only [delta_S_scratch]
  split_ifs <;> rfl

theorem metropolisLoop_scratch (expLt : ℚ → ℚ → Bool) (c : List Bool) (w : List Nat)
    (sw : List Nat) :
    ∀ (ss : List Nat) (st : QfeIsing × Nat),
      ss.foldl (metropolisSite expLt)
          ({ st.1 with is_clustered := c, wolff_cluster := w, sw_root := sw }, st.2) =
        ({ (ss.foldl (metropolisSite expLt) st).1 with
            is_clustered := c, wolff_cluster := w, sw_root := sw },
          (ss.foldl (metropolisSite expLt) st).2) := by
  intro ss
  induction ss with
  | nil => intro st; rfl
  | cons s ss ih =>
    intro st
    rw [List.foldl_cons, List.foldl_cons, metropolisSite_scratch, ih]

theorem metropolisDecisions_scratch (expLt : ℚ → ℚ → Bool) (c : List Bool) (w : List Nat)
    (sw : List Nat) :
    ∀ (ss : List Nat) (f : QfeIsing),
      metropolisDecisions expLt { f with is_clustered := c, wolff_cluster := w, sw_root := sw }
          ss = metropolisDecisions expLt f ss := by
  intro ss
  induction ss with
  | nil => intro f; rfl
  | cons s ss ih =>
    intro f
    have h := metropolisSite_scratch expLt c w sw (f, 0) s
    simp only at h
    rw [metropolisDecisions, metropolisDecisions, h, ih]
    rfl

/-- An object that agrees with `f` up to scratch is `f` with other scratch vectors. -/
theorem SameUpToScratch_eq {f g : QfeIsing} (h : SameUpToScratch f g) :
    g = { f with is_clustered := g.is_clustered, wolff_cluster := g.wolff_cluster,
                 sw_root := g.sw_root } := by
  obtain ⟨h1, h2, h3, -, -⟩ := h
  cases g
  cases f
  simp only at h1 h2 h3
  subst h1 h2 h3
  rfl

theorem WolffUpdate_scratch (expLt : ℚ → ℚ → Bool) (fuel : Nat) (f : QfeIsing) (c : List Bool)
    (w sw : List Nat) (hc : c.length = f.is_clustered.length) :
    WolffUpdate expLt fuel { f with is_clustered := c, wolff_cluster := w, sw_root := sw } =
      (WolffUpdate expLt fuel f).map fun p => (p.1, p.2.withSwRoot sw) := by
  have key := wolffLoop_withSwRoot expLt sw fuel
    { ({ f with is_clustered := List.replicate f.is_clustered.length false,
                wolff_cluster := [] } : QfeIsing).withRng
          (f.lattice.rng.RandInt 0 (f.lattice.n_sites - 1)).2 with
        wolff_cluster := [] ++ [wolffSeed f]
        is_clustered := (List.replicate f.is_clustered.length false).set (wolffSeed f) true }
    [wolffSeed f]
  unfold WolffUpdate
  simp only [hc, Option.map_map]
  simp only [QfeIsing.withSwRoot, wolffSeed] at key
  erw [key, Option.map_map]
  rfl

theorem SWUpdate_scratch (expLt : ℚ → ℚ → Bool) (fuel : Nat) (f : QfeIsing) (c : List Bool)
    (w sw : List Nat) (hsw : sw.length = f.sw_root.length) :
    SWUpdate expLt fuel { f with is_clustered := c, wolff_cluster := w, sw_root := sw } =
      (SWUpdate expLt fuel f).map fun p => (p.1, p.2.withWolffScratch c w) := by
  have hbond : swBondPhase expLt fuel
      { f with is_clustered := c, wolff_cluster := w, sw_root := sw } =
      (swBondPhase expLt fuel f).map fun r => r.withWolffScratch c w := by
    unfold swBondPhase
    simp only [hsw]
    exact foldlM_map_comm (swBond expLt fuel) (fun r => r.withWolffScratch c w)
      (swBond_withWolffScratch expLt fuel c w) (List.range f.lattice.n_links)
      { f with sw_root := List.range f.sw_root.length }
  have hclus : ∀ f1 : QfeIsing, swClusterPhase fuel (f1.withWolffScratch c w) =
      (swClusterPhase fuel f1).map fun r => { r with f := r.f.withWolffScratch c w } := by
    intro f1
    unfold swClusterPhase
    exact foldlM_map_comm (swSite fuel) (fun r => { r with f := r.f.withWolffScratch c w })
      (swSite_withWolffScratch fuel c w) _ ⟨f1, [], [], 0⟩
  unfold SWUpdate
  rw [hbond]
  cases swBondPhase expLt fuel f with
  | none => rfl
  | some f1 =>
    simp only [Option.map_some']
    rw [hclus]
    cases swClusterPhase fuel f1 with
    | none => rfl
    | some st => rfl

/-- C18: the outcome of an update depends only on the lattice (with its generator),
`beta` and the spin vector: two objects that differ arbitrarily in the prior contents
of `is_clustered`, `wolff_cluster` and `sw_root` give, for `WolffUpdate`, `SWUpdate`
and `Metropolis`, the same return value, the same decisions (cluster built, links
activated, trials accepted, draws consumed) and the same final spin vector. -/
theorem updates_ignore_scratch (expLt : ℚ → ℚ → Bool) (f g : QfeIsing)
    (h : SameUpToScratch f g) :
    (∀ fuel,
      (WolffUpdate expLt fuel g).map (fun p => (p.1, p.2.spin, p.2.wolff_cluster, p.2.lattice)) =
        (WolffUpdate expLt fuel f).map
          (fun p => (p.1, p.2.spin, p.2.wolff_cluster, p.2.lattice))) ∧
    (∀ fuel,
      (SWUpdate expLt fuel g).map (fun p => (p.1, p.2.spin, p.2.sw_root, p.2.lattice)) =
        (SWUpdate expLt fuel f).map (fun p => (p.1, p.2.spin, p.2.sw_root, p.2.lattice))) ∧
    swLinks expLt g = swLinks expLt f ∧
    (Metropolis expLt g).1 = (Metropolis expLt f).1 ∧
    (Metropolis expLt g).2.spin = (Metropolis expLt f).2.spin ∧
    (Metropolis expLt g).2.lattice = (Metropolis expLt f).2.lattice ∧
    metropolisDecisions expLt g (List.range g.lattice.n_sites) =
      metropolisDecisions expLt f (List.range f.lattice.n_sites) := by
  have hg := SameUpToScratch_eq h
  obtain ⟨h1, h2, h3, h4, h5⟩ := h
  refine ⟨fun fuel => ?_, fun fuel => ?_, ?_, ?_, ?_, ?_, ?_⟩
  · rw [hg, WolffUpdate_scratch expLt fuel f _ _ _ h4, Option.map_map]
    rfl
  · rw [hg, SWUpdate_scratch expLt fuel f _ _ _ h5, Option.map_map]
    rfl
  · unfold swLinks
    rw [swActivated_congr expLt (⟨h2, h3, by rw [h1], by rw [h1], by rw [h1], by rw [h1]⟩ :
      SameField f g), h1]
  · have := metropolisLoop_scratch expLt g.is_clustered g.wolff_cluster g.sw_root
      (List.range f.lattice.n_sites) (f, 0)
    rw [hg]
    unfold Metropolis
    simp only at this ⊢
    rw [this]
  · have := metropolisLoop_scratch expLt g.is_clustered g.wolff_cluster g.sw_root
      (List.range f.lattice.n_sites) (f, 0)
    rw [hg]
    unfold Metropolis
    simp only at this ⊢
    rw [this]
  · have := metropolisLoop_scratch expLt g.is_clustered g.wolff_cluster g.sw_root
      (List.range f.lattice.n_sites) (f, 0)
    rw [hg]
    unfold Metropolis
    simp only at this ⊢
    rw [this]
  · rw [h1, hg]
    exact metropolisDecisions_scratch expLt _ _ _ _ f

/-- Witness of C18: the field on the 4-cycle with two different scratch contents. -/
theorem updates_ignore_scratch_witness :
    SameUpToScratch (ising4 1) ising4Scratch ∧
    (∀ fuel,
      (WolffUpdate (fun _ _ => false) fuel ising4Scratch).map
          (fun p => (p.1, p.2.spin, p.2.wolff_cluster, p.2.lattice)) =
        (WolffUpdate (fun _ _ => false) fuel (ising4 1)).map
          (fun p => (p.1, p.2.spin, p.2.wolff_cluster, p.2.lattice))) ∧
    (∀ fuel,
      (SWUpdate (fun _ _ => false) fuel ising4Scratch).map
          (fun p => (p.1, p.2.spin, p.2.sw_root, p.2.lattice)) =
        (SWUpdate (fun _ _ => false) fuel (ising4 1)).map
          (fun p => (p.1, p.2.spin, p.2.sw_root, p.2.lattice))) ∧
    swLinks (fun _ _ => false) ising4Scratch = swLinks (fun _ _ => false) (ising4 1) ∧
    (Metropolis (fun _ _ => false) ising4Scratch).1 =
      (Metropolis (fun _ _ => false) (ising4 1)).1 ∧
    (Metropolis (fun _ _ => false) ising4Scratch).2.spin =
      (Metropolis (fun _ _ => false) (ising4 1)).2.spin ∧
    (Metropolis (fun _ _ => false) ising4Scratch).2.lattice =
      (Metropolis (fun _ _ => false) (ising4 1)).2.lattice ∧
    metropolisDecisions (fun _ _ => false) ising4Scratch
        (List.range ising4Scratch.lattice.n_sites) =
      metropolisDecisions (fun _ _ => false) (ising4 1)
        (List.range (ising4 1).lattice.n_sites) :=
  ⟨⟨rfl, rfl, rfl, rfl, rfl⟩,
    updates_ignore_scratch (fun _ _ => false) (ising4 1) ising4Scratch ⟨rfl, rfl, rfl, rfl, rfl⟩⟩

/-! ## Every site is popped at most once -/

theorem WolffUpdate_eq_loop (expLt : ℚ → ℚ → Bool) (fuel : Nat) (f : QfeIsing) :
    WolffUpdate expLt fuel f =
      (wolffLoop expLt fuel (wolffStart f) [wolffSeed f]).map fun r =>
        (r.wolff_cluster.length, r) := rfl

theorem wolffStart_inv (f : QfeIsing) (hn : 1 ≤ f.lattice.n_sites) (hs : f.Sized) :
    WolffInv f.lattice f.beta f.spin (wolffSeed f) (wolffStart f) [wolffSeed f] := by
  obtain ⟨hs1, hs2, hs3, -⟩ := hs
  have hseed := wolffSeed_lt f hn
  unfold wolffStart
  refine
    { sites_eq := rfl, links_eq := rfl, n_eq := rfl, beta_eq := rfl,
      clen := by simp; omega, slen := rfl, seed_head := rfl, mem_iff := ?_,
      nodup := by simp, lt := by simpa using hseed, stack_sub := by simp,
      stack_nodup := by simp, spin_eq := by simp }
  intro i
  simp only [getD_set_eq, List.length_replicate, getD_replicate_false, List.nil_append,
    List.mem_singleton]
  have : wolffSeed f < f.is_clustered.length := by omega
  constructor
  · intro h
    by_contra hne
    have hne2 : ¬ wolffSeed f = i := fun e => hne e.symm
    simp [hne2] at h
  · intro h
    subst h
    simp [this]

/-- One neighbour iteration keeps the cluster members and pushes only sites that
were not in the cluster. -/
theorem wolffTry_grows (expLt : ℚ → ℚ → Bool) (lat : QfeLattice) (beta : ℚ) (spin0 : List ℚ)
    (seed : Nat) (site : QfeSite) (value : ℚ) (st : QfeIsing × List Nat) (n : Nat)
    (h : WolffInv lat beta spin0 seed st.1 st.2) :
    (∀ x ∈ st.1.wolff_cluster, x ∈ (wolffTry expLt site value st n).1.wolff_cluster) ∧
      ∀ x ∈ (wolffTry expLt site value st n).2, x ∈ st.2 ∨ x ∉ st.1.wolff_cluster := by
  obtain ⟨f, stack⟩ := st
  simp only at h
  unfold wolffTry
  simp only
  split_ifs with h1 h2 h3
  · exact ⟨fun x hx => hx, fun x hx => Or.inl hx⟩
  · exact ⟨fun x hx => hx, fun x hx => Or.inl hx⟩
  · exact ⟨fun x hx => hx, fun x hx => Or.inl hx⟩
  · refine ⟨fun x hx => List.mem_append_left _ hx, fun x hx => ?_⟩
    rcases List.mem_cons.mp hx with e | hx
    · right
      rw [e]
      exact fun hm => h1 ((h.mem_iff _).mpr hm)
    · exact Or.inl hx

theorem wolffNeighbors_grows (expLt : ℚ → ℚ → Bool) (lat : QfeLattice) (beta : ℚ)
    (spin0 : List ℚ) (seed : Nat) (site : QfeSite) (value : ℚ) (ns : List Nat)
    (hns : ∀ n ∈ ns, site.neighbors.getD n 0 < lat.n_sites) :
    ∀ st : QfeIsing × List Nat, WolffInv lat beta spin0 seed st.1 st.2 →
      (∀ x ∈ st.1.wolff_cluster,
        x ∈ (ns.foldl (wolffTry expLt site value) st).1.wolff_cluster) ∧
      ∀ x ∈ (ns.foldl (wolffTry expLt site value) st).2,
        x ∈ st.2 ∨ x ∉ st.1.wolff_cluster := by
  induction ns with
  | nil => intro st _; exact ⟨fun x hx => hx, fun x hx => Or.inl hx⟩
  | cons n ns ih =>
    intro st h
    have h1 := wolffTry_inv expLt lat beta spin0 seed site value st n
      (hns n (List.mem_cons_self _ _)) h
    obtain ⟨g1, g2⟩ := wolffTry_grows expLt lat beta spin0 seed site value st n h
    obtain ⟨g3, g4⟩ := ih (fun m hm => hns m (List.mem_cons_of_mem _ hm)) _ h1.1
    rw [List.foldl_cons]
    refine ⟨fun x hx => g3 x (g1 x hx), fun x hx => ?_⟩
    rcases g4 x hx with hx1 | hx1
    · exact g2 x hx1
    · exact Or.inr (fun hm => hx1 (g1 x hm))

theorem wolffPops_nodup (expLt : ℚ → ℚ → Bool) (lat : QfeLattice) (beta : ℚ) (spin0 : List ℚ)
    (seed : Nat) (hadj : lat.AdjInRange) (hlen : lat.n_sites ≤ spin0.length) :
    ∀ (fuel : Nat) (f : QfeIsing) (stack : List Nat), WolffInv lat beta spin0 seed f stack →
      (wolffPops expLt fuel f stack).Nodup ∧
        ∀ x ∈ wolffPops expLt fuel f stack, x ∈ stack ∨ x ∉ f.wolff_cluster := by
  intro fuel
  induction fuel with
  | zero => intro f stack _; exact ⟨List.nodup_nil, fun x hx => by simp [wolffPops] at hx⟩
  | succ fuel ih =>
    intro f stack h
    cases stack with
    | nil => exact ⟨List.nodup_nil, fun x hx => by simp [wolffPops] at hx⟩
    | cons s stack =>
      have hpop := wolffPop_inv lat beta spin0 seed hlen f s stack h
      have hsC : s ∈ f.wolff_cluster := h.stack_sub s (List.mem_cons_self _ _)
      have hs : s < lat.n_sites := h.lt s hsC
      have hsite : f.lattice.sites.getD s default = lat.sites.getD s default := by
        rw [h.sites_eq]
      have hns : ∀ n ∈ List.range (f.lattice.sites.getD s default).nn,
          (f.lattice.sites.getD s default).neighbors.getD n 0 < lat.n_sites := by
        intro n hn
        rw [hsite] at hn ⊢
        exact (hadj s hs).2 n (List.mem_range.mp hn)
      have hfold := wolffNeighbors_inv expLt lat beta spin0 seed
        (f.lattice.sites.getD s default) (f.spin.getD s 0) _ hns
        ({ f with spin := f.spin.set s (-f.spin.getD s 0) }, stack) hpop
      obtain ⟨g1, g2⟩ := wolffNeighbors_grows expLt lat beta spin0 seed
        (f.lattice.sites.getD s default) (f.spin.getD s 0) _ hns
        ({ f with spin := f.spin.set s (-f.spin.getD s 0) }, stack) hpop
      obtain ⟨i1, i2⟩ := ih _ _ hfold.1
      have hnd := List.nodup_cons.mp h.stack_nodup
      simp only [wolffPops]
      refine ⟨List.nodup_cons.mpr ⟨fun hm => ?_, i1⟩, fun x hx => ?_⟩
      · rcases i2 s hm with c1 | c1
        · rcases g2 s c1 with c2 | c2
          · exact hnd.1 c2
          · exact c2 hsC
        · exact c1 (g1 s hsC)
      · rcases List.mem_cons.mp hx with e | hx
        · rw [e]; exact Or.inl (List.mem_cons_self _ _)
        · rcases i2 x hx with c1 | c1
          · rcases g2 x c1 with c2 | c2
            · exact Or.inl (List.mem_cons_of_mem _ c2)
            · exact Or.inr c2
          · exact Or.inr (fun hm => c1 (g1 x hm))

theorem wolffChecks_nodup (lat : QfeLattice) :
    ∀ pops : List Nat, pops.Nodup → (wolffChecks lat pops).Nodup := by
  intro pops
  induction pops with
  | nil => intro _; exact List.nodup_nil
  | cons s ps ih =>
    intro h
    obtain ⟨h1, h2⟩ := List.nodup_cons.mp h
    have hmem : ∀ p ∈ wolffChecks lat ps, p.1 ∈ ps := by
      intro p hp
      unfold wolffChecks at hp
      rw [List.mem_flatMap] at hp
      obtain ⟨t, ht, hp⟩ := hp
      rw [List.mem_map] at hp
      obtain ⟨n, -, e⟩ := hp
      rw [← e]
      exact ht
    have e : wolffChecks lat (s :: ps) =
        ((List.range (lat.sites.getD s default).nn).map fun n => (s, n)) ++
          wolffChecks lat ps := by
      unfold wolffChecks
      rw [List.flatMap_cons]
    rw [e]
    refine List.Nodup.append ?_ (ih h2) ?_
    · exact (List.nodup_range _).map (fun a b hab => congrArg Prod.snd hab)
    · intro p hp1 hp2
      rw [List.mem_map] at hp1
      obtain ⟨n, -, e1⟩ := hp1
      have := hmem p hp2
      rw [← e1] at this
      exact h1 this

/-- C19: within one `WolffUpdate` every site is popped from the stack at most once,
so every pair (site, adjacency entry) undergoes the in-cluster check and the bond test
at most once; and a neighbour already marked in-cluster is never bond-tested: the
iteration changes nothing and draws nothing. -/
theorem WolffUpdate_tests_once (expLt : ℚ → ℚ → Bool) (f : QfeIsing)
    (hn : 1 ≤ f.lattice.n_sites) (hs : f.Sized) (hadj : f.lattice.AdjInRange) (fuel : Nat) :
    (wolffPops expLt fuel (wolffStart f) [wolffSeed f]).Nodup ∧
    (wolffChecks f.lattice (wolffPops expLt fuel (wolffStart f) [wolffSeed f])).Nodup ∧
    ∀ (site : QfeSite) (value : ℚ) (st : QfeIsing × List Nat) (n : Nat),
      st.1.is_clustered.getD (site.neighbors.getD n 0) false = true →
      wolffTry expLt site value st n = st := by
  have hinv := wolffStart_inv f hn hs
  have hnd := (wolffPops_nodup expLt f.lattice f.beta f.spin (wolffSeed f) hadj
    (by have := hs.1; have := hs.2.1; omega) fuel _ _ hinv).1
  refine ⟨hnd, wolffChecks_nodup f.lattice _ hnd, fun site value st n hc => ?_⟩
  unfold wolffTry
  simp only [hc, if_true]

/-- Witness of C19 on the 4-cycle. -/
theorem WolffUpdate_tests_once_witness :
    (1 ≤ (ising4 1).lattice.n_sites ∧ (ising4 1).Sized ∧ (ising4 1).lattice.AdjInRange) ∧
    (wolffPops (fun _ _ => false) 5 (wolffStart (ising4 1)) [wolffSeed (ising4 1)]).Nodup ∧
    (wolffChecks (ising4 1).lattice
      (wolffPops (fun _ _ => false) 5 (wolffStart (ising4 1)) [wolffSeed (ising4 1)])).Nodup ∧
    ∀ (site : QfeSite) (value : ℚ) (st : QfeIsing × List Nat) (n : Nat),
      st.1.is_clustered.getD (site.neighbors.getD n 0) false = true →
      wolffTry (fun _ _ => false) site value st n = st :=
  ⟨⟨by decide, by decide, by decide⟩,
    WolffUpdate_tests_once (fun _ _ => false) (ising4 1) (by decide) (by decide) (by decide) 5⟩

/-! ## Path compression -/

theorem OnPath_le {sw : List Nat} (hF : Forest sw) {a x : Nat} (h : OnPath sw a x) : x ≤ a := by
  induction h with
  | here s => exact le_refl _
  | step s x _ ih => exact le_trans ih (Forest_parent_le hF s)

theorem OnPath_root {sw : List Nat} {r x : Nat} (hr : sw.getD r 0 = r) (h : OnPath sw r x) :
    x = r := by
  induction h with
  | here s => rfl
  | step s x _ ih =>
    have := ih (by rw [hr]; exact hr)
    rw [this, hr]

theorem OnPath_cases {sw : List Nat} {s x : Nat} (h : OnPath sw s x) :
    x = s ∨ OnPath sw (sw.getD s 0) x := by
  cases h with
  | here => exact Or.inl rfl
  | step _ _ h1 => exact Or.inr h1

theorem OnPath_of_set {sw : List Nat} (hF : Forest sw) {s v : Nat} {a x : Nat}
    (h : OnPath (sw.set s v) a x) (ha : a < s) : OnPath sw a x := by
  induction h with
  | here t => exact OnPath.here t
  | step t x _ ih =>
    have e : (sw.set s v).getD t 0 = sw.getD t 0 := by
      rw [getD_set_eq, if_neg (fun h => by omega)]
    rw [e] at ih
    exact OnPath.step t x (ih (lt_of_le_of_lt (Forest_parent_le hF t) ha))

theorem OnPath_to_set {sw : List Nat} (hF : Forest sw) {s v : Nat} {a x : Nat}
    (h : OnPath sw a x) (ha : a < s) : OnPath (sw.set s v) a x := by
  induction h with
  | here t => exact OnPath.here t
  | step t x _ ih =>
    have e : (sw.set s v).getD t 0 = sw.getD t 0 := by
      rw [getD_set_eq, if_neg (fun h => by omega)]
    refine OnPath.step t x ?_
    rw [e]
    exact ih (lt_of_le_of_lt (Forest_parent_le hF t) ha)

theorem OnPath_rootOf {sw : List Nat} (hF : Forest sw) :
    ∀ s, s < sw.length → OnPath sw s (rootOf sw s) := by
  intro s
  induction s using Nat.strong_induction_on with
  | _ s ih =>
    intro hs
    by_cases h : sw.getD s 0 = s
    · rw [rootOf_self h]; exact OnPath.here s
    · have hp : sw.getD s 0 < s := lt_of_le_of_ne (hF s hs) h
      have := ih _ hp (lt_trans hp hs)
      rw [rootOf_parent hF hs] at this
      exact OnPath.step s _ this

theorem compressLoop_path :
    ∀ (s : Nat) (sw : List Nat), Forest sw → s < sw.length → ∀ fuel, s < fuel →
      ∃ sw1, compressLoop fuel sw (rootOf sw s) s = some sw1 ∧
        (∀ x, OnPath sw s x → x ≠ rootOf sw s → sw1.getD x 0 = rootOf sw s) ∧
        ∀ x, ¬ (OnPath sw s x ∧ x ≠ rootOf sw s) → sw1.getD x 0 = sw.getD x 0 := by
  intro s
  induction s using Nat.strong_induction_on with
  | _ s ih =>
    intro sw hF hs fuel hfuel
    obtain ⟨k, rfl⟩ : ∃ j, fuel = j + 1 := ⟨fuel - 1, by omega⟩
    by_cases h : s = rootOf sw s
    · refine ⟨sw, by rw [compressLoop, if_neg (not_not.mpr h)], fun x hx hne => ?_,
        fun _ _ => rfl⟩
      have hroot : sw.getD s 0 = s := by
        have := rootOf_root hF hs
        rwa [← h] at this
      exact absurd ((OnPath_root hroot hx).trans h) hne
    · have hne : sw.getD s 0 ≠ s := fun e => h (rootOf_self e).symm
      have hp : sw.getD s 0 < s := lt_of_le_of_ne (hF s hs) hne
      have hF1 : Forest (sw.set s (rootOf sw s)) := Forest_set hF (rootOf_le hF hs)
      have hlen1 : (sw.set s (rootOf sw s)).length = sw.length := List.length_set _ _ _
      have hr : rootOf (sw.set s (rootOf sw s)) (sw.getD s 0) = rootOf sw s := by
        rw [rootOf_set_compress hF hs _ (lt_trans hp hs), rootOf_parent hF hs]
      obtain ⟨sw2, h1, h2, h3⟩ :=
        ih _ hp (sw.set s (rootOf sw s)) hF1 (by rw [hlen1]; exact lt_trans hp hs) k (by omega)
      rw [hr] at h1 h2 h3
      refine ⟨sw2, by rw [compressLoop, if_pos h]; exact h1, fun x hx hxr => ?_, fun x hx => ?_⟩
      · rcases OnPath_cases hx with e | hx1
        · subst e
          have hnot : ¬ (OnPath (sw.set x (rootOf sw x)) (sw.getD x 0) x ∧ x ≠ rootOf sw x) := by
            rintro ⟨hc, -⟩
            have := OnPath_le hF (OnPath_of_set hF hc hp)
            omega
          rw [h3 x hnot, getD_set_eq, if_pos ⟨rfl, hs⟩]
        · exact h2 x (OnPath_to_set hF hx1 hp) hxr
      · have hxs : x ≠ s := by
          rintro rfl
          exact hx ⟨OnPath.here x, h⟩
        have hnot : ¬ (OnPath (sw.set s (rootOf sw s)) (sw.getD s 0) x ∧ x ≠ rootOf sw s) := by
          rintro ⟨hc, hc2⟩
          exact hx ⟨OnPath.step s x (OnPath_of_set hF hc hp), hc2⟩
        rw [h3 x hnot, getD_set_eq, if_neg (fun e => hxs e.1.symm)]

/-- C20: `FindSWRoot` path-compresses: on a valid forest, `FindSWRoot(s)` returns the
root `r` at the end of the parent path of `s`, and afterwards `sw_root[x] == r` for
every node `x` on the former parent path from `s` to `r` (including `s` itself),
`sw_root[r] == r`, and every entry of `sw_root` off that path is unchanged. -/
theorem FindSWRoot_compresses (sw : List Nat) (hF : Forest sw) (s : Nat) (hs : s < sw.length)
    (fuel : Nat) (hfuel : s < fuel) :
    ∃ r sw1, FindSWRoot fuel sw s = some (r, sw1) ∧
      OnPath sw s r ∧ sw.getD r 0 = r ∧
      (∀ x, OnPath sw s x → sw1.getD x 0 = r) ∧
      sw1.getD r 0 = r ∧
      (∀ x, ¬ OnPath sw s x → sw1.getD x 0 = sw.getD x 0) ∧
      sw1.length = sw.length := by
  obtain ⟨sw1, h1, h2, h3⟩ := compressLoop_path s sw hF hs fuel hfuel
  obtain ⟨sw2, h4, -, h5, -⟩ := FindSWRoot_spec hF hs hfuel
  have hfind := findRootLoop_parent hF hs hfuel
  have e : FindSWRoot fuel sw s = some (rootOf sw s, sw1) := by
    rw [FindSWRoot, hfind]
    simp only [h1]
  have e2 : sw2 = sw1 := by
    rw [h4] at e
    exact congrArg Prod.snd (Option.some.inj e)
  subst e2
  have hroot := rootOf_root hF hs
  have hr : sw2.getD (rootOf sw s) 0 = rootOf sw s := by
    rw [h3 _ (fun hc => hc.2 rfl)]
    exact hroot
  refine ⟨rootOf sw s, sw2, e, OnPath_rootOf hF s hs, hroot, fun x hx => ?_, hr,
    fun x hx => h3 x (fun hc => hx hc.1), h5⟩
  by_cases hxr : x = rootOf sw s
  · rw [hxr]; exact hr
  · exact h2 x hx hxr

/-- Witness of C20: the chain `3 -> 2 -> 1 -> 0` with a fifth node aside. -/
theorem FindSWRoot_compresses_witness :
    (Forest [0, 0, 1, 2, 4] ∧ 3 < [0, 0, 1, 2, 4].length ∧ 3 < 5) ∧
    ∃ r sw1, FindSWRoot 5 [0, 0, 1, 2, 4] 3 = some (r, sw1) ∧
      OnPath [0, 0, 1, 2, 4] 3 r ∧ [0, 0, 1, 2, 4].getD r 0 = r ∧
      (∀ x, OnPath [0, 0, 1, 2, 4] 3 x → sw1.getD x 0 = r) ∧
      sw1.getD r 0 = r ∧
      (∀ x, ¬ OnPath [0, 0, 1, 2, 4] 3 x → sw1.getD x 0 = [0, 0, 1, 2, 4].getD x 0) ∧
      sw1.length = [0, 0, 1, 2, 4].length :=
  ⟨⟨by decide, by decide, by decide⟩,
    FindSWRoot_compresses [0, 0, 1, 2, 4] (by decide) 3 (by decide) 5
      (by decide)⟩

/-! ## Periodic wrap -/

theorem wrap_range (N d : Int) (hN : 1 ≤ N) (h1 : -N < d) (h2 : d < N) :
    (-(Int.tdiv N 2) ≤
        (if d < Int.tdiv (-N) 2 then d + N else if d > Int.tdiv N 2 then d - N else d)) ∧
      (if d < Int.tdiv (-N) 2 then d + N else if d > Int.tdiv N 2 then d - N else d) ≤
        Int.tdiv N 2 ∧
      Int.ModEq N
        (if d < Int.tdiv (-N) 2 then d + N else if d > Int.tdiv N 2 then d - N else d) d := by
  have e1 : Int.tdiv N 2 = N / 2 := Int.tdiv_eq_ediv (by omega) (by norm_num)
  have e2 : Int.tdiv (-N) 2 = -(N / 2) := by rw [Int.neg_tdiv, e1]
  rw [e1, e2]
  split_ifs with ha hb
  · refine ⟨by omega, by omega, ?_⟩
    show (d + N) % N = d % N
    simp
  · refine ⟨by omega, by omega, ?_⟩
    show (d - N) % N = d % N
    simp
  · exact ⟨by omega, by omega, rfl⟩

/-- C21: for extents `Nx, Ny ≥ 1` and coordinates `x1, x2` in `[0, Nx)`, `y1, y2` in
`[0, Ny)`, the wrapped separations of `ising_rect_rad.cc` lie in `[-(N/2), N/2]`
(integer division) and are congruent to the unwrapped differences modulo the
extent. -/
theorem periodic_wrap_range (Nx Ny x1 x2 y1 y2 : Int) (hNx : 1 ≤ Nx) (hNy : 1 ≤ Ny)
    (hx1 : 0 ≤ x1 ∧ x1 < Nx) (hx2 : 0 ≤ x2 ∧ x2 < Nx)
    (hy1 : 0 ≤ y1 ∧ y1 < Ny) (hy2 : 0 ≤ y2 ∧ y2 < Ny) :
    (-(Int.tdiv Nx 2) ≤ dx Nx x1 x2 ∧ dx Nx x1 x2 ≤ Int.tdiv Nx 2 ∧
        Int.ModEq Nx (dx Nx x1 x2) (x2 - x1)) ∧
      (-(Int.tdiv Ny 2) ≤ dy Ny y1 y2 ∧ dy Ny y1 y2 ≤ Int.tdiv Ny 2 ∧
        Int.ModEq Ny (dy Ny y1 y2) (y2 - y1)) :=
  ⟨wrap_range Nx (x2 - x1) hNx (by omega) (by omega),
    wrap_range Ny (y2 - y1) hNy (by omega) (by omega)⟩

/-- Witness of C21 on a 5 by 4 lattice: `dx = -2` from the difference 3 (wrapped by
`-= Nx`) and `dy = -2` from the difference -2 (kept, since `-2 < -Ny / 2` is false). -/
theorem periodic_wrap_range_witness :
    (dx 5 1 4 = -2 ∧ dy 4 3 1 = -2) ∧
      (-(Int.tdiv 5 2) ≤ dx 5 1 4 ∧ dx 5 1 4 ≤ Int.tdiv 5 2 ∧
        Int.ModEq 5 (dx 5 1 4) (4 - 1)) ∧
      (-(Int.tdiv 4 2) ≤ dy 4 3 1 ∧ dy 4 3 1 ≤ Int.tdiv 4 2 ∧
        Int.ModEq 4 (dy 4 3 1) (1 - 3)) :=
  ⟨by decide, periodic_wrap_range 5 4 1 4 3 1 (by decide) (by decide) (by decide) (by decide)
    (by decide) (by decide)⟩

/-! ## Time separation -/

/-- For an even number of time slices `DeltaT` times `t_scale` is the periodic time
separation. -/
theorem DeltaT_even (lat : QfeLatticeAdS3) (s1 s2 : Nat) (hs : lat.t_scale ≠ 0)
    (hN : 1 ≤ lat.Nt) (heven : lat.Nt % 2 = 0) :
    lat.DeltaT s1 s2 * lat.t_scale =
      (periodicSeparation lat.Nt (lat.t.getD s1 0) (lat.t.getD s2 0) : ℚ) := by
  unfold QfeLatticeAdS3.DeltaT periodicSeparation
  simp only []
  rw [div_mul_cancel₀ _ hs]
  have e1 : Int.tdiv lat.Nt 2 = lat.Nt / 2 := Int.tdiv_eq_ediv (by omega) (by norm_num)
  rw [e1]
  congr 1
  omega

/-- C27: with three time slices `DeltaT` returns 0 for a site of slice 0 and a site
of slice 2, where the periodic time separation `min(|t1 - t2|, Nt - |t1 - t2|)` is
1. -/
theorem DeltaT_odd_Nt :
    threeSlices.DeltaT 0 1 * threeSlices.t_scale = 0 ∧
      periodicSeparation threeSlices.Nt (threeSlices.t.getD 0 0) (threeSlices.t.getD 1 0) = 1 := by
  constructor
  · decide!
  · decide

/-! ## Bit order of `WriteField` -/

theorem writeLoop_byte_lt (spin : List ℚ) (B : Nat) :
    ∀ k, ∀ b ∈ ((List.range k).foldl (writeStep spin) (List.replicate B 0, 1)).1, b < 256 := by
  intro k
  induction k with
  | zero =>
    intro b hb
    simp only [List.range_zero, List.foldl_nil] at hb
    rw [List.eq_of_mem_replicate hb]
    decide
  | succ k ih =>
    intro b hb
    rw [List.range_succ, List.foldl_append, List.foldl_cons, List.foldl_nil] at hb
    unfold writeStep at hb
    simp only [] at hb
    split_ifs at hb with h
    · rcases List.mem_or_eq_of_mem_set hb with h1 | h1
      · exact ih b h1
      · rw [h1]; exact Nat.mod_lt _ (by decide)
    · exact ih b hb

/-- C29: `WriteField` packs least-significant-bit first: the buffer has
`(n + 7) / 8` bytes, the least number with `n ≤ 8 * bytes`; every byte is below 256;
for `i < n` bit `i mod 8` of byte `i / 8` is 1 exactly when `spin[i] == -1`; and every
bit at a position `i ≥ n`, in particular the unused high bits of the last byte, is
0. -/
theorem WriteField_lsb_first (f : QfeIsing) :
    (WriteField f).length = (f.spin.length + 7) / 8 ∧
      (f.spin.length ≤ 8 * (WriteField f).length ∧
        8 * (WriteField f).length < f.spin.length + 8) ∧
      (∀ b ∈ WriteField f, b < 256) ∧
      (∀ i, i < f.spin.length →
        (((WriteField f).getD (i / 8) 0).testBit (i % 8) = true ↔ f.spin.getD i 0 = -1)) ∧
      ∀ i, f.spin.length ≤ i → ((WriteField f).getD (i / 8) 0).testBit (i % 8) = false := by
  obtain ⟨h1, h2⟩ := WriteField_bits f
  refine ⟨h1, by omega, writeLoop_byte_lt f.spin _ _, fun i hi => ?_, fun i hi => ?_⟩
  · rw [h2 i]
    simp [hi]
  · rw [h2 i]
    simp only [decide_eq_false_iff_not, not_and]
    intro h
    omega

/-- Witness of C29 on ten spins: two bytes, `0b00001001 = 9` and `0b00000010 = 2`. -/
theorem WriteField_lsb_first_witness :
    WriteField (field10 [-1, 1, 1, -1, 1, 1, 1, 1, 1, -1]) = [9, 2] ∧
      ((WriteField (field10 [-1, 1, 1, -1, 1, 1, 1, 1, 1, -1])).length =
          ((field10 [-1, 1, 1, -1, 1, 1, 1, 1, 1, -1]).spin.length + 7) / 8 ∧
        ((field10 [-1, 1, 1, -1, 1, 1, 1, 1, 1, -1]).spin.length ≤
            8 * (WriteField (field10 [-1, 1, 1, -1, 1, 1, 1, 1, 1, -1])).length ∧
          8 * (WriteField (field10 [-1, 1, 1, -1, 1, 1, 1, 1, 1, -1])).length <
            (field10 [-1, 1, 1, -1, 1, 1, 1, 1, 1, -1]).spin.length + 8) ∧
        (∀ b ∈ WriteField (field10 [-1, 1, 1, -1, 1, 1, 1, 1, 1, -1]), b < 256) ∧
        (∀ i, i < (field10 [-1, 1, 1, -1, 1, 1, 1, 1, 1, -1]).spin.length →
          (((WriteField (field10 [-1, 1, 1, -1, 1, 1, 1, 1, 1, -1])).getD (i / 8) 0).testBit
              (i % 8) = true ↔
            (field10 [-1, 1, 1, -1, 1, 1, 1, 1, 1, -1]).spin.getD i 0 = -1)) ∧
        ∀ i, (field10 [-1, 1, 1, -1, 1, 1, 1, 1, 1, -1]).spin.length ≤ i →
          ((WriteField (field10 [-1, 1, 1, -1, 1, 1, 1, 1, 1, -1])).getD (i / 8) 0).testBit
            (i % 8) = false) :=
  ⟨by decide!, WriteField_lsb_first (field10 [-1, 1, 1, -1, 1, 1, 1, 1, 1, -1])⟩

/-! ## Metropolis at `beta = 0` -/

theorem delta_S_beta_zero (f : QfeIsing) (s : Nat) (hb : f.beta = 0) : delta_S f s = 0 := by
  unfold delta_S
  rw [foldl_add_eq_sum, hb]
  simp

theorem metropolisSite_beta_zero (expLt : ℚ → ℚ → Bool) (f : QfeIsing) (a s : Nat)
    (hb : f.beta = 0) :
    metropolisSite expLt (f, a) s =
      ({ f with spin := f.spin.set s (f.spin.getD s 0 * -1) }, a + 1) := by
  unfold metropolisSite
  simp only [delta_S_beta_zero f s hb, le_refl, if_true]

theorem metropolisLoop_beta_zero (expLt : ℚ → ℚ → Bool) (f : QfeIsing) (hb : f.beta = 0) :
    ∀ k,
      ((List.range k).foldl (metropolisSite expLt) (f, 0)).2 = k ∧
      ((List.range k).foldl (metropolisSite expLt) (f, 0)).1.lattice = f.lattice ∧
      ((List.range k).foldl (metropolisSite expLt) (f, 0)).1.beta = 0 ∧
      ((List.range k).foldl (metropolisSite expLt) (f, 0)).1.spin.length = f.spin.length ∧
      ∀ i, ((List.range k).foldl (metropolisSite expLt) (f, 0)).1.spin.getD i 0 =
        if i < k then -f.spin.getD i 0 else f.spin.getD i 0 := by
  intro k
  induction k with
  | zero => exact ⟨rfl, rfl, hb, rfl, fun i => by simp⟩
  | succ k ih =>
    obtain ⟨h1, h2, h3, h4, h5⟩ := ih
    rw [List.range_succ, List.foldl_append, List.foldl_cons, List.foldl_nil]
    generalize (List.range k).foldl (metropolisSite expLt) (f, 0) = st at h1 h2 h3 h4 h5
    obtain ⟨g, a⟩ := st
    simp only at h1 h2 h3 h4 h5
    rw [metropolisSite_beta_zero expLt g a k h3]
    refine ⟨by simp [h1], h2, h3, by simpa using h4, fun i => ?_⟩
    simp only [getD_set_eq, h4]
    by_cases hik : k = i
    · subst hik
      by_cases hlen : k < f.spin.length
      · simp only [hlen, and_self, if_true, Nat.lt_succ_self, h5 k, Nat.lt_irrefl, if_false]
        ring
      · simp only [hlen, and_false, if_false, h5 k, Nat.lt_irrefl, Nat.lt_succ_self, if_true]
        rw [List.getD_eq_default _ _ (by omega)]
        simp
    · have h6 : (i < k + 1) = (i < k) := by
        apply propext
        constructor <;> intro h <;> omega
      simp only [hik, false_and, if_false, h5 i, h6]

theorem metropolisDecisions_beta_zero (expLt : ℚ → ℚ → Bool) :
    ∀ (ss : List Nat) (f : QfeIsing), f.beta = 0 →
      ∀ d ∈ metropolisDecisions expLt f ss, d = true := by
  intro ss
  induction ss with
  | nil => intro f _ d hd; simp [metropolisDecisions] at hd
  | cons s ss ih =>
    intro f hb d hd
    rw [metropolisDecisions, List.mem_cons] at hd
    rcases hd with hd | hd
    · rw [hd]
      unfold metropolisAccepts
      simp [delta_S_beta_zero f s hb]
    · refine ih _ ?_ d hd
      rw [metropolisSite_beta_zero expLt f 0 s hb]
      exact hb

/-- C26: with `beta = 0` and `n_sites ≥ 1`, `Metropolis` accepts every trial without
consuming a draw: every accept decision is true, the generator is unchanged, the
returned fraction is exactly 1, and the spin of every site `s < n_sites` is the
negation of its initial value (entries of the vector at indices `≥ n_sites` are not
touched; when the vector has exactly `n_sites` entries the final vector is the
entrywise negation of the initial one). -/
theorem Metropolis_beta_zero (expLt : ℚ → ℚ → Bool) (f : QfeIsing) (hb : f.beta = 0)
    (hn : 1 ≤ f.lattice.n_sites) :
    (∀ d ∈ metropolisDecisions expLt f (List.range f.lattice.n_sites), d = true) ∧
      (Metropolis expLt f).2.lattice.rng = f.lattice.rng ∧
      (Metropolis expLt f).1 = 1 ∧
      (Metropolis expLt f).2.spin.length = f.spin.length ∧
      (∀ s, s < f.lattice.n_sites →
        (Metropolis expLt f).2.spin.getD s 0 = -f.spin.getD s 0) ∧
      (∀ s, f.lattice.n_sites ≤ s →
        (Metropolis expLt f).2.spin.getD s 0 = f.spin.getD s 0) ∧
      (f.spin.length = f.lattice.n_sites →
        (Metropolis expLt f).2.spin = f.spin.map fun x => -x) := by
  obtain ⟨h1, h2, -, h4, h5⟩ := metropolisLoop_beta_zero expLt f hb f.lattice.n_sites
  have hpos : (f.lattice.n_sites : ℚ) ≠ 0 := by
    have : (0 : ℚ) < (f.lattice.n_sites : ℚ) := by exact_mod_cast hn
    exact ne_of_gt this
  refine ⟨metropolisDecisions_beta_zero expLt _ f hb, ?_, ?_, h4, fun s hs => ?_,
    fun s hs => ?_, fun hlen => ?_⟩
  · show ((List.range f.lattice.n_sites).foldl (metropolisSite expLt) (f, 0)).1.lattice.rng = _
    rw [h2]
  · show ((((List.range f.lattice.n_sites).foldl (metropolisSite expLt) (f, 0)).2 : Nat) : ℚ) /
      (f.lattice.n_sites : ℚ) = 1
    rw [h1]
    exact div_self hpos
  · show ((List.range f.lattice.n_sites).foldl (metropolisSite expLt) (f, 0)).1.spin.getD s 0 = _
    rw [h5 s, if_pos hs]
  · show ((List.range f.lattice.n_sites).foldl (metropolisSite expLt) (f, 0)).1.spin.getD s 0 = _
    rw [h5 s, if_neg (by omega)]
  · show ((List.range f.lattice.n_sites).foldl (metropolisSite expLt) (f, 0)).1.spin = _
    apply list_ext_getD (by rw [h4, List.length_map])
    intro j hj
    rw [h4] at hj
    have hj2 : j < (f.spin.map fun x => -x).length := by simpa using hj
    rw [h5 j, if_pos (by omega), List.getD_eq_getElem f.spin _ hj,
      List.getD_eq_getElem _ _ hj2, List.getElem_map]

/-- Witness of C26 on the 4-cycle with `beta = 0`: the sweep returns 1 and turns the
spins `+1, +1, +1, -1` into `-1, -1, -1, +1`. -/
theorem Metropolis_beta_zero_witness :
    ((ising4 0).beta = 0 ∧ 1 ≤ (ising4 0).lattice.n_sites ∧
        (Metropolis (fun _ _ => false) (ising4 0)).2.spin = [-1, -1, -1, 1]) ∧
      (∀ d ∈ metropolisDecisions (fun _ _ => false) (ising4 0)
          (List.range (ising4 0).lattice.n_sites), d = true) ∧
      (Metropolis (fun _ _ => false) (ising4 0)).2.lattice.rng = (ising4 0).lattice.rng ∧
      (Metropolis (fun _ _ => false) (ising4 0)).1 = 1 ∧
      (Metropolis (fun _ _ => false) (ising4 0)).2.spin.length = (ising4 0).spin.length ∧
      (∀ s, s < (ising4 0).lattice.n_sites →
        (Metropolis (fun _ _ => false) (ising4 0)).2.spin.getD s 0 =
          -(ising4 0).spin.getD s 0) ∧
      (∀ s, (ising4 0).lattice.n_sites ≤ s →
        (Metropolis (fun _ _ => false) (ising4 0)).2.spin.getD s 0 =
          (ising4 0).spin.getD s 0) ∧
      ((ising4 0).spin.length = (ising4 0).lattice.n_sites →
        (Metropolis (fun _ _ => false) (ising4 0)).2.spin =
          (ising4 0).spin.map fun x => -x) :=
  ⟨⟨rfl, by decide, by decide!⟩,
    Metropolis_beta_zero (fun _ _ => false) (ising4 0) rfl (by decide)⟩

/-! ## The Z2 condition -/

theorem OnlyNegates_refl (f : QfeIsing) : OnlyNegates f f :=
  ⟨rfl, rfl, fun _ => Or.inl rfl⟩

theorem OnlyNegates_trans {f g r : QfeIsing} (h1 : OnlyNegates f g) (h2 : OnlyNegates g r) :
    OnlyNegates f r := by
  refine ⟨h2.1.trans h1.1, h2.2.1.trans h1.2.1, fun i => ?_⟩
  rcases h2.2.2 i with h | h <;> rcases h1.2.2 i with h3 | h3
  · exact Or.inl (h.trans h3)
  · exact Or.inr (h.trans h3)
  · exact Or.inr (by rw [h, h3])
  · exact Or.inl (by rw [h, h3, neg_neg])

theorem IsZ2_of_onlyNegates {f r : QfeIsing} (h : OnlyNegates f r) (hz : f.IsZ2) : r.IsZ2 := by
  intro s hs
  rw [h.1] at hs
  rcases h.2.2 s with e | e <;> rcases hz s hs with e1 | e1
  · exact Or.inl (e.trans e1)
  · exact Or.inr (e.trans e1)
  · exact Or.inr (by rw [e, e1])
  · exact Or.inl (by rw [e, e1, neg_neg])

theorem onlyNegates_set (f : QfeIsing) (rng : QfeRng) (s : Nat) :
    OnlyNegates f { f.withRng rng with spin := f.spin.set s (f.spin.getD s 0 * -1) } := by
  refine ⟨rfl, by simp, fun i => ?_⟩
  simp only [getD_set_eq]
  split_ifs with h
  · obtain ⟨rfl, -⟩ := h
    exact Or.inr (by ring)
  · exact Or.inl rfl

theorem metropolisSite_onlyNegates (expLt : ℚ → ℚ → Bool) (f : QfeIsing) (a s : Nat) :
    OnlyNegates f (metropolisSite expLt (f, a) s).1 := by
  unfold metropolisSite
  simp only []
  split_ifs with h1 h2
  · exact onlyNegates_set f f.lattice.rng s
  · exact onlyNegates_set f _ s
  · exact OnlyNegates_refl f

theorem metropolisLoop_onlyNegates (expLt : ℚ → ℚ → Bool) :
    ∀ (ss : List Nat) (st : QfeIsing × Nat),
      OnlyNegates st.1 (ss.foldl (metropolisSite expLt) st).1 := by
  intro ss
  induction ss with
  | nil => intro st; exact OnlyNegates_refl _
  | cons s ss ih =>
    intro st
    rw [List.foldl_cons]
    exact OnlyNegates_trans (metropolisSite_onlyNegates expLt st.1 st.2 s) (ih _)

theorem hotStartLoop_inv (f : QfeIsing) :
    ∀ k, ((List.range k).foldl hotStartSite f).lattice.n_sites = f.lattice.n_sites ∧
      ((List.range k).foldl hotStartSite f).spin.length = f.spin.length ∧
      ∀ s, s < k → s < f.spin.length →
        ((List.range k).foldl hotStartSite f).spin.getD s 0 = 1 ∨
          ((List.range k).foldl hotStartSite f).spin.getD s 0 = -1 := by
  intro k
  induction k with
  | zero => exact ⟨rfl, rfl, fun s hs => absurd hs (Nat.not_lt_zero s)⟩
  | succ k ih =>
    obtain ⟨h1, h2, h3⟩ := ih
    rw [List.range_succ, List.foldl_append, List.foldl_cons, List.foldl_nil]
    generalize (List.range k).foldl hotStartSite f = g at h1 h2 h3
    unfold hotStartSite
    simp only []
    split_ifs with hb
    · refine ⟨h1, by simpa using h2, fun s hs hlen => ?_⟩
      simp only [withRng_spin, getD_set_eq]
      by_cases hks : k = s
      · subst hks
        simp [h2, hlen]
      · simp only [hks, false_and, if_false]
        exact h3 s (by omega) hlen
    · refine ⟨h1, by simpa using h2, fun s hs hlen => ?_⟩
      simp only [withRng_spin, getD_set_eq]
      by_cases hks : k = s
      · subst hks
        simp [h2, hlen]
      · simp only [hks, false_and, if_false]
        exact h3 s (by omega) hlen

theorem HotStart_isZ2 (f : QfeIsing) (hlen : f.lattice.n_sites ≤ f.spin.length) :
    (HotStart f).IsZ2 := by
  obtain ⟨h1, -, h3⟩ := hotStartLoop_inv f f.lattice.n_sites
  intro s hs
  have hs2 : s < f.lattice.n_sites := by
    unfold HotStart at hs
    rwa [h1] at hs
  exact h3 s hs2 (by omega)

theorem ColdStart_isZ2 (f : QfeIsing) : (ColdStart f).IsZ2 := by
  intro s hs
  have hs2 : s < f.lattice.n_sites := hs
  left
  show (List.replicate f.lattice.n_sites (1 : ℚ) ++ f.spin.drop f.lattice.n_sites).getD s 0 = 1
  rw [List.getD_eq_getElem?_getD, List.getElem?_append_left (by simpa using hs2),
    List.getElem?_replicate]
  simp [hs2]

theorem WolffUpdate_onlyNegates (expLt : ℚ → ℚ → Bool) (f : QfeIsing)
    (hn : 1 ≤ f.lattice.n_sites) (hs : f.Sized) (hadj : f.lattice.AdjInRange) :
    ∃ (k : Nat) (r : QfeIsing),
      (∀ fuel, f.lattice.n_sites + 1 ≤ fuel → WolffUpdate expLt fuel f = some (k, r)) ∧
      OnlyNegates f r := by
  obtain ⟨r, hr, hinv⟩ := WolffUpdate_spec expLt f hn hs hadj
  refine ⟨_, r, hr, hinv.n_eq, hinv.slen, fun i => ?_⟩
  rw [hinv.spin_eq i]
  split_ifs
  · exact Or.inr rfl
  · exact Or.inl rfl

theorem SWUpdate_onlyNegates (expLt : ℚ → ℚ → Bool) (f : QfeIsing) (hs : f.Sized)
    (hl : f.lattice.LinksInRange) :
    ∃ (c : Nat) (r : QfeIsing),
      (∀ fuel, f.lattice.sites.length ≤ fuel → SWUpdate expLt fuel f = some (c, r)) ∧
      OnlyNegates f r := by
  obtain ⟨f1, st, h1, -, -, h4, h5⟩ := SWUpdate_result expLt f hs hl
  obtain ⟨e1, -, -, -, e5, -⟩ := h4
  refine ⟨st.n_clusters, st.f, fun fuel hfuel => (h1 fuel hfuel).2, h5.n_eq.trans e5,
    by rw [h5.spin_len, e1], fun i => ?_⟩
  rw [h5.spin_eq i, e1]
  split_ifs
  · exact Or.inr rfl
  · exact Or.inl rfl

/-- C24: the Z2 condition is established by `HotStart` and `ColdStart` and preserved
by `Metropolis`, `WolffUpdate` and `SWUpdate`: after either start every `spin[s]` with
`s < n_sites` is `+1` or `-1`; each of the three updates returns, changes entries of
`spin` only by negating them, and so keeps every spin `+1` or `-1` when it was so
before. -/
theorem Z2_invariant (expLt : ℚ → ℚ → Bool) (f : QfeIsing) (hn : 1 ≤ f.lattice.n_sites)
    (hs : f.Sized) (hadj : f.lattice.AdjInRange) (hl : f.lattice.LinksInRange) :
    (HotStart f).IsZ2 ∧ (ColdStart f).IsZ2 ∧
      (OnlyNegates f (Metropolis expLt f).2 ∧ (f.IsZ2 → (Metropolis expLt f).2.IsZ2)) ∧
      (∃ (k : Nat) (r : QfeIsing),
        (∀ fuel, f.lattice.n_sites + 1 ≤ fuel → WolffUpdate expLt fuel f = some (k, r)) ∧
        OnlyNegates f r ∧ (f.IsZ2 → r.IsZ2)) ∧
      ∃ (c : Nat) (r : QfeIsing),
        (∀ fuel, f.lattice.sites.length ≤ fuel → SWUpdate expLt fuel f = some (c, r)) ∧
        OnlyNegates f r ∧ (f.IsZ2 → r.IsZ2) := by
  have hM : OnlyNegates f (Metropolis expLt f).2 :=
    metropolisLoop_onlyNegates expLt (List.range f.lattice.n_sites) (f, 0)
  obtain ⟨k, rW, hW1, hW2⟩ := WolffUpdate_onlyNegates expLt f hn hs hadj
  obtain ⟨c, rS, hS1, hS2⟩ := SWUpdate_onlyNegates expLt f hs hl
  exact ⟨HotStart_isZ2 f (by have := hs.1; have := hs.2.1; omega), ColdStart_isZ2 f,
    ⟨hM, IsZ2_of_onlyNegates hM⟩, ⟨k, rW, hW1, hW2, IsZ2_of_onlyNegates hW2⟩,
    ⟨c, rS, hS1, hS2, IsZ2_of_onlyNegates hS2⟩⟩

/-! ## Growth of the Wolff cluster -/

theorem wolffTry_grown (expLt : ℚ → ℚ → Bool) (lat : QfeLattice) (beta : ℚ) (spin0 : List ℚ)
    (seed s0 : Nat) (st : QfeIsing × List Nat) (n : Nat)
    (hn : n < (lat.sites.getD s0 default).nn) (hs0 : s0 ∈ st.1.wolff_cluster)
    (h : WolffInv lat beta spin0 seed st.1 st.2)
    (hg : WolffGrown lat beta spin0 seed st.1.wolff_cluster) :
    WolffGrown lat beta spin0 seed
        (wolffTry expLt (lat.sites.getD s0 default) (spin0.getD s0 0) st n).1.wolff_cluster ∧
      s0 ∈ (wolffTry expLt (lat.sites.getD s0 default) (spin0.getD s0 0) st n).1.wolff_cluster := by
  obtain ⟨f, stack⟩ := st
  simp only at h hs0 hg
  unfold wolffTry
  simp only []
  split_ifs with h1 h2 h3
  · exact ⟨hg, hs0⟩
  · exact ⟨hg, hs0⟩
  · exact ⟨hg, hs0⟩
  · have hnot : (lat.sites.getD s0 default).neighbors.getD n 0 ∉ f.wolff_cluster :=
      fun hm => h1 ((h.mem_iff _).mpr hm)
    have hspin := h.spin_eq ((lat.sites.getD s0 default).neighbors.getD n 0)
    simp only [hnot, false_and, if_false] at hspin
    rw [hspin, h.beta_eq, h.links_eq] at h2
    refine ⟨?_, ?_⟩
    · simp only [withRng_wolff_cluster]
      exact WolffGrown.add _ s0 n hg hs0 hn (lt_of_not_ge h2)
    · simp only [withRng_wolff_cluster]
      exact List.mem_append_left _ hs0

theorem wolffNeighbors_grown (expLt : ℚ → ℚ → Bool) (lat : QfeLattice) (beta : ℚ)
    (spin0 : List ℚ) (seed s0 : Nat) (ns : List Nat)
    (hns : ∀ n ∈ ns, n < (lat.sites.getD s0 default).nn ∧
      (lat.sites.getD s0 default).neighbors.getD n 0 < lat.n_sites) :
    ∀ st : QfeIsing × List Nat, s0 ∈ st.1.wolff_cluster →
      WolffInv lat beta spin0 seed st.1 st.2 →
      WolffGrown lat beta spin0 seed st.1.wolff_cluster →
      WolffGrown lat beta spin0 seed
        (ns.foldl (wolffTry expLt (lat.sites.getD s0 default) (spin0.getD s0 0)) st).1.wolff_cluster := by
  induction ns with
  | nil => intro st _ _ hg; exact hg
  | cons n ns ih =>
    intro st hs0 h hg
    have h1 := wolffTry_inv expLt lat beta spin0 seed (lat.sites.getD s0 default)
      (spin0.getD s0 0) st n (hns n (List.mem_cons_self _ _)).2 h
    obtain ⟨g1, g2⟩ := wolffTry_grown expLt lat beta spin0 seed s0 st n
      (hns n (List.mem_cons_self _ _)).1 hs0 h hg
    rw [List.foldl_cons]
    exact ih (fun m hm => hns m (List.mem_cons_of_mem _ hm)) _ g2 h1.1 g1

theorem wolffLoop_grown (expLt : ℚ → ℚ → Bool) (lat : QfeLattice) (beta : ℚ)
    (spin0 : List ℚ) (seed : Nat) (hadj : lat.AdjInRange)
    (hlen : lat.n_sites ≤ spin0.length) :
    ∀ (fuel : Nat) (f : QfeIsing) (stack : List Nat) (r : QfeIsing),
      WolffInv lat beta spin0 seed f stack →
      WolffGrown lat beta spin0 seed f.wolff_cluster →
      wolffLoop expLt fuel f stack = some r →
      WolffGrown lat beta spin0 seed r.wolff_cluster := by
  intro fuel
  induction fuel with
  | zero => intro f stack r _ _ hr; simp [wolffLoop] at hr
  | succ fuel ih =>
    intro f stack r h hg hr
    cases stack with
    | nil =>
      simp only [wolffLoop, Option.some.injEq] at hr
      rw [← hr]
      exact hg
    | cons s stack =>
      have hpop := wolffPop_inv lat beta spin0 seed hlen f s stack h
      have hsC : s ∈ f.wolff_cluster := h.stack_sub s (List.mem_cons_self _ _)
      have hs : s < lat.n_sites := h.lt s hsC
      have hsite : f.lattice.sites.getD s default = lat.sites.getD s default := by
        rw [h.sites_eq]
      have hval : f.spin.getD s 0 = spin0.getD s 0 := by
        have := h.spin_eq s
        simpa using this
      have hns : ∀ n ∈ List.range (lat.sites.getD s default).nn,
          n < (lat.sites.getD s default).nn ∧
            (lat.sites.getD s default).neighbors.getD n 0 < lat.n_sites :=
        fun n hn => ⟨List.mem_range.mp hn, (hadj s hs).2 n (List.mem_range.mp hn)⟩
      simp only [wolffLoop] at hr
      rw [hsite, hval] at hr
      have hfold := wolffNeighbors_inv expLt lat beta spin0 seed
        (lat.sites.getD s default) (spin0.getD s 0) _ (fun n hn => (hns n hn).2)
        ({ f with spin := f.spin.set s (-spin0.getD s 0) }, stack) (by rw [← hval]; exact hpop)
      have hgrown := wolffNeighbors_grown expLt lat beta spin0 seed s _ hns
        ({ f with spin := f.spin.set s (-spin0.getD s 0) }, stack) hsC
        (by rw [← hval]; exact hpop) hg
      exact ih _ _ r hfold.1 hgrown hr

/-- The cluster returned by `WolffUpdate` has grown from the seed by appending
adjacency entries with a negative rate. -/
theorem WolffUpdate_grown (expLt : ℚ → ℚ → Bool) (f : QfeIsing)
    (hn : 1 ≤ f.lattice.n_sites) (hs : f.Sized) (hadj : f.lattice.AdjInRange) :
    ∃ r : QfeIsing,
      (∀ fuel, f.lattice.n_sites + 1 ≤ fuel →
        WolffUpdate expLt fuel f = some (r.wolff_cluster.length, r)) ∧
      WolffInv f.lattice f.beta f.spin (wolffSeed f) r [] ∧
      WolffGrown f.lattice f.beta f.spin (wolffSeed f) r.wolff_cluster := by
  obtain ⟨r, hr, hinv⟩ := WolffUpdate_spec expLt f hn hs hadj
  refine ⟨r, hr, hinv, ?_⟩
  have h1 := hr (f.lattice.n_sites + 1) (le_refl _)
  rw [WolffUpdate_eq_loop] at h1
  cases hloop : wolffLoop expLt (f.lattice.n_sites + 1) (wolffStart f) [wolffSeed f] with
  | none => rw [hloop] at h1; cases h1
  | some r1 =>
    rw [hloop] at h1
    simp only [Option.map_some', Option.some.injEq, Prod.mk.injEq] at h1
    have hlen : f.lattice.n_sites ≤ f.spin.length := by
      have := hs.1; have := hs.2.1; omega
    have := wolffLoop_grown expLt f.lattice f.beta f.spin (wolffSeed f) hadj hlen _ _ _ r1
      (wolffStart_inv f hn hs) (by unfold wolffStart; exact WolffGrown.seed) hloop
    rw [h1.2] at this
    exact this

theorem link_wt_nonneg (lat : QfeLattice)
    (hw : ∀ l, l < lat.links.length → 0 < (lat.links.getD l default).wt) :
    ∀ l, 0 ≤ (lat.links.getD l default).wt := by
  intro l
  by_cases h : l < lat.links.length
  · exact le_of_lt (hw l h)
  · rw [List.getD_eq_default _ _ (by omega)]
    exact le_refl _

theorem eq_of_rate_neg {beta a b w : ℚ} (hb : 0 < beta) (hw : 0 ≤ w)
    (ha : a = 1 ∨ a = -1) (hc : b = 1 ∨ b = -1) (h : -2 * beta * a * b * w < 0) : a = b := by
  have hbw : 0 ≤ beta * w := mul_nonneg hb.le hw
  rcases ha with rfl | rfl <;> rcases hc with rfl | rfl
  · rfl
  · exfalso; nlinarith
  · exfalso; nlinarith
  · rfl

theorem WolffGrown_same_spin (lat : QfeLattice) (beta : ℚ) (spin0 : List ℚ) (seed : Nat)
    (hb : 0 < beta) (hw : ∀ l, 0 ≤ (lat.links.getD l default).wt) (hadj : lat.AdjInRange)
    (hseed : seed < lat.n_sites)
    (hz : ∀ s < lat.n_sites, spin0.getD s 0 = 1 ∨ spin0.getD s 0 = -1) :
    ∀ c, WolffGrown lat beta spin0 seed c →
      ∀ i ∈ c, i < lat.n_sites ∧ spin0.getD i 0 = spin0.getD seed 0 := by
  intro c hg
  induction hg with
  | seed =>
    intro i hi
    rw [List.mem_singleton] at hi
    subst hi
    exact ⟨hseed, rfl⟩
  | add c s n _ hsc hn hrate ih =>
    intro i hi
    rcases List.mem_append.mp hi with hi | hi
    · exact ih i hi
    · rw [List.mem_singleton] at hi
      subst hi
      obtain ⟨hs1, hs2⟩ := ih s hsc
      have hx := (hadj s hs1).2 n hn
      refine ⟨hx, ?_⟩
      rw [← hs2]
      exact (eq_of_rate_neg hb (hw _) (hz s hs1) (hz _ hx) hrate).symm

/-- C22: for `beta > 0`, strictly positive link weights and spins `+1` or `-1`,
`WolffUpdate` returns, every site of the returned cluster had before the call the
same spin as the seed site, and after the call every site of the cluster carries the
negation of the spin the seed had before the call. -/
theorem WolffUpdate_cluster_same_spin (expLt : ℚ → ℚ → Bool) (f : QfeIsing)
    (hn : 1 ≤ f.lattice.n_sites) (hs : f.Sized) (hadj : f.lattice.AdjInRange)
    (hb : 0 < f.beta)
    (hw : ∀ l, l < f.lattice.links.length → 0 < (f.lattice.links.getD l default).wt)
    (hz : f.IsZ2) :
    ∃ (k : Nat) (r : QfeIsing),
      (∀ fuel, f.lattice.n_sites + 1 ≤ fuel → WolffUpdate expLt fuel f = some (k, r)) ∧
      r.wolff_cluster.head? = some (wolffSeed f) ∧
      ∀ i ∈ r.wolff_cluster,
        f.spin.getD i 0 = f.spin.getD (wolffSeed f) 0 ∧
          r.spin.getD i 0 = -f.spin.getD (wolffSeed f) 0 := by
  obtain ⟨r, hr, hinv, hg⟩ := WolffUpdate_grown expLt f hn hs hadj
  have hsame := WolffGrown_same_spin f.lattice f.beta f.spin (wolffSeed f) hb
    (link_wt_nonneg f.lattice hw) hadj (wolffSeed_lt f hn) hz _ hg
  refine ⟨_, r, hr, hinv.seed_head, fun i hi => ⟨(hsame i hi).2, ?_⟩⟩
  rw [hinv.spin_eq i, ← (hsame i hi).2]
  simp [hi]

/-! ## Connectedness of the Wolff cluster -/

theorem ClusterPath_mono {step step2 : Nat → Nat → Prop} {c c2 : List Nat}
    (hc : ∀ x ∈ c, x ∈ c2) (hstep : ∀ a b, a ∈ c → step a b → step2 a b) {a b : Nat}
    (h : ClusterPath step c a b) : ClusterPath step2 c2 a b := by
  unfold ClusterPath at h ⊢
  exact Relation.ReflTransGen.mono (fun x y hxy => ⟨hc x hxy.1, hc y hxy.2.1,
    hstep x y hxy.1 hxy.2.2⟩) h

theorem WolffGrown_path (lat : QfeLattice) (beta : ℚ) (spin0 : List ℚ) (seed : Nat) :
    ∀ c, WolffGrown lat beta spin0 seed c →
      c.head? = some seed ∧ (∀ x ∈ c, ClusterPath lat.Adjacent c seed x) ∧
        ∀ j, 0 < j → j < c.length →
          ∃ i, i < j ∧ lat.Adjacent (c.getD i 0) (c.getD j 0) := by
  intro c hg
  induction hg with
  | seed =>
    refine ⟨rfl, fun x hx => ?_, fun j hj hlt => ?_⟩
    · rw [List.mem_singleton] at hx
      subst hx
      exact Relation.ReflTransGen.refl
    · simp only [List.length_singleton] at hlt
      omega
  | add c s n _ hsc hn _ ih =>
    obtain ⟨ih1, ih2, ih3⟩ := ih
    have hadjacent : lat.Adjacent s ((lat.sites.getD s default).neighbors.getD n 0) :=
      ⟨n, hn, rfl⟩
    refine ⟨?_, fun x hx => ?_, fun j hj hlt => ?_⟩
    · cases c with
      | nil => simp at ih1
      | cons a t => simpa using ih1
    · rcases List.mem_append.mp hx with hx | hx
      · exact ClusterPath_mono (fun y hy => List.mem_append_left _ hy) (fun _ _ _ h => h)
          (ih2 x hx)
      · rw [List.mem_singleton] at hx
        subst hx
        have hp : ClusterPath lat.Adjacent
            (c ++ [(lat.sites.getD s default).neighbors.getD n 0]) seed s :=
          ClusterPath_mono (fun y hy => List.mem_append_left _ hy) (fun _ _ _ h => h)
            (ih2 s hsc)
        exact Relation.ReflTransGen.tail hp
          ⟨List.mem_append_left _ hsc, List.mem_append_right _ (List.mem_singleton_self _),
            hadjacent⟩
    · rw [List.length_append, List.length_singleton] at hlt
      by_cases hjc : j < c.length
      · obtain ⟨i, hi, hadj⟩ := ih3 j hj hjc
        refine ⟨i, hi, ?_⟩
        rw [List.getD_append _ _ _ _ (by omega), List.getD_append _ _ _ _ hjc]
        exact hadj
      · have hjeq : j = c.length := by omega
        obtain ⟨i, hi, e⟩ := List.getElem_of_mem hsc
        refine ⟨i, by omega, ?_⟩
        rw [List.getD_append _ _ _ _ hi, List.getD_eq_getElem _ _ hi, e, hjeq,
          List.getD_append_right _ _ _ _ (le_refl _)]
        simpa using hadjacent

theorem linked_of_adjacent (lat : QfeLattice) (a b : Nat) (hex : lat.AdjExact a)
    (h : lat.Adjacent a b) : lat.Linked a b := by
  obtain ⟨n, hn, e⟩ := h
  have hmem : ((lat.sites.getD a default).links.getD n 0, b) ∈
      (List.range (lat.sites.getD a default).nn).map fun n =>
        ((lat.sites.getD a default).links.getD n 0,
          (lat.sites.getD a default).neighbors.getD n 0) :=
    List.mem_map.mpr ⟨n, List.mem_range.mpr hn, by rw [e]⟩
  have hmem2 := (List.Perm.mem_iff hex).mp hmem
  obtain ⟨l, hl, hinc⟩ := List.mem_filterMap.mp hmem2
  refine ⟨l, List.mem_range.mp hl, ?_⟩
  unfold incident at hinc
  split_ifs at hinc with h1 h2
  · left
    have e2 : (lat.links.getD l default).sites.2 = b := by
      simpa using congrArg Prod.snd (Option.some.inj hinc)
    exact Prod.ext h1 e2
  · right
    have e2 : (lat.links.getD l default).sites.1 = b := by
      simpa using congrArg Prod.snd (Option.some.inj hinc)
    exact Prod.ext e2 h2

/-- C23: the cluster built by `WolffUpdate` is connected: the call returns, the first
entry of `wolff_cluster` is the seed, every later entry is an adjacency entry of a
site at an earlier position of `wolff_cluster`, and every member is joined to
`wolff_cluster[0]` by a path of adjacency steps all of whose sites are in the cluster;
when the adjacency lists list exactly the incident links, the path runs along lattice
links. -/
theorem WolffUpdate_cluster_connected (expLt : ℚ → ℚ → Bool) (f : QfeIsing)
    (hn : 1 ≤ f.lattice.n_sites) (hs : f.Sized) (hadj : f.lattice.AdjInRange) :
    ∃ (k : Nat) (r : QfeIsing),
      (∀ fuel, f.lattice.n_sites + 1 ≤ fuel → WolffUpdate expLt fuel f = some (k, r)) ∧
      r.wolff_cluster.head? = some (wolffSeed f) ∧
      (∀ j, 0 < j → j < r.wolff_cluster.length →
        ∃ i, i < j ∧
          f.lattice.Adjacent (r.wolff_cluster.getD i 0) (r.wolff_cluster.getD j 0)) ∧
      (∀ x ∈ r.wolff_cluster,
        ClusterPath f.lattice.Adjacent r.wolff_cluster (r.wolff_cluster.getD 0 0) x) ∧
      ((∀ s, s < f.lattice.n_sites → f.lattice.AdjExact s) →
        ∀ x ∈ r.wolff_cluster,
          ClusterPath f.lattice.Linked r.wolff_cluster (r.wolff_cluster.getD 0 0) x) := by
  obtain ⟨r, hr, hinv, hg⟩ := WolffUpdate_grown expLt f hn hs hadj
  obtain ⟨h1, h2, h3⟩ := WolffGrown_path f.lattice f.beta f.spin (wolffSeed f) _ hg
  have h0 : r.wolff_cluster.getD 0 0 = wolffSeed f := by
    cases hc : r.wolff_cluster with
    | nil => rw [hc] at h1; simp at h1
    | cons a t => rw [hc] at h1; simpa using h1
  refine ⟨_, r, hr, h1, h3, by rw [h0]; exact h2, fun hex x hx => ?_⟩
  rw [h0]
  exact ClusterPath_mono (fun y hy => hy)
    (fun a b ha hab => linked_of_adjacent f.lattice a b (hex a (hinv.lt a ha)) hab) (h2 x hx)

/-- Witness of C22 on the 4-cycle with spins `+1, +1, +1, -1` and `beta = 1`. -/
theorem WolffUpdate_cluster_same_spin_witness :
    (1 ≤ (ising4 1).lattice.n_sites ∧ (ising4 1).Sized ∧ (ising4 1).lattice.AdjInRange ∧
        0 < (ising4 1).beta ∧
        (∀ l, l < (ising4 1).lattice.links.length →
          0 < ((ising4 1).lattice.links.getD l default).wt) ∧
        (ising4 1).IsZ2) ∧
      ∃ (k : Nat) (r : QfeIsing),
        (∀ fuel, (ising4 1).lattice.n_sites + 1 ≤ fuel →
          WolffUpdate (fun _ _ => false) fuel (ising4 1) = some (k, r)) ∧
        r.wolff_cluster.head? = some (wolffSeed (ising4 1)) ∧
        ∀ i ∈ r.wolff_cluster,
          (ising4 1).spin.getD i 0 = (ising4 1).spin.getD (wolffSeed (ising4 1)) 0 ∧
            r.spin.getD i 0 = -(ising4 1).spin.getD (wolffSeed (ising4 1)) 0 :=
  ⟨⟨by decide, by decide, by decide, by decide!, by decide!, by decide!⟩,
    WolffUpdate_cluster_same_spin (fun _ _ => false) (ising4 1) (by decide) (by decide)
      (by decide) (by decide!) (by decide!) (by decide!)⟩

/-- Witness of C23 on the 4-cycle, whose adjacency lists list exactly the incident
links. -/
theorem WolffUpdate_cluster_connected_witness :
    (1 ≤ (ising4 1).lattice.n_sites ∧ (ising4 1).Sized ∧ (ising4 1).lattice.AdjInRange ∧
        ∀ s, s < (ising4 1).lattice.n_sites → (ising4 1).lattice.AdjExact s) ∧
      ∃ (k : Nat) (r : QfeIsing),
        (∀ fuel, (ising4 1).lattice.n_sites + 1 ≤ fuel →
          WolffUpdate (fun _ _ => false) fuel (ising4 1) = some (k, r)) ∧
        r.wolff_cluster.head? = some (wolffSeed (ising4 1)) ∧
        (∀ j, 0 < j → j < r.wolff_cluster.length →
          ∃ i, i < j ∧
            (ising4 1).lattice.Adjacent (r.wolff_cluster.getD i 0)
              (r.wolff_cluster.getD j 0)) ∧
        (∀ x ∈ r.wolff_cluster,
          ClusterPath (ising4 1).lattice.Adjacent r.wolff_cluster
            (r.wolff_cluster.getD 0 0) x) ∧
        ((∀ s, s < (ising4 1).lattice.n_sites → (ising4 1).lattice.AdjExact s) →
          ∀ x ∈ r.wolff_cluster,
            ClusterPath (ising4 1).lattice.Linked r.wolff_cluster
              (r.wolff_cluster.getD 0 0) x) :=
  ⟨⟨by decide, by decide, by decide, by decide⟩,
    WolffUpdate_cluster_connected (fun _ _ => false) (ising4 1) (by decide) (by decide)
      (by decide)⟩

/-- Witness of C24 on the 4-cycle: the raw draws `2, 9, 16, 23` make `HotStart` set
the spins `-1, +1, -1, +1`. -/
theorem Z2_invariant_witness :
    (1 ≤ (ising4 1).lattice.n_sites ∧ (ising4 1).Sized ∧ (ising4 1).lattice.AdjInRange ∧
        (ising4 1).lattice.LinksInRange ∧ (ising4 1).IsZ2 ∧
        (HotStart (ising4 1)).spin = [-1, 1, -1, 1]) ∧
      (HotStart (ising4 1)).IsZ2 ∧ (ColdStart (ising4 1)).IsZ2 ∧
      (OnlyNegates (ising4 1) (Metropolis (fun _ _ => false) (ising4 1)).2 ∧
        ((ising4 1).IsZ2 → (Metropolis (fun _ _ => false) (ising4 1)).2.IsZ2)) ∧
      (∃ (k : Nat) (r : QfeIsing),
        (∀ fuel, (ising4 1).lattice.n_sites + 1 ≤ fuel →
          WolffUpdate (fun _ _ => false) fuel (ising4 1) = some (k, r)) ∧
        OnlyNegates (ising4 1) r ∧ ((ising4 1).IsZ2 → r.IsZ2)) ∧
      ∃ (c : Nat) (r : QfeIsing),
        (∀ fuel, (ising4 1).lattice.sites.length ≤ fuel →
          SWUpdate (fun _ _ => false) fuel (ising4 1) = some (c, r)) ∧
        OnlyNegates (ising4 1) r ∧ ((ising4 1).IsZ2 → r.IsZ2) :=
  ⟨⟨by decide, by decide, by decide, by decide, by decide!, by decide!⟩,
    Z2_invariant (fun _ _ => false) (ising4 1) (by decide) (by decide) (by decide)
      (by decide)⟩

/-! ## Swendsen-Wang clusters carry one spin value -/

theorem enumLoop_flatMap {α : Type} (F : Nat × List (Nat × Nat × Nat × Nat) → α →
      Nat × List (Nat × Nat × Nat × Nat)) (G : α → List (Nat × Nat × Nat))
    (hF : ∀ st x, F st x = (st.1 + (G x).length, st.2 ++ List.enumFrom st.1 (G x))) :
    ∀ (xs : List α) (st : Nat × List (Nat × Nat × Nat × Nat)),
      xs.foldl F st =
        (st.1 + (xs.flatMap G).length, st.2 ++ List.enumFrom st.1 (xs.flatMap G)) := by
  intro xs
  induction xs with
  | nil => intro st; simp
  | cons x xs ih =>
    intro st
    rw [List.foldl_cons, ih, hF, List.flatMap_cons, List.length_append, List.enumFrom_append,
      List.append_assoc, Nat.add_assoc]

theorem flatMap_singleton_eq_map {α β : Type} (g : α → β) (xs : List α) :
    (xs.flatMap fun x => [g x]) = xs.map g := by
  induction xs with
  | nil => rfl
  | cons x xs ih => rw [List.flatMap_cons, ih]; rfl

/-- The nested loops visit the harmonics in lexicographic order, numbering them
consecutively from 0. -/
theorem nestedHarmonics_eq (j_max : Int) (J : Nat) (hJ : (j_max + 1).toNat = J + 1) :
    nestedHarmonics j_max = ((harmonics J).length, List.enumFrom 0 (harmonics J)) := by
  unfold nestedHarmonics
  rw [hJ]
  have hm : ∀ (y_j y_l : Nat) (st : Nat × List (Nat × Nat × Nat × Nat)),
      (List.range (y_l + 1)).foldl
          (fun st y_m => (st.1 + 1, st.2 ++ [(st.1, y_j, y_l, y_m)])) st =
        (st.1 + (harmonicsJL y_j y_l).length,
          st.2 ++ List.enumFrom st.1 (harmonicsJL y_j y_l)) := by
    intro y_j y_l st
    have h := enumLoop_flatMap (fun st y_m => (st.1 + 1, st.2 ++ [(st.1, y_j, y_l, y_m)]))
      (fun y_m => [(y_j, y_l, y_m)]) (fun st x => rfl) (List.range (y_l + 1)) st
    rw [flatMap_singleton_eq_map] at h
    exact h
  have hl : ∀ (y_j : Nat) (st : Nat × List (Nat × Nat × Nat × Nat)),
      (List.range (y_j + 1)).foldl
          (fun st y_l =>
            (List.range (y_l + 1)).foldl
              (fun st y_m => (st.1 + 1, st.2 ++ [(st.1, y_j, y_l, y_m)])) st) st =
        (st.1 + (harmonicsJ y_j).length, st.2 ++ List.enumFrom st.1 (harmonicsJ y_j)) := by
    intro y_j st
    rw [enumLoop_flatMap _ (harmonicsJL y_j) (fun st x => hm y_j x st)]
    rfl
  rw [enumLoop_flatMap _ harmonicsJ (fun st x => hl x st)]
  simp only [Nat.zero_add, List.nil_append]
  rfl

theorem harmonicsJL_length (y_j y_l : Nat) : (harmonicsJL y_j y_l).length = y_l + 1 := by
  simp [harmonicsJL]

theorem harmonicsJL_succ (y_j y_l : Nat) :
    harmonicsJL y_j y_l =
      ((List.range' 0 y_l).map fun y_m => (y_j, y_l, y_m)) ++ [(y_j, y_l, y_l)] := by
  unfold harmonicsJL
  rw [List.range_succ, List.map_append, List.range_eq_range']
  rfl

theorem counter_m_steps :
    ∀ (k a j l m : Nat) (V : List (Nat × Nat × Nat × Nat)) (M : List Nat), m + k ≤ l →
      (List.range' a k).foldl counterStep ⟨j, l, m, V, M⟩ =
        ⟨j, l, m + k, V ++ List.enumFrom a ((List.range' m k).map fun y_m => (j, l, y_m)), M⟩ := by
  intro k
  induction k with
  | zero => intro a j l m V M _; simp
  | succ k ih =>
    intro a j l m V M h
    have hstep : counterStep ⟨j, l, m, V, M⟩ a = ⟨j, l, m + 1, V ++ [(a, j, l, m)], M⟩ := by
      unfold counterStep
      simp only []
      rw [if_neg (by omega)]
    rw [List.range'_succ, List.foldl_cons, hstep, ih (a + 1) j l (m + 1) _ M (by omega)]
    simp only [List.range'_succ, List.map_cons, List.enumFrom_cons, List.append_assoc,
      List.singleton_append, HarmonicCounter.mk.injEq, true_and, and_true]
    omega

theorem counter_row (a j l : Nat) (V : List (Nat × Nat × Nat × Nat)) (M : List Nat) :
    (List.range' a (l + 1)).foldl counterStep ⟨j, l, 0, V, M⟩ =
      if l + 1 > j then
        ⟨j + 1, 0, 0, V ++ List.enumFrom a (harmonicsJL j l), M ++ [j]⟩
      else ⟨j, l + 1, 0, V ++ List.enumFrom a (harmonicsJL j l), M⟩ := by
  rw [List.range'_concat, List.foldl_append, counter_m_steps l a j l 0 V M (by omega),
    List.foldl_cons, List.foldl_nil, harmonicsJL_succ, List.enumFrom_append]
  unfold counterStep
  simp only [Nat.zero_add, Nat.one_mul, List.length_map, List.length_range',
    List.enumFrom_singleton, List.append_assoc]
  rw [if_pos (by omega)]

theorem counter_l_steps (j : Nat) :
    ∀ (k l0 a : Nat) (V : List (Nat × Nat × Nat × Nat)) (M : List Nat), l0 + k ≤ j →
      (List.range' a ((List.range' l0 k).flatMap (harmonicsJL j)).length).foldl counterStep
          ⟨j, l0, 0, V, M⟩ =
        ⟨j, l0 + k, 0, V ++ List.enumFrom a ((List.range' l0 k).flatMap (harmonicsJL j)), M⟩ := by
  intro k
  induction k with
  | zero => intro l0 a V M _; simp
  | succ k ih =>
    intro l0 a V M h
    rw [List.range'_succ, List.flatMap_cons, List.length_append, harmonicsJL_length,
      Nat.add_comm (l0 + 1), ← List.range'_append, List.foldl_append, counter_row,
      if_neg (by omega), Nat.one_mul, ih (l0 + 1) _ _ M (by omega), List.enumFrom_append,
      harmonicsJL_length, List.append_assoc]
    simp only [HarmonicCounter.mk.injEq, true_and, and_true]
    omega

theorem harmonicsJ_succ (j : Nat) :
    harmonicsJ j = (List.range' 0 j).flatMap (harmonicsJL j) ++ harmonicsJL j j := by
  unfold harmonicsJ
  rw [List.range_succ, List.flatMap_append, List.range_eq_range']
  simp

theorem counter_j_row (j a : Nat) (V : List (Nat × Nat × Nat × Nat)) (M : List Nat) :
    (List.range' a (harmonicsJ j).length).foldl counterStep ⟨j, 0, 0, V, M⟩ =
      ⟨j + 1, 0, 0, V ++ List.enumFrom a (harmonicsJ j), M ++ [j]⟩ := by
  rw [harmonicsJ_succ, List.length_append, harmonicsJL_length, Nat.add_comm _ (j + 1),
    ← List.range'_append, List.foldl_append, counter_l_steps j j 0 a V M (by omega),
    Nat.zero_add, Nat.one_mul, counter_row, if_pos (by omega), List.enumFrom_append,
    List.append_assoc]

theorem counter_j_steps :
    ∀ (k j0 a : Nat) (V : List (Nat × Nat × Nat × Nat)) (M : List Nat),
      (List.range' a ((List.range' j0 k).flatMap harmonicsJ).length).foldl counterStep
          ⟨j0, 0, 0, V, M⟩ =
        ⟨j0 + k, 0, 0, V ++ List.enumFrom a ((List.range' j0 k).flatMap harmonicsJ),
          M ++ List.range' j0 k⟩ := by
  intro k
  induction k with
  | zero => intro j0 a V M; simp
  | succ k ih =>
    intro j0 a V M
    rw [List.range'_succ, List.flatMap_cons, List.length_append,
      Nat.add_comm (harmonicsJ j0).length, ← List.range'_append, List.foldl_append,
      counter_j_row, Nat.one_mul, ih (j0 + 1), List.enumFrom_append, List.append_assoc,
      List.append_assoc]
    simp only [List.singleton_append, HarmonicCounter.mk.injEq, true_and, and_true]
    omega

theorem harmonicsJ_length (j : Nat) : 2 * (harmonicsJ j).length = (j + 1) * (j + 2) := by
  have h : ∀ n, 2 * ((List.range n).flatMap (harmonicsJL j)).length = n * (n + 1) := by
    intro n
    induction n with
    | zero => simp
    | succ n ih =>
      rw [List.range_succ, List.flatMap_append, List.length_append, Nat.mul_add, ih]
      simp only [List.flatMap_cons, List.flatMap_nil, List.append_nil, harmonicsJL_length]
      ring
  exact h (j + 1)

theorem harmonics_length (j_max : Nat) :
    (harmonics j_max).length = (j_max + 1) * (j_max + 2) * (j_max + 3) / 6 := by
  have h : ∀ n, 6 * ((List.range n).flatMap harmonicsJ).length = n * (n + 1) * (n + 2) := by
    intro n
    induction n with
    | zero => simp
    | succ n ih =>
      rw [List.range_succ, List.flatMap_append, List.length_append, Nat.mul_add, ih]
      simp only [List.flatMap_cons, List.flatMap_nil, List.append_nil]
      have := harmonicsJ_length n
      have e : 6 * (harmonicsJ n).length = 3 * ((n + 1) * (n + 2)) := by omega
      rw [e]
      ring
  unfold harmonics
  have := h (j_max + 1)
  exact (Nat.div_eq_of_eq_mul_right (by decide) this.symm).symm

theorem toInt32_of_range (x : Int) (h0 : 0 ≤ x) (h1 : x < 2147483648) : toInt32 x = x := by
  unfold toInt32
  omega

/-- For `0 ≤ j_max ≤ 1288` no operation of line 90 wraps, and `n_yjlm` is the exact
quotient. -/
theorem n_yjlm_exact (J : Nat) (hJ : J ≤ 1288) :
    n_yjlm (J : Int) = (((J + 1) * (J + 2) * (J + 3) / 6 : Nat) : Int) ∧
      (J + 1) * (J + 2) * (J + 3) / 6 < 2147483648 := by
  have h1 : (J + 1) * (J + 2) ≤ 1289 * 1290 := Nat.mul_le_mul (by omega) (by omega)
  have h2 : (J + 1) * (J + 2) * (J + 3) ≤ 1289 * 1290 * 1291 :=
    Nat.mul_le_mul h1 (by omega)
  have h1z : ((J : Int) + 1) * ((J : Int) + 2) ≤ 1289 * 1290 := by exact_mod_cast h1
  have h2z : ((J : Int) + 1) * ((J : Int) + 2) * ((J : Int) + 3) ≤ 1289 * 1290 * 1291 := by
    exact_mod_cast h2
  have p1 : (0 : Int) ≤ ((J : Int) + 1) * ((J : Int) + 2) := by positivity
  have p2 : (0 : Int) ≤ ((J : Int) + 1) * ((J : Int) + 2) * ((J : Int) + 3) := by positivity
  constructor
  · unfold n_yjlm
    rw [toInt32_of_range ((J : Int) + 1) (by omega) (by omega),
      toInt32_of_range ((J : Int) + 2) (by omega) (by omega),
      toInt32_of_range ((J : Int) + 3) (by omega) (by omega),
      toInt32_of_range _ p1 (by omega), toInt32_of_range _ p2 (by omega),
      Int.tdiv_eq_ediv p2 (by norm_num)]
    push_cast
    rfl
  · omega

/-- The measurement loop visits the harmonics in lexicographic order, numbering them
consecutively from 0, and calls `Measure` once for each `y_j` in increasing order,
when `n_yjlm` is the number of harmonics. -/
theorem harmonicCounter_eq (j_max : Int) (J : Nat)
    (hn : (n_yjlm j_max).toNat = (harmonics J).length) :
    harmonicCounter j_max =
      ⟨J + 1, 0, 0, List.enumFrom 0 (harmonics J), List.range (J + 1)⟩ := by
  have h := counter_j_steps (J + 1) 0 0 [] []
  simp only [Nat.zero_add, List.nil_append, ← List.range_eq_range'] at h
  unfold harmonicCounter
  rw [hn]
  exact h

theorem mem_harmonics (j_max j l m : Nat) :
    (j, l, m) ∈ harmonics j_max ↔ m ≤ l ∧ l ≤ j ∧ j ≤ j_max := by
  unfold harmonics harmonicsJ harmonicsJL
  simp only [List.mem_flatMap, List.mem_map, List.mem_range, Prod.mk.injEq]
  constructor
  · rintro ⟨a, ha, b, hb, c, hc, rfl, rfl, rfl⟩
    omega
  · intro h
    exact ⟨j, by omega, l, by omega, m, by omega, rfl, rfl, rfl⟩

theorem harmonics_nodup (j_max : Nat) : (harmonics j_max).Nodup := by
  unfold harmonics
  rw [List.nodup_flatMap]
  refine ⟨fun j _ => ?_, ?_⟩
  · unfold harmonicsJ
    rw [List.nodup_flatMap]
    refine ⟨fun l _ => ?_, ?_⟩
    · unfold harmonicsJL
      refine List.Nodup.map ?_ (List.nodup_range _)
      intro a b hab
      simpa using hab
    · refine List.Pairwise.imp ?_ (List.nodup_range (j + 1))
      intro a b hab x hxa hxb
      simp only [harmonicsJL, List.mem_map, List.mem_range] at hxa hxb
      obtain ⟨m1, -, rfl⟩ := hxa
      obtain ⟨m2, -, e⟩ := hxb
      simp only [Prod.mk.injEq, true_and] at e
      exact hab e.1.symm
  · refine List.Pairwise.imp ?_ (List.nodup_range (j_max + 1))
    intro a b hab x hxa hxb
    simp only [harmonicsJ, harmonicsJL, List.mem_flatMap, List.mem_map, List.mem_range] at hxa hxb
    obtain ⟨l1, -, m1, -, rfl⟩ := hxa
    obtain ⟨l2, -, m2, -, e⟩ := hxb
    simp only [Prod.mk.injEq] at e
    exact hab e.1.symm

/-- C28 (as amended): in `phi4_s3_corr`, for every `j_max` with `0 ≤ j_max ≤ 1288`,
the range in which `(j_max + 1) * (j_max + 2) * (j_max + 3)` fits in `int`, `n_yjlm`
is the exact quotient by 6, and the measurement loop with the incremental counter
`(y_j, y_l, y_m)` over `y_i = 0 .. n_yjlm - 1` visits the same harmonics with the same
index `y_i` and in the same order as the nested loops that fill `yjlm_2pt_sum`, whose
counter `y_i` ends at `n_yjlm`, below `2 ^ 31`; the indices visited are
`0 .. n_yjlm - 1` in order; a triple is visited exactly when
`0 ≤ y_m ≤ y_l ≤ y_j ≤ j_max`, and no triple twice, so `y_j ≤ j_max` at every visit;
and `legendre_2pt[y_j].Measure` is called exactly once for each `y_j` in
`0 .. j_max`, in increasing order. -/
theorem harmonicCounter_refines_nested (j_max : Int) (h0 : 0 ≤ j_max) (h1 : j_max ≤ 1288) :
    n_yjlm j_max = (j_max + 1) * (j_max + 2) * (j_max + 3) / 6 ∧
      ((nestedHarmonics j_max).1 : Int) = n_yjlm j_max ∧
      (nestedHarmonics j_max).1 < 2147483648 ∧
      (harmonicCounter j_max).visited = (nestedHarmonics j_max).2 ∧
      (harmonicCounter j_max).visited.map Prod.fst = List.range (n_yjlm j_max).toNat ∧
      (∀ j l m : Nat, (∃ i, (i, j, l, m) ∈ (harmonicCounter j_max).visited) ↔
        m ≤ l ∧ l ≤ j ∧ (j : Int) ≤ j_max) ∧
      ((harmonicCounter j_max).visited.map Prod.snd).Nodup ∧
      (harmonicCounter j_max).measured = List.range (j_max + 1).toNat := by
  obtain ⟨J, rfl⟩ := Int.eq_ofNat_of_zero_le h0
  have hJ : J ≤ 1288 := by omega
  obtain ⟨hn, hlt⟩ := n_yjlm_exact J hJ
  have hlen := harmonics_length J
  have hJ1 : ((J : Int) + 1).toNat = J + 1 := by omega
  have hcount : (n_yjlm (J : Int)).toNat = (harmonics J).length := by
    rw [hn, hlen]
    exact Int.toNat_ofNat _
  rw [harmonicCounter_eq (J : Int) J hcount, nestedHarmonics_eq (J : Int) J hJ1]
  have hsnd : (List.enumFrom 0 (harmonics J)).map Prod.snd = harmonics J :=
    List.enumFrom_map_snd 0 _
  refine ⟨?_, ?_, ?_, rfl, ?_, fun j l m => ?_, ?_, ?_⟩
  · rw [hn]
    push_cast
    rfl
  · show (((harmonics J).length : Nat) : Int) = _
    rw [hn, hlen]
  · show (harmonics J).length < _
    rw [hlen]
    exact hlt
  · show (List.enumFrom 0 (harmonics J)).map Prod.fst = _
    rw [List.enumFrom_map_fst, hcount, List.range_eq_range']
  · show (∃ i, (i, j, l, m) ∈ List.enumFrom 0 (harmonics J)) ↔ _
    have hmem : (j, l, m) ∈ harmonics J ↔
        (j, l, m) ∈ (List.enumFrom 0 (harmonics J)).map Prod.snd := by rw [hsnd]
    have hcast : ((j : Int) ≤ (J : Int)) ↔ j ≤ J := Int.ofNat_le
    rw [hcast, ← mem_harmonics, hmem, List.mem_map]
    constructor
    · rintro ⟨i, hi⟩
      exact ⟨(i, j, l, m), hi, rfl⟩
    · rintro ⟨⟨i, x⟩, hi, e⟩
      simp only at e
      subst e
      exact ⟨i, hi⟩
  · show ((List.enumFrom 0 (harmonics J)).map Prod.snd).Nodup
    rw [hsnd]
    exact harmonics_nodup J
  · show List.range (J + 1) = _
    rw [hJ1]

/-- Witness of C28 (as amended) at `j_max = 2`: ten harmonics. -/
theorem harmonicCounter_refines_nested_witness :
    ((0 : Int) ≤ 2 ∧ (2 : Int) ≤ 1288 ∧ n_yjlm 2 = 10 ∧
        (harmonicCounter 2).visited =
          [(0, 0, 0, 0), (1, 1, 0, 0), (2, 1, 1, 0), (3, 1, 1, 1), (4, 2, 0, 0), (5, 2, 1, 0),
            (6, 2, 1, 1), (7, 2, 2, 0), (8, 2, 2, 1), (9, 2, 2, 2)]) ∧
      n_yjlm 2 = (2 + 1) * (2 + 2) * (2 + 3) / 6 ∧
      ((nestedHarmonics 2).1 : Int) = n_yjlm 2 ∧
      (nestedHarmonics 2).1 < 2147483648 ∧
      (harmonicCounter 2).visited = (nestedHarmonics 2).2 ∧
      (harmonicCounter 2).visited.map Prod.fst = List.range (n_yjlm 2).toNat ∧
      (∀ j l m : Nat, (∃ i, (i, j, l, m) ∈ (harmonicCounter 2).visited) ↔
        m ≤ l ∧ l ≤ j ∧ (j : Int) ≤ 2) ∧
      ((harmonicCounter 2).visited.map Prod.snd).Nodup ∧
      (harmonicCounter 2).measured = List.range ((2 : Int) + 1).toNat :=
  ⟨⟨by decide, by decide, by decide, by decide⟩,
    harmonicCounter_refines_nested 2 (by decide) (by decide)⟩

/-- C28 (counterexample): at `j_max = 1289` the product `1290 * 1291 * 1292` does not
fit in `int`; line 90 yields `n_yjlm = -357213902`, so the measurement loop makes no
iteration: it visits no harmonic and calls `Measure` for no `y_j`, while the nested
loops visit all 358613980 harmonics `0 ≤ y_m ≤ y_l ≤ y_j ≤ 1289`. -/
theorem harmonicCounter_overflow_counterexample :
    (0 : Int) ≤ 1289 ∧ n_yjlm 1289 = -357213902 ∧
      (harmonicCounter 1289).visited = [] ∧ (harmonicCounter 1289).measured = [] ∧
      (nestedHarmonics 1289).2.length = 358613980 ∧
      (harmonicCounter 1289).visited ≠ (nestedHarmonics 1289).2 ∧
      (harmonicCounter 1289).measured ≠ List.range ((1289 : Int) + 1).toNat := by
  have hn : n_yjlm 1289 = -357213902 := by decide
  have hc : harmonicCounter 1289 = ⟨0, 0, 0, [], []⟩ := by
    unfold harmonicCounter
    rw [hn]
    rfl
  have hnest : (nestedHarmonics 1289).2.length = 358613980 := by
    have h := nestedHarmonics_eq 1289 1289 (by omega)
    have h2 : (nestedHarmonics 1289).2 = List.enumFrom 0 (harmonics 1289) := by rw [h]
    rw [h2, List.enumFrom_length, harmonics_length]
  refine ⟨by decide, hn, by rw [hc], by rw [hc], hnest, ?_, ?_⟩
  · intro h
    rw [← h, hc] at hnest
    simp at hnest
  · rw [hc]
    intro h
    have := congrArg List.length h
    simp at this

end QFE
